import Mathlib

/-!
The file kadmin/v5server/srv_acl.c : the administrative ACL of the Kerberos V5 admin server.

A shallow embedding of `srv_acl.c` and the properties of its rule loader, matcher and
permission check.

Conventions of the embedding.

* A C `char` is a natural number, its value as an unsigned byte.  `char` is taken to be
  signed, as the test `acl_buf[0] == EOF` of `acl_get_line` requires: the byte 255 is the
  `char` that compares equal to `EOF`.
* A counted buffer (`krb5_data`) is the list of its `length` bytes.  A C string is the
  list of the characters before its terminator; reading a string at its end yields the
  terminator 0.
* `krb5_int32` masks are natural numbers below `2 ^ 32` (the bit pattern), with `&`, `|`
  the bitwise operations of `Nat` and `~` the complement on 32 bits.
* The size `BUFSIZ` of `stdio.h` is a parameter of the functions that read lines.
* Diagnostics (`fprintf`, `com_err`, `DPRINT`) and the line counter, which only feeds
  them, are left out; `malloc` is taken to succeed.
* A read of memory that has been freed has no defined behaviour: a run that reaches one
  ends there, with the outcome `undefined`.
* The character classes are those of the "C" locale.
-/

namespace SrvAcl

/-! ## Constants of `kadm5_defs.h` and `stdio.h` -/

/-- Modelled from the spec: the operation masks `ACL_*` of `kadm5_defs.h`, a header that
is not among the sources.  The functions below take them as a parameter. -/
structure acl_masks where
  ACL_ADD_PRINCIPAL : Nat
  ACL_DELETE_PRINCIPAL : Nat
  ACL_EXTRACT : Nat
  ACL_MODIFY_PRINCIPAL : Nat
  ACL_CHANGEPW : Nat
  ACL_CHANGE_OWN_PW : Nat
  ACL_INQUIRE : Nat
  ACL_PRINCIPAL_MASK : Nat
  ACL_PASSWD_MASK : Nat
  ACL_ALL_MASK : Nat
  deriving DecidableEq

/-- Modelled from the spec: the data model's invariant on the operation masks.  Every mask
fits a `krb5_int32`, the primitive operations are non-zero and pairwise disjoint, and the
aggregate masks are unions of primitive bits (AllPrincipalOps and AllPasswordOps of the
principal-management and password operations, AllOps of everything). -/
def acl_masks.wf (K : acl_masks) : Prop :=
  (∀ m ∈ [K.ACL_ADD_PRINCIPAL, K.ACL_DELETE_PRINCIPAL, K.ACL_EXTRACT, K.ACL_MODIFY_PRINCIPAL,
      K.ACL_CHANGEPW, K.ACL_CHANGE_OWN_PW, K.ACL_INQUIRE, K.ACL_PRINCIPAL_MASK,
      K.ACL_PASSWD_MASK, K.ACL_ALL_MASK], m < 2 ^ 32) ∧
  (K.ACL_ADD_PRINCIPAL ≠ 0 ∧ K.ACL_DELETE_PRINCIPAL ≠ 0 ∧ K.ACL_EXTRACT ≠ 0 ∧
    K.ACL_MODIFY_PRINCIPAL ≠ 0 ∧ K.ACL_CHANGEPW ≠ 0 ∧ K.ACL_CHANGE_OWN_PW ≠ 0 ∧
    K.ACL_INQUIRE ≠ 0) ∧
  List.Pairwise (fun a b => a &&& b = 0)
    [K.ACL_ADD_PRINCIPAL, K.ACL_DELETE_PRINCIPAL, K.ACL_EXTRACT, K.ACL_MODIFY_PRINCIPAL,
      K.ACL_CHANGEPW, K.ACL_CHANGE_OWN_PW, K.ACL_INQUIRE] ∧
  K.ACL_PRINCIPAL_MASK =
    (K.ACL_ADD_PRINCIPAL ||| K.ACL_DELETE_PRINCIPAL ||| K.ACL_MODIFY_PRINCIPAL) ∧
  K.ACL_PASSWD_MASK = (K.ACL_CHANGEPW ||| K.ACL_CHANGE_OWN_PW) ∧
  K.ACL_ALL_MASK =
    (K.ACL_PRINCIPAL_MASK ||| K.ACL_PASSWD_MASK ||| K.ACL_INQUIRE ||| K.ACL_EXTRACT)

instance (K : acl_masks) : Decidable K.wf := by
  unfold acl_masks.wf; infer_instance

/-- Modelled from the spec: one assignment of the masks of `kadm5_defs.h`, the primitive
operations on the bits 0 to 6 and the aggregates as their unions. -/
def kadm5_defs : acl_masks where
  ACL_ADD_PRINCIPAL := 1
  ACL_DELETE_PRINCIPAL := 2
  ACL_MODIFY_PRINCIPAL := 4
  ACL_CHANGEPW := 8
  ACL_CHANGE_OWN_PW := 16
  ACL_INQUIRE := 32
  ACL_EXTRACT := 64
  ACL_PRINCIPAL_MASK := 7
  ACL_PASSWD_MASK := 24
  ACL_ALL_MASK := 127

/-- The bytes of a text, to write sources and names as string literals. -/
def bytes (s : String) : List Nat := s.toList.map Char.toNat

/-! ## Data -/

/-- The type `krb5_data`: a counted byte string, here the list of its `length` bytes. -/
abbrev krb5_data := List Nat

/-- The type `krb5_principal`: the realm and the `length` name components `data[i]`. -/
structure krb5_principal where
  realm : krb5_data
  data : List krb5_data
  deriving DecidableEq

/-- The count `principal->length` of name components. -/
def krb5_principal.length (p : krb5_principal) : Nat := p.data.length

/-- The type `aent_t`: one ACL entry.  The link `ae_next` is the list structure. -/
structure aent_t where
  ae_name : List Nat
  ae_name_bad : Bool
  ae_principal : Option krb5_principal
  ae_op_allowed : Nat
  deriving DecidableEq

/-- The type `aop_t`: a row of the operation table. -/
structure aop_t where
  ao_op : Nat
  ao_mask : Nat
  deriving DecidableEq

/-- The table `acl_op_table`, without its terminating row. -/
def acl_op_table (K : acl_masks) : List aop_t :=
  [ ⟨97, K.ACL_ADD_PRINCIPAL⟩,      -- a
    ⟨100, K.ACL_DELETE_PRINCIPAL⟩,  -- d
    ⟨101, K.ACL_EXTRACT⟩,           -- e
    ⟨109, K.ACL_MODIFY_PRINCIPAL⟩,  -- m
    ⟨99, K.ACL_CHANGEPW⟩,           -- c
    ⟨111, K.ACL_CHANGE_OWN_PW⟩,     -- o
    ⟨105, K.ACL_INQUIRE⟩,           -- i
    ⟨112, K.ACL_PRINCIPAL_MASK⟩,    -- p
    ⟨119, K.ACL_PASSWD_MASK⟩,       -- w
    ⟨120, K.ACL_ALL_MASK⟩,          -- x
    ⟨42, K.ACL_ALL_MASK⟩ ]          -- *

/-- The string `acl_catchall_entry`, "* o". -/
def acl_catchall_entry : List Nat := [42, 32, 111]

/-! ## The matcher -/

/-- The test `strncmp(s1, s2, n) == 0`: at most `n` characters are compared and the
comparison stops behind a terminator. -/
def strncmp_eq : List Nat → List Nat → Nat → Bool
  | _, _, 0 => true
  | s1, s2, n + 1 =>
    if s1.headD 0 ≠ s2.headD 0 then false
    else if s1.headD 0 = 0 then true
    else strncmp_eq s1.tail s2.tail n

/-- The function `acl_match_data`. -/
def acl_match_data (e1 e2 : krb5_data) : Bool :=
  if strncmp_eq e1 [42] e1.length || strncmp_eq e2 [42] e2.length then true
  else if e1.length = e2.length && strncmp_eq e1 e2 e1.length then true
  else false

/-- The loop of `acl_find_entry` over the name components (lines 350 to 356), run on two
component arrays of the same length: `matchgood` stays set when every pair matches. -/
def acl_match_components : List krb5_data → List krb5_data → Bool
  | d1 :: ds1, d2 :: ds2 => if !acl_match_data d1 d2 then false else acl_match_components ds1 ds2
  | _, _ => true

/-- The value of `matchgood` computed at lines 345 to 357 of `acl_find_entry`. -/
def acl_matchgood (ae_principal principal : krb5_principal) : Bool :=
  if acl_match_data ae_principal.realm principal.realm &&
      ae_principal.length = principal.length then
    acl_match_components ae_principal.data principal.data
  else false

/-- The loop of `acl_find_entry` from position `i` of the list on: the entry found, with
its position, and the entries as the scan leaves them.  `parse_name` is `krb5_parse_name`,
with `none` for a non-zero return code; an entry is resolved the first time a scan reaches
it and the outcome is kept in `ae_principal` or `ae_name_bad`. -/
def acl_find_entry_from (parse_name : List Nat → Option krb5_principal)
    (principal : krb5_principal) : List aent_t → Nat → Option (Nat × aent_t) × List aent_t
  | [], _ => (none, [])
  | entry :: rest, i =>
    if entry.ae_name = [42] then (some (i, entry), entry :: rest)
    else
      match entry.ae_principal, entry.ae_name_bad with
      | none, false =>
        match parse_name entry.ae_name with
        | none =>
          let r := acl_find_entry_from parse_name principal rest (i + 1)
          (r.1, { entry with ae_name_bad := true } :: r.2)
        | some pr =>
          if acl_matchgood pr principal then
            (some (i, { entry with ae_principal := some pr }),
              { entry with ae_principal := some pr } :: rest)
          else
            let r := acl_find_entry_from parse_name principal rest (i + 1)
            (r.1, { entry with ae_principal := some pr } :: r.2)
      | some pr, false =>
        if acl_matchgood pr principal then (some (i, entry), entry :: rest)
        else
          let r := acl_find_entry_from parse_name principal rest (i + 1)
          (r.1, entry :: r.2)
      | _, true =>
        let r := acl_find_entry_from parse_name principal rest (i + 1)
        (r.1, entry :: r.2)

/-- The function `acl_find_entry` on the list at `acl_list_head`. -/
def acl_find_entry (parse_name : List Nat → Option krb5_principal)
    (acl_list : List aent_t) (principal : krb5_principal) :
    Option (Nat × aent_t) × List aent_t :=
  acl_find_entry_from parse_name principal acl_list 0

/-- The function `acl_op_permitted`: its return value on the list at `acl_list_head`. -/
def acl_op_permitted (parse_name : List Nat → Option krb5_principal)
    (acl_list : List aent_t) (principal : krb5_principal) (opmask : Nat) : Bool :=
  match (acl_find_entry parse_name acl_list principal).1 with
  | some aentry => if aentry.2.ae_op_allowed &&& opmask = opmask then true else false
  | none => false

/-! ## The loader -/

/-- The test `isspace(c)`. -/
def isspace (c : Nat) : Bool := c = 32 || (9 ≤ c && c ≤ 13)

/-- The test `isupper(c)`. -/
def isupper (c : Nat) : Bool := 65 ≤ c && c ≤ 90

/-- The function `tolower` on an upper-case letter. -/
def tolower (c : Nat) : Nat := c + 32

/-- The complement `~m` of a `krb5_int32`. -/
def int32_not (m : Nat) : Nat := 4294967295 ^^^ m

/-- A character that the directive `%s` stores: neither white space nor the terminator. -/
def scan_char (c : Nat) : Bool := c ≠ 0 && !isspace c

/-- The call `sscanf(lp, "%s %s", acle_principal, acle_ops)`: the return value and the
two strings.  Each `%s` skips white space and stores the characters up to the next white
space or the end of the string; the return value is `EOF` when the string ends before the
first conversion, 1 when it ends before the second, and 2 otherwise. -/
def sscanf_s_s (lp : List Nat) : Int × List Nat × List Nat :=
  let s1 := lp.dropWhile isspace
  let acle_principal := s1.takeWhile scan_char
  if acle_principal = [] then (-1, [], [])
  else
    let s2 := (s1.dropWhile scan_char).dropWhile isspace
    let acle_ops := s2.takeWhile scan_char
    if acle_ops = [] then (1, acle_principal, [])
    else (2, acle_principal, acle_ops)

/-- The loop of `acl_parse_line` over the operation table (lines 150 to 158) for the
character `op` with case-folded form `rop`, on the pair of `found` and `ae_op_allowed`. -/
def acl_op_lookup (op rop : Nat) : List aop_t → Bool × Nat → Bool × Nat
  | [], s => s
  | t :: ts, s =>
    if rop = t.ao_op then
      acl_op_lookup op rop ts
        (true, if rop = op then s.2 ||| t.ao_mask else s.2 &&& int32_not t.ao_mask)
    else acl_op_lookup op rop ts s

/-- The loop of `acl_parse_line` over the operations string (lines 145 to 163), on the
pair of `opok` and `ae_op_allowed`. -/
def acl_parse_ops (K : acl_masks) : List Nat → Bool × Nat → Bool × Nat
  | [], s => s
  | op :: ops, s =>
    let rop := if isupper op then tolower op else op
    let r := acl_op_lookup op rop (acl_op_table K) (false, s.2)
    acl_parse_ops K ops (if !r.1 then false else s.1, r.2)

/-- The function `acl_parse_line`: the entry built from a line, `none` for `NULL`. -/
def acl_parse_line (K : acl_masks) (lp : List Nat) : Option aent_t :=
  let r := sscanf_s_s lp
  if r.1 = 2 then
    let s := acl_parse_ops K r.2.2 (true, 0)
    if s.1 then some ⟨r.2.1, false, none, s.2⟩ else none
  else none

/-- A stream open for reading: the bytes not read yet and the end-of-file indicator. -/
structure FILE where
  rest : List Nat
  eof : Bool
  deriving DecidableEq

/-- The call `fgetc(fp)`, with `none` for `EOF`, which sets the end-of-file indicator. -/
def fgetc (fp : FILE) : Option Nat × FILE :=
  match fp.rest with
  | [] => (none, { fp with eof := true })
  | c :: cs => (some c, { fp with rest := cs })

/-- The value an `int` returned by `fgetc` has once stored in a `char`. -/
def to_char : Option Nat → Nat
  | none => 255
  | some c => c

/-- The outcome of running a function: it returns a value, a loop of it never exits, the
model was given too few steps, or it reads memory that it has freed, where the language
leaves its behaviour undefined. -/
inductive run (α : Type) where
  | returns (a : α)
  | hangs
  | out_of_fuel
  | undefined
  deriving DecidableEq

/-- The copy loop of `acl_get_line` (lines 94 to 98) with `n` cells of `acl_buf` left: the
characters stored before the final index `i`, and the stream. -/
def acl_copy_line : Nat → FILE → List Nat × FILE
  | 0, fp => ([], fp)
  | n + 1, fp =>
    if fp.eof then ([], fp)
    else
      let r := fgetc fp
      if to_char r.1 = 10 then ([], r.2)
      else
        let s := acl_copy_line n r.2
        (to_char r.1 :: s.1, s.2)

/-- The loop `while (fgetc(fp) != '\n');` (line 104) on the bytes not read yet.  At the
end of the file `fgetc` returns `EOF` for ever and the loop does not exit: `none`. -/
def acl_skip_line : List Nat → Option (List Nat)
  | [] => none
  | c :: cs => if c = 10 then some cs else acl_skip_line cs

/-- The body of the outer loop of `acl_get_line` up to line 109: the content of `acl_buf`
before its terminator and the stream, `none` when the loop of line 104 does not exit.
The terminator stored at `acl_buf[i]` is taken to land behind the buffer when
`i == BUFSIZ`; the third conjunct of the test of line 102 reads this terminator and is
always true. -/
def acl_get_line_body (BUFSIZ : Nat) (fp : FILE) : Option (List Nat × FILE) :=
  let r := acl_copy_line BUFSIZ fp
  let fp2 :=
    if r.1.length = BUFSIZ && !r.2.eof then
      (acl_skip_line r.2.rest).map (fun cs => { r.2 with rest := cs })
    else some r.2
  fp2.map (fun fp3 => (if r.1.headD 0 = 255 then 0 :: r.1.tail else r.1, fp3))

/-- The outer loop of `acl_get_line` (lines 92 to 116) with `fuel` iterations allowed: the
line returned, `none` for `NULL`, and the stream. -/
def acl_get_line_loop (BUFSIZ : Nat) : Nat → FILE → run (Option (List Nat) × FILE)
  | fuel, fp =>
    if fp.eof then .returns (none, fp)
    else
      match fuel with
      | 0 => .out_of_fuel
      | k + 1 =>
        match acl_get_line_body BUFSIZ fp with
        | none => .hangs
        | some (acl_buf, fp1) =>
          if acl_buf.headD 0 ≠ 35 && acl_buf.headD 0 ≠ 0 then .returns (some acl_buf, fp1)
          else acl_get_line_loop BUFSIZ k fp1

/-- The function `acl_get_line`.  Every iteration of its loop reads a byte or sets the
end-of-file indicator, so one iteration more than there are bytes left is enough. -/
def acl_get_line (BUFSIZ : Nat) (fp : FILE) : run (Option (List Nat) × FILE) :=
  acl_get_line_loop BUFSIZ (fp.rest.length + 1) fp

/-- The loop of `acl_load_acl_file` over the lines (lines 230 to 242) with `fuel`
iterations allowed: `retval` and the entries linked so far. -/
def acl_load_lines (BUFSIZ : Nat) (K : acl_masks) : Nat → FILE → run (Nat × List aent_t)
  | fuel, afp =>
    match acl_get_line BUFSIZ afp with
    | .hangs => .hangs
    | .out_of_fuel => .out_of_fuel
    | .undefined => .undefined
    | .returns (none, _) => .returns (1, [])
    | .returns (some alinep, afp1) =>
      match acl_parse_line K alinep with
      | none => .returns (0, [])
      | some aent =>
        match fuel with
        | 0 => .out_of_fuel
        | k + 1 =>
          match acl_load_lines BUFSIZ K k afp1 with
          | .returns (retval, aents) => .returns (retval, aent :: aents)
          | .hangs => .hangs
          | .out_of_fuel => .out_of_fuel
          | .undefined => .undefined

/-- The variables `acl_list_head` (with the list behind it) and `acl_inited`. -/
structure acl_state where
  acl_list : List aent_t
  acl_inited : Nat
  deriving DecidableEq

/-- The function `acl_free_entries`.  With an empty list the loop (lines 199 to 205) is not
entered and the variables are cleared.  With an entry in the list the body frees `ap`
(line 204) and the step of the loop then reads `ap->ae_next` out of the freed entry
(line 199): the behaviour is undefined from the first entry on. -/
def acl_free_entries (st : acl_state) : run acl_state :=
  match st.acl_list with
  | [] => .returns ⟨[], 0⟩
  | _ :: _ => .undefined

/-- The end of `acl_load_acl_file` (lines 267 to 272). -/
def acl_load_end (retval : Nat) (st : acl_state) : run (Nat × acl_state) :=
  if retval = 0 then
    match acl_free_entries st with
    | .returns st1 => .returns (retval, st1)
    | .hangs => .hangs
    | .out_of_fuel => .out_of_fuel
    | .undefined => .undefined
  else .returns (retval, st)

/-- The function `acl_load_acl_file`: `retval` and the variables afterwards.  The file is
`none` when `fopen` fails, else its content. -/
def acl_load_acl_file (BUFSIZ : Nat) (K : acl_masks) (file : Option (List Nat))
    (st : acl_state) : run (Nat × acl_state) :=
  match file with
  | some content =>
    match acl_load_lines BUFSIZ K (content.length + 1) ⟨content, false⟩ with
    | .returns (retval, aents) =>
      match acl_parse_line K acl_catchall_entry with
      | some aent => acl_load_end retval { st with acl_list := aents ++ [aent] }
      | none => acl_load_end 0 { st with acl_list := aents }
    | .hangs => .hangs
    | .out_of_fuel => .out_of_fuel
    | .undefined => .undefined
  | none =>
    match acl_parse_line K acl_catchall_entry with
    | some aent => acl_load_end 1 { st with acl_list := [aent] }
    | none => acl_load_end 0 { st with acl_list := [] }

/-- The function `acl_reload_acl_file`: the variables afterwards.  It runs as a signal
handler; here it runs between two calls of the other functions. -/
def acl_reload_acl_file (BUFSIZ : Nat) (K : acl_masks) (file : Option (List Nat))
    (st : acl_state) : run acl_state :=
  match acl_free_entries st with
  | .returns st0 =>
    match acl_load_acl_file BUFSIZ K file st0 with
    | .returns (retval, st1) => .returns { st1 with acl_inited := retval }
    | .hangs => .hangs
    | .out_of_fuel => .out_of_fuel
    | .undefined => .undefined
  | .hangs => .hangs
  | .out_of_fuel => .out_of_fuel
  | .undefined => .undefined

/-- The function `acl_init`: the return value `kret` and the variables afterwards.  The
file is the content behind the name kept in `acl_acl_file`, `none` when it cannot be
opened; the installation of the signal handler is left out. -/
def acl_init (BUFSIZ : Nat) (K : acl_masks) (file : Option (List Nat))
    (st : acl_state) : run (Nat × acl_state) :=
  match acl_load_acl_file BUFSIZ K file st with
  | .returns (retval, st1) => .returns (0, { st1 with acl_inited := retval })
  | .hangs => .hangs
  | .out_of_fuel => .out_of_fuel
  | .undefined => .undefined

/-- The function `acl_finish`. -/
def acl_finish (st : acl_state) : run acl_state := acl_free_entries st

/-- The calls of `krb5_parse_name` (line 334) that the loop of `acl_find_entry` makes from
position `i` of the list on, as the positions of the entries whose name is passed.  The
cases are those of `acl_find_entry_from`. -/
def acl_find_entry_calls (parse_name : List Nat → Option krb5_principal)
    (principal : krb5_principal) : List aent_t → Nat → List Nat
  | [], _ => []
  | entry :: rest, i =>
    if entry.ae_name = [42] then []
    else
      match entry.ae_principal, entry.ae_name_bad with
      | none, false =>
        match parse_name entry.ae_name with
        | none => i :: acl_find_entry_calls parse_name principal rest (i + 1)
        | some pr =>
          if acl_matchgood pr principal then [i]
          else i :: acl_find_entry_calls parse_name principal rest (i + 1)
      | some pr, false =>
        if acl_matchgood pr principal then []
        else acl_find_entry_calls parse_name principal rest (i + 1)
      | _, true => acl_find_entry_calls parse_name principal rest (i + 1)

/-- The list at `acl_list_head` after a sequence of calls of `acl_find_entry`, one for each
of the principals. -/
def acl_scans (parse_name : List Nat → Option krb5_principal) :
    List aent_t → List krb5_principal → List aent_t
  | l, [] => l
  | l, p :: ps => acl_scans parse_name (acl_find_entry parse_name l p).2 ps

/-- The calls of `krb5_parse_name` made by a sequence of calls of `acl_find_entry`, as the
positions of the entries whose name is passed. -/
def acl_scans_calls (parse_name : List Nat → Option krb5_principal) :
    List aent_t → List krb5_principal → List Nat
  | _, [] => []
  | l, p :: ps =>
    acl_find_entry_calls parse_name p l 0 ++
      acl_scans_calls parse_name (acl_find_entry parse_name l p).2 ps

/-! ## Definitions in the words of the specification -/

/-- The structured pattern a rule stands for when a scan reaches it: none for a rule
marked unusable, the cached pattern when there is one, else what `krb5_parse_name` makes
of the raw pattern text. -/
def resolved_pattern (parse_name : List Nat → Option krb5_principal) (e : aent_t) :
    Option krb5_principal :=
  if e.ae_name_bad then none
  else
    match e.ae_principal with
    | some pr => some pr
    | none => parse_name e.ae_name

/-- The Matcher's steps 1 to 4: the raw pattern text is exactly the universal wildcard, or
the pattern resolves, its realm component-matches the identity's, the numbers of name
components agree and the name components component-match pairwise. -/
def rule_matches (parse_name : List Nat → Option krb5_principal) (e : aent_t)
    (p : krb5_principal) : Bool :=
  e.ae_name = [42] ||
    match resolved_pattern parse_name e with
    | none => false
    | some pr =>
      acl_match_data pr.realm p.realm && pr.data.length = p.data.length &&
        (pr.data.zip p.data).all (fun d => acl_match_data d.1 d.2)

/-- Modelled from the spec: the collaborator `krb5_parse_name`, which is not among the
sources, on names without quoting: the realm follows the `@` (the default realm when
there is none), the name components are separated by `/`, and a second `@` is an error. -/
def krb5_parse_name (default_realm : List Nat) (name : List Nat) : Option krb5_principal :=
  let realm := (name.dropWhile (fun c => c ≠ 64)).drop 1
  if 64 ∈ realm then none
  else
    some ⟨if 64 ∈ name then realm else default_realm,
      (name.takeWhile (fun c => c ≠ 64)).splitOn 47⟩

/-- The Operation Table as a mapping: the mask of the token `c`, none for a character
that is not in the table. -/
def op_mask (K : acl_masks) (c : Nat) : Option Nat :=
  ((acl_op_table K).find? (fun t => t.ao_op = c)).map (fun t => t.ao_mask)

/-- A token of the Operation Table in either case: a character whose case-folded form is
in the table. -/
def is_op_token (K : acl_masks) (c : Nat) : Bool :=
  (op_mask K (if isupper c then tolower c else c)).isSome

/-- One step of operations-string parsing: a lower-case letter or `*` ORs its table mask
into the accumulator, an upper-case letter AND-NOTs the table mask of its lower-case
form. -/
def apply_op (K : acl_masks) (acc c : Nat) : Nat :=
  if isupper c then acc &&& int32_not ((op_mask K (tolower c)).getD 0)
  else acc ||| (op_mask K c).getD 0

/-- Operations-string parsing as a left-to-right fold from the zero mask. -/
def fold_ops (K : acl_masks) (ops : List Nat) : Nat := ops.foldl (apply_op K) 0

/-- The white-space separated tokens of a line of text. -/
def tokens (l : List Nat) : List (List Nat) :=
  (l.splitOnP isspace).filter (fun t => t ≠ [])

/-- The source text made of the given lines, each one ended by a newline. -/
def unlines : List (List Nat) → List Nat
  | [] => []
  | l :: ls => l ++ 10 :: unlines ls

/-- A bound on the reads a stream still allows: none once the end-of-file indicator is
set, else one for each byte left and one for the read that meets the end. -/
def FILE.left (fp : FILE) : Nat := if fp.eof then 0 else fp.rest.length + 1

/-- What `acl_buf` holds of a line of the source: its first `BUFSIZ` characters, the first
of them replaced by the terminator when it compares equal to `EOF`. -/
def buffered (BUFSIZ : Nat) (l : List Nat) : List Nat :=
  if (l.take BUFSIZ).headD 0 = 255 then 0 :: (l.take BUFSIZ).tail else l.take BUFSIZ

/-- The test of line 110: the buffer holds neither a comment nor an empty string. -/
def is_kept (acl_buf : List Nat) : Bool := acl_buf.headD 0 ≠ 35 && acl_buf.headD 0 ≠ 0

/-- The loop of `acl_load_acl_file` run on the successive contents of `acl_buf`: `retval`
and the entries linked. -/
def parse_lines (K : acl_masks) : List (List Nat) → Nat × List aent_t
  | [] => (1, [])
  | b :: bs =>
    if is_kept b then
      match acl_parse_line K b with
      | none => (0, [])
      | some aent => ((parse_lines K bs).1, aent :: (parse_lines K bs).2)
    else parse_lines K bs

/-- The outcome of a loop over the rest of the source, behind entries linked before. -/
def run.link (aents : List aent_t) : run (Nat × List aent_t) → run (Nat × List aent_t)
  | .returns (retval, more) => .returns (retval, aents ++ more)
  | .hangs => .hangs
  | .out_of_fuel => .out_of_fuel
  | .undefined => .undefined

/-- The catchall rule: pattern `*`, ChangeOwnPassword only. -/
def catchall (K : acl_masks) : aent_t := ⟨[42], false, none, K.ACL_CHANGE_OWN_PW⟩

/-- A line the Loader skips: a blank line or a line whose first character is `#`. -/
def skipped_line (l : List Nat) : Bool := l = [] || l.head? = some 35

/-- The rule a line of two tokens stands for: the first token is the pattern, the second
the operations string. -/
def rule_of_line (K : acl_masks) (l : List Nat) : aent_t :=
  ⟨(tokens l).headD [], false, none, fold_ops K ((tokens l).tail.headD [])⟩

/-- A line of text: no zero byte, and no first byte 255, the byte a `char` cannot tell
from `EOF`. -/
def text_line (l : List Nat) : Prop := 0 ∉ l ∧ l.head? ≠ some 255

/-- A line made of a principal pattern and a valid operations string. -/
def rule_line (K : acl_masks) (l : List Nat) : Prop :=
  text_line l ∧ ∃ pat ops, tokens l = [pat, ops] ∧ ∀ c ∈ ops, is_op_token K c = true

/-- A well-formed rule source, as its lines: each line is shorter than the line buffer and
is empty, starts with `#`, or is made of a principal pattern and a valid operations
string.  The source is `unlines` of the lines, every line ended by a newline. -/
def well_formed (BUFSIZ : Nat) (K : acl_masks) (ls : List (List Nat)) : Prop :=
  ∀ l ∈ ls, 10 ∉ l ∧ l.length < BUFSIZ ∧ (l = [] ∨ l.head? = some 35 ∨ rule_line K l)

/-- The test of line 333: the entry has neither a cached pattern nor the mark of an
unusable name, so `krb5_parse_name` is called for it. -/
def needs_parse (e : aent_t) : Bool := e.ae_principal.isNone && !e.ae_name_bad

/-- The entry as lines 333 to 339 of `acl_find_entry` leave it: resolved when it was not,
with the pattern cached or the name marked unusable. -/
def acl_resolve_entry (parse_name : List Nat → Option krb5_principal) (e : aent_t) : aent_t :=
  if needs_parse e then
    match parse_name e.ae_name with
    | none => { e with ae_name_bad := true }
    | some pr => { e with ae_principal := some pr }
  else e

/-- The entry of a store resolved at load time: every pattern other than the universal
wildcard is resolved once. -/
def resolve_at_load (parse_name : List Nat → Option krb5_principal) (e : aent_t) : aent_t :=
  if e.ae_name = [42] then e else acl_resolve_entry parse_name e

/-- A rule whose pattern does not resolve: its name is not the universal wildcard and it
is marked unusable or `krb5_parse_name` rejects its pattern text. -/
def unresolvable (parse_name : List Nat → Option krb5_principal) (e : aent_t) : Bool :=
  e.ae_name ≠ [42] && (resolved_pattern parse_name e).isNone

/-- What decides whether a rule matches and what it grants: the raw pattern text, the
allowed mask, and the structured pattern unless the text is the universal wildcard. -/
def rule_key (parse_name : List Nat → Option krb5_principal) (e : aent_t) :
    List Nat × Nat × Option krb5_principal :=
  (e.ae_name, e.ae_op_allowed,
    if e.ae_name = [42] then none else resolved_pattern parse_name e)

/-- The decision a scan yields: the position of the entry found and its allowed mask. -/
def decision (r : Option (Nat × aent_t)) : Option (Nat × Nat) :=
  r.map (fun x => (x.1, x.2.ae_op_allowed))

/-- A load of the source `content` that fails behind the entries `aents`: the loop of
`acl_load_acl_file` over the lines ends with `retval` 0 and these entries linked, the
function links the catchall entry behind them and then ends as `acl_free_entries` ends on
that list; it does not return success. -/
def load_fails (BUFSIZ : Nat) (K : acl_masks) (content : List Nat) (st : acl_state)
    (aents : List aent_t) : Prop :=
  acl_load_lines BUFSIZ K (content.length + 1) ⟨content, false⟩ = .returns (0, aents) ∧
  acl_load_acl_file BUFSIZ K (some content) st =
    acl_load_end 0 ⟨aents ++ [catchall K], st.acl_inited⟩ ∧
  ∀ s, acl_load_acl_file BUFSIZ K (some content) st ≠ .returns (1, s)

/-! ## Theorems: the matcher -/

theorem strncmp_eq_star (e : List Nat) :
    strncmp_eq e [42] e.length = true ↔ e = [] ∨ e = [42] ∨ ∃ t, e = 42 :: 0 :: t := by
  rcases e with _ | ⟨c, _ | ⟨d, t⟩⟩
  · simp [strncmp_eq]
  · by_cases hc : c = 42 <;> simp [strncmp_eq, hc]
  · by_cases hc : c = 42 <;> by_cases hd : d = 0 <;> simp [strncmp_eq, hc, hd]

theorem strncmp_eq_self_of_eq (e : List Nat) (n : Nat) : strncmp_eq e e n = true := by
  induction n generalizing e with
  | zero => simp [strncmp_eq]
  | succ n ih => simp [strncmp_eq, ih]

theorem strncmp_eq_text (e1 e2 : List Nat) (h1 : 0 ∉ e1) (hl : e1.length = e2.length) :
    strncmp_eq e1 e2 e1.length = true ↔ e1 = e2 := by
  induction e1 generalizing e2 with
  | nil =>
    cases e2 with
    | nil => simp [strncmp_eq]
    | cons b t => simp at hl
  | cons a t ih =>
    cases e2 with
    | nil => simp at hl
    | cons b t2 =>
      simp only [List.mem_cons, not_or] at h1
      simp only [List.length_cons, Nat.add_right_cancel_iff] at hl
      have ha : a ≠ 0 := fun h => h1.1 h.symm
      by_cases hab : a = b
      · subst hab
        simp [strncmp_eq, ha, ih t2 h1.2 hl]
      · simp [strncmp_eq, hab]

/-- What `acl_match_data` computes: a component is a wildcard when its comparison with "*"
over its own length succeeds, which holds for "*", for the empty component, and for a
longer one that starts with "*" and a zero byte. -/
theorem acl_match_data_eq (e1 e2 : krb5_data) :
    acl_match_data e1 e2 = true ↔
      (e1 = [] ∨ e1 = [42] ∨ ∃ t, e1 = 42 :: 0 :: t) ∨
      (e2 = [] ∨ e2 = [42] ∨ ∃ t, e2 = 42 :: 0 :: t) ∨
      (e1.length = e2.length ∧ strncmp_eq e1 e2 e1.length = true) := by
  unfold acl_match_data
  rw [← strncmp_eq_star e1, ← strncmp_eq_star e2]
  cases strncmp_eq e1 [42] e1.length <;> cases strncmp_eq e2 [42] e2.length <;> simp

/-- On components that are not empty and hold no zero byte, component-match is
"wildcard or identical". -/
theorem acl_match_data_text (e1 e2 : krb5_data) (h1 : e1 ≠ []) (h2 : e2 ≠ [])
    (z1 : 0 ∉ e1) (z2 : 0 ∉ e2) :
    acl_match_data e1 e2 = true ↔ e1 = [42] ∨ e2 = [42] ∨ e1 = e2 := by
  rw [acl_match_data_eq]
  have k1 : ¬ ∃ t, e1 = 42 :: 0 :: t := by
    rintro ⟨t, rfl⟩; simp at z1
  have k2 : ¬ ∃ t, e2 = 42 :: 0 :: t := by
    rintro ⟨t, rfl⟩; simp at z2
  constructor
  · rintro (h | h | ⟨hl, h⟩)
    · rcases h with h | h | h
      · exact absurd h h1
      · exact Or.inl h
      · exact absurd h k1
    · rcases h with h | h | h
      · exact absurd h h2
      · exact Or.inr (Or.inl h)
      · exact absurd h k2
    · exact Or.inr (Or.inr ((strncmp_eq_text e1 e2 z1 hl).1 h))
  · rintro (h | h | h)
    · exact Or.inl (Or.inr (Or.inl h))
    · exact Or.inr (Or.inl (Or.inr (Or.inl h)))
    · subst h
      exact Or.inr (Or.inr ⟨rfl, strncmp_eq_self_of_eq e1 _⟩)

theorem acl_match_data_star_left (e : krb5_data) : acl_match_data [42] e = true := by
  rw [acl_match_data_eq]; simp

theorem acl_match_components_eq (ds1 ds2 : List krb5_data) :
    acl_match_components ds1 ds2 = (ds1.zip ds2).all (fun d => acl_match_data d.1 d.2) := by
  induction ds1 generalizing ds2 with
  | nil => simp [acl_match_components]
  | cons d1 t ih =>
    cases ds2 with
    | nil => simp [acl_match_components]
    | cons d2 t2 =>
      simp only [acl_match_components, List.zip_cons_cons, List.all_cons, ih]
      cases acl_match_data d1 d2 <;> simp

theorem acl_matchgood_eq (pr p : krb5_principal) :
    acl_matchgood pr p =
      (acl_match_data pr.realm p.realm && pr.data.length = p.data.length &&
        (pr.data.zip p.data).all (fun d => acl_match_data d.1 d.2)) := by
  unfold acl_matchgood krb5_principal.length
  rw [acl_match_components_eq]
  by_cases h : pr.data.length = p.data.length <;>
    cases acl_match_data pr.realm p.realm <;> simp [h]

theorem acl_matchgood_length (pr p : krb5_principal) (h : pr.length ≠ p.length) :
    acl_matchgood pr p = false := by
  unfold acl_matchgood
  simp [h]

/-- A rule that matches ends the scan at its own position. -/
theorem acl_find_entry_from_hit (parse_name : List Nat → Option krb5_principal)
    (principal : krb5_principal) (e : aent_t) (rest : List aent_t) (i : Nat)
    (h : rule_matches parse_name e principal = true) :
    ∃ e1, (acl_find_entry_from parse_name principal (e :: rest) i).1 = some (i, e1) ∧
      e1.ae_name = e.ae_name ∧ e1.ae_op_allowed = e.ae_op_allowed := by
  unfold rule_matches resolved_pattern at h
  unfold acl_find_entry_from
  by_cases hs : e.ae_name = [42]
  · exact ⟨e, by simp [hs], rfl, rfl⟩
  · simp only [hs, decide_False, Bool.false_or, if_false] at h ⊢
    rcases hb : e.ae_name_bad with _ | _
    · rcases hp : e.ae_principal with _ | pr
      · simp only [hb, hp] at h ⊢
        rcases hq : parse_name e.ae_name with _ | pr
        · simp [hq] at h
        · simp only [hq, Bool.false_eq_true, if_false] at h ⊢
          rw [← acl_matchgood_eq] at h
          simp only [h, if_true]
          exact ⟨_, rfl, rfl, rfl⟩
      · simp only [hb, hp, Bool.false_eq_true, if_false] at h ⊢
        rw [← acl_matchgood_eq] at h
        simp only [h, if_true]
        exact ⟨_, rfl, rfl, rfl⟩
    · simp [hb] at h

/-- A rule that does not match is passed over. -/
theorem acl_find_entry_from_miss (parse_name : List Nat → Option krb5_principal)
    (principal : krb5_principal) (e : aent_t) (rest : List aent_t) (i : Nat)
    (h : rule_matches parse_name e principal = false) :
    (acl_find_entry_from parse_name principal (e :: rest) i).1 =
      (acl_find_entry_from parse_name principal rest (i + 1)).1 := by
  unfold rule_matches resolved_pattern at h
  rw [acl_find_entry_from]
  by_cases hs : e.ae_name = [42]
  · simp [hs] at h
  · simp only [hs, decide_False, Bool.false_or, if_false] at h ⊢
    rcases hb : e.ae_name_bad with _ | _
    · rcases hp : e.ae_principal with _ | pr
      · simp only [hb, hp] at h ⊢
        rcases hq : parse_name e.ae_name with _ | pr
        · simp
        · simp only [hq, Bool.false_eq_true, if_false] at h ⊢
          rw [← acl_matchgood_eq] at h
          simp [h]
      · simp only [hb, hp, Bool.false_eq_true, if_false] at h ⊢
        rw [← acl_matchgood_eq] at h
        simp [h]
    · rcases hp : e.ae_principal with _ | pr <;> simp

theorem acl_find_entry_from_none (parse_name : List Nat → Option krb5_principal)
    (principal : krb5_principal) (l : List aent_t) (i : Nat) :
    (acl_find_entry_from parse_name principal l i).1 = none ↔
      ∀ x ∈ l, rule_matches parse_name x principal = false := by
  induction l generalizing i with
  | nil => simp [acl_find_entry_from]
  | cons e rest ih =>
    rcases hm : rule_matches parse_name e principal with _ | _
    · rw [acl_find_entry_from_miss parse_name principal e rest i hm, ih]
      simp [hm]
    · obtain ⟨e1, h1, -, -⟩ := acl_find_entry_from_hit parse_name principal e rest i hm
      simp [h1, hm]

theorem acl_find_entry_from_first (parse_name : List Nat → Option krb5_principal)
    (principal : krb5_principal) (pre : List aent_t) (e : aent_t) (post : List aent_t)
    (i : Nat) (hpre : ∀ x ∈ pre, rule_matches parse_name x principal = false)
    (he : rule_matches parse_name e principal = true) :
    ∃ e1, (acl_find_entry_from parse_name principal (pre ++ e :: post) i).1 =
        some (i + pre.length, e1) ∧
      e1.ae_name = e.ae_name ∧ e1.ae_op_allowed = e.ae_op_allowed := by
  induction pre generalizing i with
  | nil => simpa using acl_find_entry_from_hit parse_name principal e post i he
  | cons x pre ih =>
    have hx := hpre x (List.mem_cons_self _ _)
    rw [List.cons_append, acl_find_entry_from_miss parse_name principal x _ i hx]
    obtain ⟨e1, h1, h2, h3⟩ := ih (i + 1) (fun y hy => hpre y (List.mem_cons_of_mem _ hy))
    refine ⟨e1, ?_, h2, h3⟩
    rw [h1, List.length_cons]
    congr 2
    omega

theorem land_lor_ne (a b : Nat) (h : a &&& b = 0) (hb : b ≠ 0) : a &&& (a ||| b) ≠ a ||| b := by
  intro heq
  apply hb
  apply Nat.eq_of_testBit_eq
  intro i
  have h1 := congrArg (fun x => x.testBit i) heq
  have h2 := congrArg (fun x => x.testBit i) h
  simp only [Nat.testBit_and, Nat.testBit_or, Nat.zero_testBit] at h1 h2 ⊢
  cases ha : a.testBit i <;> cases hb1 : b.testBit i <;> simp_all

theorem land_ne_of_disjoint (a b : Nat) (h : a &&& b = 0) (hb : b ≠ 0) : a &&& b ≠ b := by
  rw [h]; exact fun h0 => hb h0.symm

theorem lor_land_not_self (m a : Nat) (hm : m < 2 ^ 32) :
    (a ||| m) &&& int32_not m = a &&& int32_not m := by
  apply Nat.eq_of_testBit_eq
  intro i
  have h32 : (4294967295 : Nat) = 2 ^ 32 - 1 := by norm_num
  unfold int32_not
  rw [h32]
  simp only [Nat.testBit_and, Nat.testBit_or, Nat.testBit_xor, Nat.testBit_two_pow_sub_one]
  by_cases hi : i < 32
  · cases ha : a.testBit i <;> cases hb : m.testBit i <;> simp_all
  · have hz : m.testBit i = false := by
      apply Nat.testBit_lt_two_pow
      calc m < 2 ^ 32 := hm
        _ ≤ 2 ^ i := Nat.pow_le_pow_right (by norm_num) (by omega)
    simp [hz, hi]

/-! ## Claims on the matcher and the permission check -/

/-- C1: `acl_op_permitted` returns true if and only if `acl_find_entry` returns an entry
whose allowed mask covers every bit of the requested mask; a matched rule that allows only
AddPrincipal denies AddPrincipal|DeletePrincipal, and with no entry found the result is
false. -/
theorem acl_op_permitted_full_mask (K : acl_masks) (hK : K.wf)
    (parse_name : List Nat → Option krb5_principal) (acl_list : List aent_t)
    (principal : krb5_principal) (opmask : Nat) :
    (acl_op_permitted parse_name acl_list principal opmask = true ↔
      ∃ i e, (acl_find_entry parse_name acl_list principal).1 = some (i, e) ∧
        e.ae_op_allowed &&& opmask = opmask) ∧
    (∀ i e, (acl_find_entry parse_name acl_list principal).1 = some (i, e) →
      e.ae_op_allowed = K.ACL_ADD_PRINCIPAL →
      acl_op_permitted parse_name acl_list principal
        (K.ACL_ADD_PRINCIPAL ||| K.ACL_DELETE_PRINCIPAL) = false) ∧
    ((acl_find_entry parse_name acl_list principal).1 = none →
      acl_op_permitted parse_name acl_list principal opmask = false) := by
  refine ⟨?_, ?_, ?_⟩
  · unfold acl_op_permitted
    rcases h : (acl_find_entry parse_name acl_list principal).1 with _ | ⟨i, e⟩
    · simp
    · simp only [Option.some.injEq, Prod.mk.injEq, ite_eq_left_iff, Bool.false_eq_true,
        imp_false, not_not]
      constructor
      · intro hm
        exact ⟨i, e, ⟨rfl, rfl⟩, hm⟩
      · rintro ⟨i1, e1, ⟨-, rfl⟩, hm⟩
        exact hm
  · intro i e h he
    unfold acl_op_permitted
    rw [h]
    have hd : K.ACL_ADD_PRINCIPAL &&& K.ACL_DELETE_PRINCIPAL = 0 := by
      have hp := hK.2.2.1
      simp only [List.pairwise_cons] at hp
      exact hp.1 _ (by simp)
    have := land_lor_ne _ _ hd hK.2.1.2.1
    simp [he, this]
  · intro h
    unfold acl_op_permitted
    rw [h]

/-- C1, at the store with the single rule `* a` and the request
AddPrincipal|DeletePrincipal. -/
theorem acl_op_permitted_full_mask_witness :
    kadm5_defs.wf ∧
    acl_op_permitted (krb5_parse_name []) [⟨bytes "*", false, none, 1⟩]
      ⟨bytes "EXAMPLE.COM", [bytes "alice"]⟩ 3 = false :=
  ⟨by decide,
    (acl_op_permitted_full_mask kadm5_defs (by decide) (krb5_parse_name [])
      [⟨bytes "*", false, none, 1⟩] ⟨bytes "EXAMPLE.COM", [bytes "alice"]⟩ 3).2.1
      0 ⟨bytes "*", false, none, 1⟩ (by decide) (by decide)⟩

/-- C2: `acl_find_entry` returns the first entry, in list order, that matches the
principal, and no entry exactly when no entry of the list matches; when an entry matches
and none before it does, its mask alone decides `acl_op_permitted`, whatever follows it. -/
theorem acl_find_entry_first_match (parse_name : List Nat → Option krb5_principal)
    (acl_list : List aent_t) (principal : krb5_principal) :
    (∀ pre e post, acl_list = pre ++ e :: post →
      (∀ x ∈ pre, rule_matches parse_name x principal = false) →
      rule_matches parse_name e principal = true →
      (∃ e1, (acl_find_entry parse_name acl_list principal).1 = some (pre.length, e1) ∧
        e1.ae_name = e.ae_name ∧ e1.ae_op_allowed = e.ae_op_allowed) ∧
      ∀ opmask, acl_op_permitted parse_name acl_list principal opmask =
        decide (e.ae_op_allowed &&& opmask = opmask)) ∧
    ((acl_find_entry parse_name acl_list principal).1 = none ↔
      ∀ x ∈ acl_list, rule_matches parse_name x principal = false) := by
  refine ⟨?_, acl_find_entry_from_none parse_name principal acl_list 0⟩
  intro pre e post hl hpre he
  obtain ⟨e1, h1, h2, h3⟩ := acl_find_entry_from_first parse_name principal pre e post 0 hpre he
  rw [Nat.zero_add] at h1
  subst hl
  refine ⟨⟨e1, h1, h2, h3⟩, ?_⟩
  intro opmask
  unfold acl_op_permitted acl_find_entry
  rw [h1]
  simp only [h3]
  by_cases hm : e.ae_op_allowed &&& opmask = opmask <;> simp [hm]

/-- C2, at a store whose two rules both match alice@EXAMPLE.COM: the first rule, which
allows AddPrincipal, governs, and the later `* x` does not. -/
theorem acl_find_entry_first_match_witness :
    (∃ e1, (acl_find_entry (krb5_parse_name [])
        [⟨bytes "alice@EXAMPLE.COM", false, none, 1⟩, ⟨bytes "*", false, none, 127⟩]
        ⟨bytes "EXAMPLE.COM", [bytes "alice"]⟩).1 = some (0, e1) ∧
      e1.ae_name = bytes "alice@EXAMPLE.COM" ∧ e1.ae_op_allowed = 1) ∧
    ∀ opmask, acl_op_permitted (krb5_parse_name [])
        [⟨bytes "alice@EXAMPLE.COM", false, none, 1⟩, ⟨bytes "*", false, none, 127⟩]
        ⟨bytes "EXAMPLE.COM", [bytes "alice"]⟩ opmask = decide (1 &&& opmask = opmask) :=
  (acl_find_entry_first_match (krb5_parse_name [])
    [⟨bytes "alice@EXAMPLE.COM", false, none, 1⟩, ⟨bytes "*", false, none, 127⟩]
    ⟨bytes "EXAMPLE.COM", [bytes "alice"]⟩).1 []
    ⟨bytes "alice@EXAMPLE.COM", false, none, 1⟩ [⟨bytes "*", false, none, 127⟩] rfl
    (by simp) (by decide)

/-- C3: `acl_match_data` on an empty component.  The comparison with "*" over zero
characters succeeds, so a component of length 0 matches every component although it is not
"*" and differs from the other one; two components of equal length that agree up to a zero
byte match as well. -/
theorem acl_match_data_empty_component :
    acl_match_data [] (bytes "admin") = true ∧
    acl_match_data (bytes "admin") [] = true ∧
    ¬ (([] : krb5_data) = bytes "*" ∨ bytes "admin" = bytes "*" ∨
        (([] : krb5_data).length = (bytes "admin").length ∧ [] = bytes "admin")) ∧
    acl_match_data [97, 0, 98] [97, 0, 99] = true := by
  decide

/-! ## Theorems: the operations string -/

theorem acl_op_table_keys (K : acl_masks) :
    ((acl_op_table K).map (fun t => t.ao_op)).Nodup := by
  simp [acl_op_table]

/-- The loop over the table finds at most one row, the one a lookup returns. -/
theorem acl_op_lookup_eq (op rop : Nat) (tbl : List aop_t)
    (hnd : (tbl.map (fun t => t.ao_op)).Nodup) (s : Bool × Nat) :
    acl_op_lookup op rop tbl s =
      match tbl.find? (fun t => t.ao_op = rop) with
      | none => s
      | some t => (true, if rop = op then s.2 ||| t.ao_mask else s.2 &&& int32_not t.ao_mask) := by
  induction tbl generalizing s with
  | nil => simp [acl_op_lookup]
  | cons t ts ih =>
    simp only [List.map_cons, List.nodup_cons] at hnd
    rw [acl_op_lookup]
    by_cases h : rop = t.ao_op
    · have hn : ts.find? (fun t => t.ao_op = rop) = none := by
        rw [List.find?_eq_none]
        intro x hx
        simp only [decide_eq_true_eq]
        intro hxe
        exact hnd.1 (List.mem_map.2 ⟨x, hx, by rw [hxe, h]⟩)
      rw [if_pos h, ih hnd.2, hn]
      simp [List.find?_cons, h]
    · rw [if_neg h, ih hnd.2]
      have h2 : ¬ t.ao_op = rop := fun h3 => h h3.symm
      simp [List.find?_cons, h2]

theorem tolower_ne (c : Nat) : tolower c ≠ c := by
  unfold tolower; omega

theorem acl_parse_ops_step (K : acl_masks) (op : Nat) (ops : List Nat) (s : Bool × Nat) :
    acl_parse_ops K (op :: ops) s =
      acl_parse_ops K ops (s.1 && is_op_token K op,
        if is_op_token K op then apply_op K s.2 op else s.2) := by
  rw [acl_parse_ops]
  simp only [acl_op_lookup_eq _ _ _ (acl_op_table_keys K)]
  unfold is_op_token apply_op op_mask
  by_cases hu : isupper op = true
  · simp only [hu, if_true]
    rcases hf : (acl_op_table K).find? (fun t => t.ao_op = tolower op) with _ | t
    · simp [hf]
    · simp [hf, tolower_ne]
  · simp only [hu, Bool.false_eq_true, if_false]
    rcases hf : (acl_op_table K).find? (fun t => t.ao_op = op) with _ | t
    · simp [hf]
    · simp [hf]

/-- The operations string is accepted exactly when all its characters are tokens. -/
theorem acl_parse_ops_ok (K : acl_masks) (ops : List Nat) (s : Bool × Nat) :
    (acl_parse_ops K ops s).1 = (s.1 && ops.all (is_op_token K)) := by
  induction ops generalizing s with
  | nil => simp [acl_parse_ops]
  | cons op ops ih =>
    rw [acl_parse_ops_step, ih]
    simp [Bool.and_assoc]

/-- On tokens of the table the loops of `acl_parse_line` compute the fold. -/
theorem acl_parse_ops_fold (K : acl_masks) (ops : List Nat) (s : Bool × Nat)
    (h : ∀ c ∈ ops, is_op_token K c = true) :
    (acl_parse_ops K ops s).2 = ops.foldl (apply_op K) s.2 := by
  induction ops generalizing s with
  | nil => simp [acl_parse_ops]
  | cons op ops ih =>
    rw [acl_parse_ops_step, ih _ (fun c hc => h c (List.mem_cons_of_mem _ hc))]
    simp [h op (List.mem_cons_self _ _)]

/-! ## Theorems: tokens and `sscanf` -/

theorem tokens_nil : tokens [] = [] := by
  simp [tokens, List.splitOnP_nil]

theorem tokens_cons_space (c : Nat) (cs : List Nat) (h : isspace c = true) :
    tokens (c :: cs) = tokens cs := by
  simp [tokens, List.splitOnP_cons, h]

theorem splitOnP_word (w r : List Nat) (hw : ∀ c ∈ w, isspace c = false) :
    (w ++ r).splitOnP isspace = (r.splitOnP isspace).modifyHead (fun t => w ++ t) := by
  induction w with
  | nil =>
    rcases h : r.splitOnP isspace with _ | ⟨a, t⟩
    · simp [List.modifyHead, h]
    · simp [List.modifyHead, h]
  | cons x w ih =>
    have hx : isspace x = false := hw x (List.mem_cons_self _ _)
    rw [List.cons_append, List.splitOnP_cons, ih (fun c hc => hw c (List.mem_cons_of_mem _ hc))]
    rcases h : r.splitOnP isspace with _ | ⟨a, t⟩
    · simp [hx, List.modifyHead]
    · simp [hx, List.modifyHead]

/-- A word followed by the end of the line or by white space is the first token. -/
theorem tokens_word (w r : List Nat) (hne : w ≠ []) (hw : ∀ c ∈ w, isspace c = false)
    (hr : r = [] ∨ ∃ c t, r = c :: t ∧ isspace c = true) :
    tokens (w ++ r) = w :: tokens r := by
  unfold tokens
  rw [splitOnP_word w r hw]
  rcases hr with rfl | ⟨c, t, rfl, hc⟩
  · simp [List.splitOnP_nil, List.modifyHead, hne]
  · simp [List.splitOnP_cons, hc, List.modifyHead, hne]

theorem tokens_dropWhile (l : List Nat) : tokens (l.dropWhile isspace) = tokens l := by
  induction l with
  | nil => rfl
  | cons c cs ih =>
    by_cases h : isspace c = true
    · rw [List.dropWhile_cons_of_pos h, ih, tokens_cons_space c cs h]
    · rw [List.dropWhile_cons_of_neg h]

theorem dropWhile_head (p : Nat → Bool) (l : List Nat) :
    l.dropWhile p = [] ∨ ∃ c t, l.dropWhile p = c :: t ∧ p c = false := by
  induction l with
  | nil => simp
  | cons c cs ih =>
    by_cases h : p c = true
    · rw [List.dropWhile_cons_of_pos h]; exact ih
    · rw [List.dropWhile_cons_of_neg h]
      exact Or.inr ⟨c, cs, rfl, by simpa using h⟩

/-- The tokens of a line, one token at a time: skip the white space, take the word. -/
theorem tokens_eq (l : List Nat) :
    tokens l =
      if (l.dropWhile isspace).takeWhile (fun c => !isspace c) = [] then []
      else (l.dropWhile isspace).takeWhile (fun c => !isspace c) ::
        tokens ((l.dropWhile isspace).dropWhile (fun c => !isspace c)) := by
  rw [← tokens_dropWhile l]
  generalize hs : l.dropWhile isspace = s
  have hhead : s = [] ∨ ∃ c t, s = c :: t ∧ isspace c = false := by
    rw [← hs]; exact dropWhile_head isspace l
  by_cases hw : s.takeWhile (fun c => !isspace c) = []
  · rw [if_pos hw]
    rcases hhead with rfl | ⟨c, t, rfl, hc⟩
    · exact tokens_nil
    · simp [List.takeWhile_cons, hc] at hw
  · rw [if_neg hw]
    have hr := dropWhile_head (fun c => !isspace c) s
    conv_lhs => rw [← List.takeWhile_append_dropWhile (fun c => !isspace c) s]
    apply tokens_word _ _ hw
    · intro c hc
      simpa using List.mem_takeWhile_imp hc
    · rcases hr with h | ⟨c, t, h, hc⟩
      · exact Or.inl h
      · exact Or.inr ⟨c, t, h, by simpa using hc⟩

theorem takeWhile_scan_char (l : List Nat) (h : 0 ∉ l) :
    l.takeWhile scan_char = l.takeWhile (fun c => !isspace c) := by
  induction l with
  | nil => rfl
  | cons c cs ih =>
    simp only [List.mem_cons, not_or] at h
    have hc : c ≠ 0 := fun h0 => h.1 h0.symm
    simp only [List.takeWhile_cons, scan_char, hc, ne_eq, not_false_eq_true, decide_True,
      Bool.true_and]
    rw [← ih h.2]

theorem dropWhile_scan_char (l : List Nat) (h : 0 ∉ l) :
    l.dropWhile scan_char = l.dropWhile (fun c => !isspace c) := by
  induction l with
  | nil => rfl
  | cons c cs ih =>
    simp only [List.mem_cons, not_or] at h
    have hc : c ≠ 0 := fun h0 => h.1 h0.symm
    simp only [List.dropWhile_cons, scan_char, hc, ne_eq, not_false_eq_true, decide_True,
      Bool.true_and]
    rw [← ih h.2]

theorem not_mem_dropWhile (p : Nat → Bool) (l : List Nat) (h : 0 ∉ l) : 0 ∉ l.dropWhile p :=
  fun hm => h ((List.dropWhile_suffix p).subset hm)

/-- On a line of text `sscanf` with "%s %s" stores the first two tokens and returns how
many of them there are, `EOF` when there is none. -/
theorem sscanf_s_s_tokens (l : List Nat) (h : 0 ∉ l) :
    sscanf_s_s l =
      match tokens l with
      | [] => (-1, [], [])
      | [p] => (1, p, [])
      | p :: o :: _ => (2, p, o) := by
  unfold sscanf_s_s
  have h1 := not_mem_dropWhile isspace l h
  have h2 := not_mem_dropWhile (fun c => !isspace c) _ h1
  have h3 := not_mem_dropWhile isspace _ h2
  simp only [takeWhile_scan_char _ h1, dropWhile_scan_char _ h1, takeWhile_scan_char _ h3]
  rw [tokens_eq l]
  by_cases hw : (l.dropWhile isspace).takeWhile (fun c => !isspace c) = []
  · simp [hw]
  · rw [if_neg hw, if_neg hw, tokens_eq]
    by_cases hv : (((l.dropWhile isspace).dropWhile (fun c => !isspace c)).dropWhile
        isspace).takeWhile (fun c => !isspace c) = []
    · simp [hv]
    · simp [hv]

/-- The entry `acl_parse_line` builds from a line of text, by the tokens of the line: the
first token is the pattern, the second the operations string, further tokens are not
looked at. -/
theorem acl_parse_line_tokens (K : acl_masks) (l : List Nat) (h : 0 ∉ l) :
    acl_parse_line K l =
      match tokens l with
      | p :: o :: _ =>
        if o.all (is_op_token K) then some ⟨p, false, none, fold_ops K o⟩ else none
      | _ => none := by
  unfold acl_parse_line
  rw [sscanf_s_s_tokens l h]
  rcases tokens l with _ | ⟨p, _ | ⟨o, t⟩⟩
  · simp
  · simp
  · simp only [if_true, acl_parse_ops_ok, Bool.true_and]
    by_cases ho : o.all (is_op_token K) = true
    · rw [if_pos ho, if_pos ho, acl_parse_ops_fold K o _ (by simpa using ho)]
      rfl
    · rw [if_neg ho, if_neg ho]

theorem scan_char_not_space (c : Nat) (h : scan_char c = true) : isspace c = false := by
  simp only [scan_char, Bool.and_eq_true, Bool.not_eq_true'] at h
  exact h.2

theorem scan_char_ne_zero (l : List Nat) (h : ∀ c ∈ l, scan_char c = true) : 0 ∉ l := by
  intro h0
  have := h 0 h0
  simp [scan_char] at this

/-- The tokens of a pattern, a blank and an operations string. -/
theorem tokens_pair (pat ops : List Nat) (hp : pat ≠ []) (hpc : ∀ c ∈ pat, scan_char c = true)
    (ho : ops ≠ []) (hoc : ∀ c ∈ ops, scan_char c = true) :
    tokens (pat ++ 32 :: ops) = [pat, ops] := by
  rw [tokens_word pat _ hp (fun c hc => scan_char_not_space c (hpc c hc))
    (Or.inr ⟨32, ops, rfl, by decide⟩), tokens_cons_space 32 ops (by decide)]
  have := tokens_word ops [] ho (fun c hc => scan_char_not_space c (hoc c hc)) (Or.inl rfl)
  rw [List.append_nil, tokens_nil] at this
  rw [this]

theorem mask_lt_of_wf (K : acl_masks) (hK : K.wf) (t : aop_t) (ht : t ∈ acl_op_table K) :
    t.ao_mask < 2 ^ 32 := by
  have hb := hK.1
  simp only [acl_op_table, List.mem_cons, List.mem_singleton, List.not_mem_nil, or_false] at ht
  rcases ht with rfl | rfl | rfl | rfl | rfl | rfl | rfl | rfl | rfl | rfl | rfl <;>
    exact hb _ (by simp)

/-- A set followed by the clear of the same letter leaves the mask zero. -/
theorem fold_ops_set_clear (K : acl_masks) (hK : K.wf) (t : aop_t) (ht : t ∈ acl_op_table K)
    (hs : t.ao_op ≠ 42) : fold_ops K [t.ao_op, t.ao_op - 32] = 0 := by
  have hm := mask_lt_of_wf K hK t ht
  have key : (0 ||| t.ao_mask) &&& int32_not t.ao_mask = 0 := by
    rw [lor_land_not_self _ _ hm]; simp
  simp only [acl_op_table, List.mem_cons, List.mem_singleton, List.not_mem_nil, or_false] at ht
  rcases ht with rfl | rfl | rfl | rfl | rfl | rfl | rfl | rfl | rfl | rfl | rfl <;>
    first
    | exact absurd rfl hs
    | simpa [fold_ops, apply_op, isupper, tolower, op_mask, acl_op_table] using key

/-- The letters of the table and their upper-case forms are tokens. -/
theorem is_op_token_row (K : acl_masks) (t : aop_t) (ht : t ∈ acl_op_table K) :
    is_op_token K t.ao_op = true ∧ scan_char t.ao_op = true ∧
      (t.ao_op ≠ 42 → is_op_token K (t.ao_op - 32) = true ∧ scan_char (t.ao_op - 32) = true) := by
  simp only [acl_op_table, List.mem_cons, List.mem_singleton, List.not_mem_nil, or_false] at ht
  rcases ht with rfl | rfl | rfl | rfl | rfl | rfl | rfl | rfl | rfl | rfl | rfl <;>
    simp [is_op_token, isupper, tolower, op_mask, acl_op_table, scan_char, isspace]

/-! ## Claims on the operations string -/

/-- C6: operations-string parsing is a left-to-right fold from the zero mask.  For an
operations string made of tokens of the table in either case `acl_parse_line` computes the
fold in which a lower-case letter or `*` ORs its mask in and an upper-case letter AND-NOTs
the mask of its lower-case form; a letter followed by its upper-case form yields the mask
zero, and the clear of an unset bit is accepted and leaves zero. -/
theorem acl_parse_line_ops_fold (K : acl_masks) (hK : K.wf) :
    (∀ lp pat ops, sscanf_s_s lp = (2, pat, ops) → (∀ c ∈ ops, is_op_token K c = true) →
      acl_parse_line K lp = some ⟨pat, false, none, fold_ops K ops⟩) ∧
    (∀ t ∈ acl_op_table K, t.ao_op ≠ 42 → ∀ pat, pat ≠ [] → (∀ c ∈ pat, scan_char c = true) →
      acl_parse_line K (pat ++ 32 :: [t.ao_op, t.ao_op - 32]) = some ⟨pat, false, none, 0⟩ ∧
      acl_parse_line K (pat ++ 32 :: [t.ao_op - 32]) = some ⟨pat, false, none, 0⟩) := by
  constructor
  · intro lp pat ops hs hc
    unfold acl_parse_line
    have hok := acl_parse_ops_ok K ops (true, 0)
    have hall : ops.all (is_op_token K) = true := by simpa using hc
    rw [hall] at hok
    simp only [hs, if_true, hok, Bool.and_self, acl_parse_ops_fold K ops _ hc]
    rfl
  · intro t ht hs pat hp hpc
    obtain ⟨h1, h2, h3⟩ := is_op_token_row K t ht
    obtain ⟨h4, h5⟩ := h3 hs
    have hz := scan_char_ne_zero pat hpc
    have hz1 : t.ao_op ≠ 0 := by
      intro h0; rw [h0] at h2; simp [scan_char] at h2
    have hz2 : t.ao_op - 32 ≠ 0 := by
      intro h0; rw [h0] at h5; simp [scan_char] at h5
    constructor
    · rw [acl_parse_line_tokens K _ (by simp [hz, hz1.symm, hz2.symm]),
        tokens_pair pat _ hp hpc (by simp) (by simp [h2, h5])]
      simp [h1, h4, fold_ops_set_clear K hK t ht hs]
    · rw [acl_parse_line_tokens K _ (by simp [hz, hz2.symm]),
        tokens_pair pat _ hp hpc (by simp) (by simp [h5])]
      have hu : isupper (t.ao_op - 32) = true := by
        simp only [acl_op_table, List.mem_cons, List.mem_singleton, List.not_mem_nil,
          or_false] at ht
        rcases ht with rfl | rfl | rfl | rfl | rfl | rfl | rfl | rfl | rfl | rfl | rfl <;>
          first
          | exact absurd rfl hs
          | simp [isupper]
      simp [h4, fold_ops, apply_op, hu]

/-- C6, at the line `x aA` and the masks of `kadm5_defs`. -/
theorem acl_parse_line_ops_fold_witness :
    kadm5_defs.wf ∧
    acl_parse_line kadm5_defs (bytes "x aA") = some ⟨bytes "x", false, none, 0⟩ :=
  ⟨by decide,
    ((acl_parse_line_ops_fold kadm5_defs (by decide)).2 ⟨97, 1⟩ (by decide) (by decide)
      (bytes "x") (by decide) (by decide)).1⟩

/-! ## Theorems: reading lines -/

theorem acl_copy_line_left (n : Nat) (fp : FILE) :
    (acl_copy_line n fp).2.left ≤ fp.left ∧
      (0 < n → fp.eof = false → (acl_copy_line n fp).2.left < fp.left) := by
  induction n generalizing fp with
  | zero => simp [acl_copy_line]
  | succ n ih =>
    rcases fp with ⟨rest, eof⟩
    cases eof with
    | true => simp [acl_copy_line]
    | false =>
      cases rest with
      | nil =>
        have h := (ih ⟨[], true⟩).1
        simp only [acl_copy_line, fgetc, to_char, FILE.left] at h ⊢
        simp only [if_true, Nat.le_zero_eq] at h
        simp [h]
      | cons c cs =>
        have h := (ih ⟨cs, false⟩).1
        simp only [acl_copy_line, fgetc, to_char, FILE.left] at h ⊢
        by_cases hc : c = 10
        · simp [hc]
        · simp only [hc, if_false, Bool.false_eq_true, List.length_cons] at h ⊢
          constructor
          · omega
          · intro _ _; omega

theorem acl_skip_line_length (l cs : List Nat) (h : acl_skip_line l = some cs) :
    cs.length < l.length := by
  induction l with
  | nil => simp [acl_skip_line] at h
  | cons c t ih =>
    rw [acl_skip_line] at h
    by_cases hc : c = 10
    · simp only [hc, if_true, Option.some.injEq] at h
      subst h; simp
    · simp only [hc, if_false] at h
      have := ih h
      simp only [List.length_cons]; omega

/-- Every iteration of the loop of `acl_get_line` that ends reads a byte or sets the
end-of-file indicator. -/
theorem acl_get_line_body_left (BUFSIZ : Nat) (fp : FILE) (acl_buf : List Nat) (fp1 : FILE)
    (he : fp.eof = false) (h : acl_get_line_body BUFSIZ fp = some (acl_buf, fp1)) :
    fp1.left < fp.left := by
  unfold acl_get_line_body at h
  have hc := acl_copy_line_left BUFSIZ fp
  by_cases hcond : ((acl_copy_line BUFSIZ fp).1.length = BUFSIZ &&
      !(acl_copy_line BUFSIZ fp).2.eof) = true
  · simp only [hcond, if_true] at h
    rcases hs : acl_skip_line (acl_copy_line BUFSIZ fp).2.rest with _ | cs
    · simp [hs] at h
    · simp only [hs, Option.map_some', Option.some.injEq, Prod.mk.injEq] at h
      have hl := acl_skip_line_length _ _ hs
      have he2 : (acl_copy_line BUFSIZ fp).2.eof = false := by
        simp only [Bool.and_eq_true, Bool.not_eq_true'] at hcond
        exact hcond.2
      rw [← h.2]
      have h1 := hc.1
      simp only [FILE.left, he2, he, Bool.false_eq_true, if_false] at h1 ⊢
      omega
  · simp only [hcond, Bool.false_eq_true, if_false, Option.map_some', Option.some.injEq,
      Prod.mk.injEq] at h
    rw [← h.2]
    rcases Nat.eq_zero_or_pos BUFSIZ with h0 | hpos
    · exfalso
      apply hcond
      subst h0
      simp [acl_copy_line, he]
    · exact hc.2 hpos he

theorem acl_get_line_loop_eq (BUFSIZ k : Nat) (fp : FILE) :
    acl_get_line_loop BUFSIZ k fp =
      if fp.eof then .returns (none, fp)
      else
        match k with
        | 0 => .out_of_fuel
        | k + 1 =>
          match acl_get_line_body BUFSIZ fp with
          | none => .hangs
          | some (acl_buf, fp1) =>
            if is_kept acl_buf then .returns (some acl_buf, fp1)
            else acl_get_line_loop BUFSIZ k fp1 := by
  cases k with
  | zero => rw [acl_get_line_loop]
  | succ k => rw [acl_get_line_loop]; rfl

/-- The loop of `acl_get_line` does the same with any number of allowed iterations that
covers the reads the stream allows. -/
theorem acl_get_line_loop_fuel (BUFSIZ : Nat) (k1 k2 : Nat) (fp : FILE)
    (h1 : fp.left ≤ k1) (h2 : fp.left ≤ k2) :
    acl_get_line_loop BUFSIZ k1 fp = acl_get_line_loop BUFSIZ k2 fp := by
  induction k1 generalizing k2 fp with
  | zero =>
    have he : fp.eof = true := by
      unfold FILE.left at h1
      by_contra hne
      simp only [hne, Bool.false_eq_true, if_false] at h1
      omega
    rw [acl_get_line_loop_eq, acl_get_line_loop_eq BUFSIZ k2]
    simp [he]
  | succ a ih =>
    rw [acl_get_line_loop_eq, acl_get_line_loop_eq BUFSIZ k2]
    rcases he : fp.eof with _ | _
    · have hpos : 0 < k2 := by
        unfold FILE.left at h2
        simp only [he, Bool.false_eq_true, if_false] at h2
        omega
      obtain ⟨b, rfl⟩ : ∃ b, k2 = b + 1 := ⟨k2 - 1, by omega⟩
      simp only [Bool.false_eq_true, if_false]
      rcases hb : acl_get_line_body BUFSIZ fp with _ | ⟨acl_buf, fp1⟩
      · rfl
      · have hl := acl_get_line_body_left BUFSIZ fp acl_buf fp1 he hb
        simp only []
        by_cases hk : is_kept acl_buf = true
        · simp [hk]
        · simp only [hk, Bool.false_eq_true, if_false]
          exact ih b fp1 (by omega) (by omega)
    · simp

theorem acl_copy_line_short (n : Nat) (l r : List Nat) (hl : 10 ∉ l) (hn : l.length < n) :
    acl_copy_line n ⟨l ++ 10 :: r, false⟩ = (l, ⟨r, false⟩) := by
  induction l generalizing n with
  | nil =>
    obtain ⟨m, rfl⟩ : ∃ m, n = m + 1 := ⟨n - 1, by simp at hn; omega⟩
    simp [acl_copy_line, fgetc, to_char]
  | cons c t ih =>
    obtain ⟨m, rfl⟩ : ∃ m, n = m + 1 := ⟨n - 1, by simp at hn; omega⟩
    simp only [List.mem_cons, not_or] at hl
    have hc : c ≠ 10 := fun h => hl.1 h.symm
    simp only [List.length_cons, Nat.add_lt_add_iff_right] at hn
    simp [acl_copy_line, fgetc, to_char, hc, ih m hl.2 hn]

theorem acl_copy_line_long (n : Nat) (l r : List Nat) (hl : 10 ∉ l) (hn : n ≤ l.length) :
    acl_copy_line n ⟨l ++ r, false⟩ = (l.take n, ⟨l.drop n ++ r, false⟩) := by
  induction n generalizing l with
  | zero => simp [acl_copy_line]
  | succ m ih =>
    cases l with
    | nil => simp at hn
    | cons c t =>
      simp only [List.mem_cons, not_or] at hl
      have hc : c ≠ 10 := fun h => hl.1 h.symm
      simp only [List.length_cons, Nat.add_le_add_iff_right] at hn
      simp [acl_copy_line, fgetc, to_char, hc, ih t hl.2 hn]

theorem acl_skip_line_newline (l r : List Nat) (hl : 10 ∉ l) :
    acl_skip_line (l ++ 10 :: r) = some r := by
  induction l with
  | nil => simp [acl_skip_line]
  | cons c t ih =>
    simp only [List.mem_cons, not_or] at hl
    have hc : c ≠ 10 := fun h => hl.1 h.symm
    simp [acl_skip_line, hc, ih hl.2]

theorem acl_skip_line_none (l : List Nat) (hl : 10 ∉ l) : acl_skip_line l = none := by
  induction l with
  | nil => simp [acl_skip_line]
  | cons c t ih =>
    simp only [List.mem_cons, not_or] at hl
    have hc : c ≠ 10 := fun h => hl.1 h.symm
    simp [acl_skip_line, hc, ih hl.2]

/-- One iteration of the loop of `acl_get_line` on a line that ends with a newline: the
buffer receives the first `BUFSIZ` characters of the line and the stream stands behind the
newline. -/
theorem acl_get_line_body_newline (BUFSIZ : Nat) (l r : List Nat) (hl : 10 ∉ l) :
    acl_get_line_body BUFSIZ ⟨l ++ 10 :: r, false⟩ = some (buffered BUFSIZ l, ⟨r, false⟩) := by
  unfold acl_get_line_body buffered
  by_cases hn : l.length < BUFSIZ
  · rw [acl_copy_line_short BUFSIZ l r hl hn]
    have h1 : ¬ l.length = BUFSIZ := by omega
    have h2 : l.take BUFSIZ = l := List.take_of_length_le (by omega)
    simp [h1, h2]
  · have hn2 : BUFSIZ ≤ l.length := by omega
    rw [acl_copy_line_long BUFSIZ l (10 :: r) hl hn2]
    have h1 : (l.take BUFSIZ).length = BUFSIZ := by simp [List.length_take, hn2]
    have h2 : 10 ∉ l.drop BUFSIZ := fun h => hl (List.mem_of_mem_drop h)
    simp [h1, acl_skip_line_newline _ r h2]

/-- The function `acl_get_line` on a line that ends with a newline. -/
theorem acl_get_line_newline (BUFSIZ : Nat) (l r : List Nat) (hl : 10 ∉ l) :
    acl_get_line BUFSIZ ⟨l ++ 10 :: r, false⟩ =
      if is_kept (buffered BUFSIZ l) then .returns (some (buffered BUFSIZ l), ⟨r, false⟩)
      else acl_get_line BUFSIZ ⟨r, false⟩ := by
  unfold acl_get_line
  rw [acl_get_line_loop_eq]
  simp only [Bool.false_eq_true, if_false, acl_get_line_body_newline BUFSIZ l r hl]
  by_cases hk : is_kept (buffered BUFSIZ l) = true
  · simp [hk]
  · simp only [hk, Bool.false_eq_true, if_false]
    apply acl_get_line_loop_fuel <;> simp [FILE.left]

/-- The function `acl_get_line` at the end of the source. -/
theorem acl_get_line_end (BUFSIZ : Nat) (hB : 0 < BUFSIZ) :
    acl_get_line BUFSIZ ⟨[], false⟩ = .returns (none, ⟨[], true⟩) := by
  obtain ⟨m, rfl⟩ : ∃ m, BUFSIZ = m + 1 := ⟨BUFSIZ - 1, by omega⟩
  unfold acl_get_line
  rw [acl_get_line_loop_eq]
  have hb : acl_get_line_body (m + 1) ⟨[], false⟩ = some ([0], ⟨[], true⟩) := by
    cases m <;> simp [acl_get_line_body, acl_copy_line, fgetc, to_char]
  simp only [Bool.false_eq_true, if_false, List.length_nil, Nat.zero_add, hb]
  rw [acl_get_line_loop_eq]
  simp [is_kept]

theorem acl_get_line_loop_left (BUFSIZ k : Nat) (fp fp1 : FILE) (x : Option (List Nat))
    (h : acl_get_line_loop BUFSIZ k fp = .returns (x, fp1)) :
    fp1.left ≤ fp.left ∧ (x ≠ none → fp1.left < fp.left) := by
  induction k generalizing fp with
  | zero =>
    rw [acl_get_line_loop_eq] at h
    rcases he : fp.eof with _ | _
    · simp [he] at h
    · simp only [he, if_true, run.returns.injEq, Prod.mk.injEq] at h
      rw [← h.1, ← h.2]; simp
  | succ a ih =>
    rw [acl_get_line_loop_eq] at h
    rcases he : fp.eof with _ | _
    · simp only [he, Bool.false_eq_true, if_false] at h
      rcases hb : acl_get_line_body BUFSIZ fp with _ | ⟨acl_buf, fp2⟩
      · simp [hb] at h
      · have hl := acl_get_line_body_left BUFSIZ fp acl_buf fp2 he hb
        simp only [hb] at h
        by_cases hk : is_kept acl_buf = true
        · simp only [hk, if_true, run.returns.injEq, Prod.mk.injEq] at h
          rw [← h.2]
          exact ⟨by omega, fun _ => hl⟩
        · simp only [hk, Bool.false_eq_true, if_false] at h
          have := ih fp2 h
          exact ⟨by omega, fun hx => by have := this.2 hx; omega⟩
    · simp only [he, if_true, run.returns.injEq, Prod.mk.injEq] at h
      rw [← h.1, ← h.2]; simp

theorem acl_load_lines_eq (BUFSIZ : Nat) (K : acl_masks) (k : Nat) (afp : FILE) :
    acl_load_lines BUFSIZ K k afp =
      match acl_get_line BUFSIZ afp with
      | .hangs => .hangs
      | .out_of_fuel => .out_of_fuel
      | .undefined => .undefined
      | .returns (none, _) => .returns (1, [])
      | .returns (some alinep, afp1) =>
        match acl_parse_line K alinep with
        | none => .returns (0, [])
        | some aent =>
          match k with
          | 0 => .out_of_fuel
          | k + 1 => run.link [aent] (acl_load_lines BUFSIZ K k afp1) := by
  cases k with
  | zero => rw [acl_load_lines]
  | succ k =>
    rw [acl_load_lines]
    rcases acl_get_line BUFSIZ afp with ⟨_ | line, afp1⟩ | _ | _ | _
    · rfl
    · simp only []
      rcases acl_parse_line K line with _ | aent
      · rfl
      · simp only []
        rcases acl_load_lines BUFSIZ K k afp1 with ⟨rv, es⟩ | _ | _ | _ <;> rfl
    · rfl
    · rfl
    · rfl

/-- The loop of `acl_load_acl_file` does the same with any number of allowed iterations
that covers the reads the stream allows. -/
theorem acl_load_lines_fuel (BUFSIZ : Nat) (K : acl_masks) (k1 k2 : Nat) (fp : FILE)
    (h1 : fp.left ≤ k1) (h2 : fp.left ≤ k2) :
    acl_load_lines BUFSIZ K k1 fp = acl_load_lines BUFSIZ K k2 fp := by
  induction k1 generalizing k2 fp with
  | zero =>
    rw [acl_load_lines_eq, acl_load_lines_eq BUFSIZ K k2]
    rcases hg : acl_get_line BUFSIZ fp with ⟨_ | line, afp1⟩ | _ | _ | _
    · rfl
    · have := (acl_get_line_loop_left BUFSIZ _ fp afp1 (some line) hg).2 (by simp)
      omega
    · rfl
    · rfl
    · rfl
  | succ a ih =>
    rw [acl_load_lines_eq, acl_load_lines_eq BUFSIZ K k2]
    rcases hg : acl_get_line BUFSIZ fp with ⟨_ | line, afp1⟩ | _ | _ | _
    · rfl
    · have hl := (acl_get_line_loop_left BUFSIZ _ fp afp1 (some line) hg).2 (by simp)
      obtain ⟨b, rfl⟩ : ∃ b, k2 = b + 1 := ⟨k2 - 1, by omega⟩
      simp only []
      rcases acl_parse_line K line with _ | aent
      · rfl
      · simp only []
        rw [ih b afp1 (by omega) (by omega)]
    · rfl
    · rfl
    · rfl

/-- The loop of `acl_get_line` never stops for want of allowed iterations when these cover
the reads the stream allows, as they do in `acl_get_line`. -/
theorem acl_get_line_loop_enough (BUFSIZ : Nat) (k : Nat) (fp : FILE) (h : fp.left ≤ k) :
    acl_get_line_loop BUFSIZ k fp ≠ .out_of_fuel := by
  induction k generalizing fp with
  | zero =>
    have he : fp.eof = true := by
      unfold FILE.left at h
      by_contra hne
      simp only [hne, Bool.false_eq_true, if_false] at h
      omega
    rw [acl_get_line_loop_eq]
    simp [he]
  | succ a ih =>
    rw [acl_get_line_loop_eq]
    rcases he : fp.eof with _ | _
    · simp only [Bool.false_eq_true, if_false]
      rcases hb : acl_get_line_body BUFSIZ fp with _ | ⟨acl_buf, fp1⟩
      · simp
      · have hl := acl_get_line_body_left BUFSIZ fp acl_buf fp1 he hb
        simp only []
        by_cases hk : is_kept acl_buf = true
        · simp [hk]
        · simp only [hk, Bool.false_eq_true, if_false]
          exact ih fp1 (by omega)
    · simp

/-- The loop of `acl_load_acl_file` never stops for want of allowed iterations when these
cover the reads the stream allows, as they do in `acl_load_acl_file`. -/
theorem acl_load_lines_enough (BUFSIZ : Nat) (K : acl_masks) (k : Nat) (fp : FILE)
    (h : fp.left ≤ k) : acl_load_lines BUFSIZ K k fp ≠ .out_of_fuel := by
  induction k generalizing fp with
  | zero =>
    rw [acl_load_lines_eq]
    rcases hg : acl_get_line BUFSIZ fp with ⟨_ | line, afp1⟩ | _ | _ | _
    · simp
    · have := (acl_get_line_loop_left BUFSIZ _ fp afp1 (some line) hg).2 (by simp)
      omega
    · simp
    · exact absurd hg (acl_get_line_loop_enough BUFSIZ _ fp (by unfold FILE.left; split <;> omega))
    · simp
  | succ a ih =>
    rw [acl_load_lines_eq]
    rcases hg : acl_get_line BUFSIZ fp with ⟨_ | line, afp1⟩ | _ | _ | _
    · simp
    · have hl := (acl_get_line_loop_left BUFSIZ _ fp afp1 (some line) hg).2 (by simp)
      simp only []
      rcases acl_parse_line K line with _ | aent
      · simp
      · simp only []
        have := ih afp1 (by omega)
        rcases hr : acl_load_lines BUFSIZ K a afp1 with ⟨rv, es⟩ | _ | _ | _
        · simp [run.link]
        · simp [run.link]
        · exact absurd hr this
        · simp [run.link]
    · simp
    · exact absurd hg (acl_get_line_loop_enough BUFSIZ _ fp (by unfold FILE.left; split <;> omega))
    · simp

/-- The loop of `acl_load_acl_file` on a source that starts with lines ended by a newline:
the retained parts of these lines are parsed in order, a line that does not parse ends the
loop with `retval` 0, and otherwise the loop goes on with what follows the lines. -/
theorem acl_load_lines_unlines (BUFSIZ : Nat) (K : acl_masks) (ls : List (List Nat))
    (hls : ∀ l ∈ ls, 10 ∉ l) (r : List Nat) (k : Nat)
    (hk : (unlines ls ++ r).length + 1 ≤ k) :
    acl_load_lines BUFSIZ K k ⟨unlines ls ++ r, false⟩ =
      if (parse_lines K (ls.map (buffered BUFSIZ))).1 = 0 then
        .returns (0, (parse_lines K (ls.map (buffered BUFSIZ))).2)
      else
        run.link (parse_lines K (ls.map (buffered BUFSIZ))).2
          (acl_load_lines BUFSIZ K k ⟨r, false⟩) := by
  induction ls generalizing k with
  | nil =>
    simp only [unlines, List.nil_append, List.map_nil, parse_lines, Nat.one_ne_zero, if_false]
    rcases acl_load_lines BUFSIZ K k ⟨r, false⟩ with ⟨rv, es⟩ | _ | _ | _ <;> rfl
  | cons l ls ih =>
    have hl : 10 ∉ l := hls l (List.mem_cons_self _ _)
    have hls2 : ∀ x ∈ ls, 10 ∉ x := fun x hx => hls x (List.mem_cons_of_mem _ hx)
    have hlen2 : (unlines ls).length + r.length + 2 ≤ k := by
      simp only [unlines, List.append_assoc, List.cons_append, List.length_append,
        List.length_cons] at hk
      omega
    have hlen : (unlines ls ++ r).length + 1 ≤ k := by
      rw [List.length_append]; omega
    simp only [unlines, List.append_assoc, List.cons_append, List.map_cons, parse_lines]
    rw [acl_load_lines_eq, acl_get_line_newline BUFSIZ l _ hl]
    by_cases hkept : is_kept (buffered BUFSIZ l) = true
    · simp only [hkept, if_true]
      rcases acl_parse_line K (buffered BUFSIZ l) with _ | aent
      · simp
      · obtain ⟨b, rfl⟩ : ∃ b, k = b + 1 := ⟨k - 1, by omega⟩
        simp only []
        rw [acl_load_lines_fuel BUFSIZ K b (b + 1) _ (by simp [FILE.left]; omega)
          (by simp [FILE.left]; omega), ih hls2 (b + 1) hlen]
        by_cases hz : (parse_lines K (ls.map (buffered BUFSIZ))).1 = 0
        · simp [hz, run.link]
        · simp only [hz, if_false]
          rcases acl_load_lines BUFSIZ K (b + 1) ⟨r, false⟩ with ⟨rv, es⟩ | _ | _ | _ <;> rfl
    · simp only [hkept, Bool.false_eq_true, if_false]
      rw [← ih hls2 k hlen, acl_load_lines_eq BUFSIZ K k ⟨unlines ls ++ r, false⟩]

/-! ## Theorems: loading -/

theorem acl_parse_line_catchall (K : acl_masks) :
    acl_parse_line K acl_catchall_entry = some (catchall K) := by
  have : acl_parse_line K acl_catchall_entry =
      some ⟨[42], false, none, 0 ||| K.ACL_CHANGE_OWN_PW⟩ := rfl
  rw [this, Nat.zero_or]; rfl

theorem acl_load_lines_end (BUFSIZ : Nat) (K : acl_masks) (hB : 0 < BUFSIZ) (k : Nat) :
    acl_load_lines BUFSIZ K k ⟨[], false⟩ = .returns (1, []) := by
  rw [acl_load_lines_eq, acl_get_line_end BUFSIZ hB]

theorem parse_lines_retval (K : acl_masks) (bs : List (List Nat)) :
    (parse_lines K bs).1 = 0 ∨ (parse_lines K bs).1 = 1 := by
  induction bs with
  | nil => simp [parse_lines]
  | cons b bs ih =>
    rw [parse_lines]
    by_cases hk : is_kept b = true
    · rcases acl_parse_line K b with _ | e <;> simp [hk, ih]
    · simp [hk, ih]

/-- The function `acl_free_entries` returns on the empty list only. -/
theorem acl_free_entries_eq (st : acl_state) :
    acl_free_entries st = if st.acl_list = [] then .returns ⟨[], 0⟩ else .undefined := by
  unfold acl_free_entries
  rcases st with ⟨_ | ⟨e, es⟩, n⟩ <;> simp

/-- With `retval` 0 the end of `acl_load_acl_file` never returns success. -/
theorem acl_load_end_zero (st s : acl_state) (rv : Nat) (h : acl_load_end 0 st = .returns (rv, s)) :
    rv = 0 ∧ s = ⟨[], 0⟩ ∧ st.acl_list = [] := by
  unfold acl_load_end at h
  rw [acl_free_entries_eq] at h
  rcases st with ⟨_ | ⟨e, es⟩, n⟩
  · simp only [if_true, run.returns.injEq, Prod.mk.injEq] at h
    exact ⟨h.1.symm, h.2.symm, rfl⟩
  · simp at h

/-- With `retval` 0 and an entry in the list the end of `acl_load_acl_file` runs into the
read of the freed entry. -/
theorem acl_load_end_entry (es : List aent_t) (e : aent_t) (n : Nat) :
    acl_load_end 0 ⟨es ++ [e], n⟩ = .undefined := by
  unfold acl_load_end
  rw [acl_free_entries_eq]
  simp

/-- A load whose loop over the lines ends with `retval` 0 fails. -/
theorem load_fails_of_lines (BUFSIZ : Nat) (K : acl_masks) (content : List Nat)
    (st : acl_state) (aents : List aent_t)
    (h : acl_load_lines BUFSIZ K (content.length + 1) ⟨content, false⟩ = .returns (0, aents)) :
    load_fails BUFSIZ K content st aents := by
  have h2 : acl_load_acl_file BUFSIZ K (some content) st =
      acl_load_end 0 ⟨aents ++ [catchall K], st.acl_inited⟩ := by
    unfold acl_load_acl_file
    simp only [h, acl_parse_line_catchall]
  refine ⟨h, h2, ?_⟩
  intro s hs
  rw [h2] at hs
  have := (acl_load_end_zero _ _ _ hs).1
  omega

/-- A source in which a line that is not skipped fails to parse: the load fails behind the
entries of the lines before it, whatever precedes and follows the line. -/
theorem acl_load_acl_file_fail (BUFSIZ : Nat) (K : acl_masks) (ls : List (List Nat))
    (hls : ∀ l ∈ ls, 10 ∉ l) (r : List Nat) (st : acl_state)
    (h : (parse_lines K (ls.map (buffered BUFSIZ))).1 = 0) :
    load_fails BUFSIZ K (unlines ls ++ r) st (parse_lines K (ls.map (buffered BUFSIZ))).2 := by
  apply load_fails_of_lines
  simp only [acl_load_lines_unlines BUFSIZ K ls hls r _ (Nat.le_refl _), h, if_true]

/-- A source of lines ended by a newline all of which parse or are skipped: the load
succeeds and installs the entries parsed, in order, and the catchall entry behind them. -/
theorem acl_load_acl_file_ok (BUFSIZ : Nat) (K : acl_masks) (hB : 0 < BUFSIZ)
    (ls : List (List Nat)) (hls : ∀ l ∈ ls, 10 ∉ l) (st : acl_state)
    (h : (parse_lines K (ls.map (buffered BUFSIZ))).1 ≠ 0) :
    acl_load_acl_file BUFSIZ K (some (unlines ls)) st =
      .returns (1, ⟨(parse_lines K (ls.map (buffered BUFSIZ))).2 ++ [catchall K],
        st.acl_inited⟩) := by
  have h1 : (parse_lines K (ls.map (buffered BUFSIZ))).1 = 1 := by
    rcases parse_lines_retval K (ls.map (buffered BUFSIZ)) with h0 | h1
    · exact absurd h0 h
    · exact h1
  have hu := acl_load_lines_unlines BUFSIZ K ls hls [] _ (Nat.le_refl _)
  rw [List.append_nil] at hu
  unfold acl_load_acl_file
  simp only [hu, h, if_false, acl_load_lines_end BUFSIZ K hB, run.link, List.append_nil,
    acl_parse_line_catchall, acl_load_end, Nat.one_ne_zero]

theorem parse_lines_fail (K : acl_masks) (bs : List (List Nat)) (b : List Nat)
    (cs : List (List Nat)) (hk : is_kept b = true) (hp : acl_parse_line K b = none) :
    (parse_lines K (bs ++ b :: cs)).1 = 0 := by
  induction bs with
  | nil => simp [parse_lines, hk, hp]
  | cons a bs ih =>
    rw [List.cons_append, parse_lines]
    by_cases ha : is_kept a = true
    · rcases acl_parse_line K a with _ | e <;> simp [ha, ih]
    · simp [ha, ih]

/-- The entries linked when a line fails to parse are those linked before it. -/
theorem parse_lines_fail_entries (K : acl_masks) (bs : List (List Nat)) (b : List Nat)
    (cs : List (List Nat)) (hk : is_kept b = true) (hp : acl_parse_line K b = none) :
    (parse_lines K (bs ++ b :: cs)).2 = (parse_lines K bs).2 := by
  induction bs with
  | nil => simp [parse_lines, hk, hp]
  | cons a bs ih =>
    rw [List.cons_append, parse_lines, parse_lines]
    by_cases ha : is_kept a = true
    · rcases acl_parse_line K a with _ | e <;> simp [ha, ih]
    · simp [ha, ih]

theorem buffered_short (BUFSIZ : Nat) (l : List Nat) (hl : l.length < BUFSIZ)
    (hh : l.head? ≠ some 255) : buffered BUFSIZ l = l := by
  unfold buffered
  rw [List.take_of_length_le (by omega)]
  cases l with
  | nil => simp
  | cons c t =>
    have : c ≠ 255 := fun h => hh (by simp [h])
    simp [this]

theorem unlines_append (a b : List (List Nat)) : unlines (a ++ b) = unlines a ++ unlines b := by
  induction a with
  | nil => simp [unlines]
  | cons l a ih => simp [unlines, ih]

/-- The load fails when a line ended by a newline is not skipped and does not parse. -/
theorem acl_load_acl_file_bad_line (BUFSIZ : Nat) (K : acl_masks) (ls : List (List Nat))
    (hls : ∀ l ∈ ls, 10 ∉ l) (bad post : List Nat) (hb : 10 ∉ bad) (st : acl_state)
    (hk : is_kept (buffered BUFSIZ bad) = true)
    (hp : acl_parse_line K (buffered BUFSIZ bad) = none) :
    load_fails BUFSIZ K (unlines ls ++ bad ++ 10 :: post) st
      (parse_lines K (ls.map (buffered BUFSIZ))).2 := by
  have hu : unlines ls ++ bad ++ 10 :: post = unlines (ls ++ [bad]) ++ post := by
    simp [unlines_append, unlines]
  have he : (parse_lines K (ls.map (buffered BUFSIZ))).2 =
      (parse_lines K ((ls ++ [bad]).map (buffered BUFSIZ))).2 := by
    rw [List.map_append]
    exact (parse_lines_fail_entries K _ _ [] hk hp).symm
  rw [hu, he]
  apply acl_load_acl_file_fail
  · intro l hl
    rcases List.mem_append.1 hl with h1 | h1
    · exact hls l h1
    · simp only [List.mem_singleton] at h1; rw [h1]; exact hb
  · rw [List.map_append]
    exact parse_lines_fail K _ _ [] hk hp

theorem parse_lines_well_formed (BUFSIZ : Nat) (K : acl_masks) (ls : List (List Nat))
    (hwf : well_formed BUFSIZ K ls) :
    parse_lines K (ls.map (buffered BUFSIZ)) =
      (1, (ls.filter (fun l => !skipped_line l)).map (rule_of_line K)) := by
  induction ls with
  | nil => simp [parse_lines]
  | cons l ls ih =>
    have ih2 := ih (fun x hx => hwf x (List.mem_cons_of_mem _ hx))
    obtain ⟨-, hlen, hshape⟩ := hwf l (List.mem_cons_self _ _)
    have hskip : skipped_line l = true →
        parse_lines K ((l :: ls).map (buffered BUFSIZ)) =
          (1, ((l :: ls).filter (fun l => !skipped_line l)).map (rule_of_line K)) := by
      intro hs
      have hnk : is_kept (buffered BUFSIZ l) = false := by
        cases l with
        | nil => simp [buffered, is_kept]
        | cons c t =>
          have hc : c = 35 := by simpa [skipped_line] using hs
          subst hc
          rw [buffered_short BUFSIZ _ hlen (by simp)]
          simp [is_kept]
      simp [parse_lines, hnk, ih2, hs]
    by_cases hs : skipped_line l = true
    · exact hskip hs
    · rcases hshape with h | h | ⟨⟨hz, hff⟩, pat, ops, htok, hops⟩
      · exact absurd (by simp [skipped_line, h]) hs
      · exact absurd (by simp [skipped_line, h]) hs
      · have hb := buffered_short BUFSIZ l hlen hff
        have hk : is_kept l = true := by
          cases l with
          | nil => simp [skipped_line] at hs
          | cons c t =>
            have h35 : c ≠ 35 := fun h => hs (by simp [skipped_line, h])
            have h0 : c ≠ 0 := fun h => hz (by simp [h])
            simp [is_kept, h35, h0]
        have hp : acl_parse_line K l = some (rule_of_line K l) := by
          rw [acl_parse_line_tokens K l hz]
          have hall : ops.all (is_op_token K) = true := by simpa using hops
          simp [htok, hall, rule_of_line]
        simp [parse_lines, hb, hk, hp, ih2, hs]

/-! ## Claims on loading -/

/-- C5: when the rule source cannot be opened `acl_load_acl_file` succeeds and installs
exactly one rule, the catchall with pattern `*` and the mask ChangeOwnPassword; every
principal is then permitted ChangeOwnPassword and refused AddPrincipal. -/
theorem acl_load_acl_file_cannot_open (BUFSIZ : Nat) (K : acl_masks) (hK : K.wf)
    (st : acl_state) :
    acl_load_acl_file BUFSIZ K none st = .returns (1, ⟨[catchall K], st.acl_inited⟩) ∧
    (catchall K).ae_name = [42] ∧ (catchall K).ae_op_allowed = K.ACL_CHANGE_OWN_PW ∧
    ∀ (parse_name : List Nat → Option krb5_principal) (principal : krb5_principal),
      acl_op_permitted parse_name [catchall K] principal K.ACL_CHANGE_OWN_PW = true ∧
      acl_op_permitted parse_name [catchall K] principal K.ACL_ADD_PRINCIPAL = false := by
  refine ⟨?_, rfl, rfl, ?_⟩
  · unfold acl_load_acl_file
    simp only [acl_parse_line_catchall, acl_load_end, Nat.one_ne_zero, if_false]
  · intro parse_name principal
    have hd : K.ACL_CHANGE_OWN_PW &&& K.ACL_ADD_PRINCIPAL = 0 := by
      have hp := hK.2.2.1
      simp only [List.pairwise_cons] at hp
      rw [Nat.and_comm]
      exact hp.1 _ (by simp)
    have hne : K.ACL_CHANGE_OWN_PW &&& K.ACL_ADD_PRINCIPAL ≠ K.ACL_ADD_PRINCIPAL :=
      land_ne_of_disjoint _ _ hd hK.2.1.1
    simp [acl_op_permitted, acl_find_entry, acl_find_entry_from, catchall, hne]

/-- C5, at the masks of `kadm5_defs`. -/
theorem acl_load_acl_file_cannot_open_witness :
    kadm5_defs.wf ∧
    acl_load_acl_file 8192 kadm5_defs none ⟨[], 0⟩ =
      .returns (1, ⟨[⟨bytes "*", false, none, 16⟩], 0⟩) :=
  ⟨by decide, (acl_load_acl_file_cannot_open 8192 kadm5_defs (by decide) ⟨[], 0⟩).1⟩

/-- C7: for a well-formed rule source `acl_load_acl_file` succeeds and installs exactly
the rules of the lines that are not skipped, in file order, and the catchall rule as the
last element; empty lines and lines that start with `#` contribute nothing, so two
well-formed sources with the same other lines install the same list. -/
theorem acl_load_acl_file_well_formed (BUFSIZ : Nat) (K : acl_masks) (hB : 0 < BUFSIZ)
    (ls : List (List Nat)) (hwf : well_formed BUFSIZ K ls) (st : acl_state) :
    acl_load_acl_file BUFSIZ K (some (unlines ls)) st =
      .returns (1, ⟨(ls.filter (fun l => !skipped_line l)).map (rule_of_line K) ++
        [catchall K], st.acl_inited⟩) ∧
    ∀ ls2, well_formed BUFSIZ K ls2 →
      ls2.filter (fun l => !skipped_line l) = ls.filter (fun l => !skipped_line l) →
      acl_load_acl_file BUFSIZ K (some (unlines ls2)) st =
        acl_load_acl_file BUFSIZ K (some (unlines ls)) st := by
  have key : ∀ xs, well_formed BUFSIZ K xs →
      acl_load_acl_file BUFSIZ K (some (unlines xs)) st =
        .returns (1, ⟨(xs.filter (fun l => !skipped_line l)).map (rule_of_line K) ++
          [catchall K], st.acl_inited⟩) := by
    intro xs hxs
    have hp := parse_lines_well_formed BUFSIZ K xs hxs
    rw [acl_load_acl_file_ok BUFSIZ K hB xs (fun l hl => (hxs l hl).1) st (by rw [hp]; simp),
      hp]
  refine ⟨key ls hwf, ?_⟩
  intro ls2 hwf2 hsame
  rw [key ls hwf, key ls2 hwf2, hsame]

/-- C7, at a source with a comment, an empty line and one rule. -/
theorem acl_load_acl_file_well_formed_witness :
    acl_load_acl_file 8192 kadm5_defs
        (some (unlines [bytes "# rules", [], bytes "alice@EXAMPLE.COM admci"])) ⟨[], 0⟩ =
      .returns (1, ⟨[⟨bytes "alice@EXAMPLE.COM", false, none, 47⟩,
        ⟨bytes "*", false, none, 16⟩], 0⟩) :=
  (acl_load_acl_file_well_formed 8192 kadm5_defs (by decide)
    [bytes "# rules", [], bytes "alice@EXAMPLE.COM admci"]
    (by
      intro l hl
      simp only [List.mem_cons, List.mem_singleton, List.not_mem_nil, or_false] at hl
      rcases hl with rfl | rfl | rfl
      · exact ⟨by decide, by decide, Or.inr (Or.inl (by decide))⟩
      · exact ⟨by decide, by decide, Or.inl rfl⟩
      · exact ⟨by decide, by decide, Or.inr (Or.inr ⟨⟨by decide, by decide⟩,
          bytes "alice@EXAMPLE.COM", bytes "admci", by decide, by decide⟩)⟩)
    ⟨[], 0⟩).1

/-! ## Theorems: lines that do not parse -/

theorem acl_parse_line_bad_op (K : acl_masks) (buf pat ops : List Nat) (c : Nat)
    (hs : sscanf_s_s buf = (2, pat, ops)) (hc : c ∈ ops) (hb : is_op_token K c = false) :
    acl_parse_line K buf = none := by
  unfold acl_parse_line
  have hok := acl_parse_ops_ok K ops (true, 0)
  have hall : ops.all (is_op_token K) = false := by
    rw [List.all_eq_false]
    exact ⟨c, hc, by simp [hb]⟩
  rw [hall] at hok
  simp only [hs, if_true, hok, Bool.and_false, Bool.false_eq_true, if_false]

theorem dropWhile_append_single (p : Nat → Bool) (s : List Nat) (x : Nat)
    (h : s.dropWhile p ≠ []) : (s ++ [x]).dropWhile p = s.dropWhile p ++ [x] := by
  rw [List.dropWhile_append]
  have : (s.dropWhile p).isEmpty = false := by
    cases hd : s.dropWhile p with
    | nil => exact absurd hd h
    | cons a t => rfl
  simp [this]

theorem takeWhile_append_single (p : Nat → Bool) (s : List Nat) (x : Nat)
    (h : s.dropWhile p ≠ []) : (s ++ [x]).takeWhile p = s.takeWhile p := by
  rw [List.takeWhile_append]
  have hl : (s.takeWhile p).length + (s.dropWhile p).length = s.length := by
    rw [← List.length_append, List.takeWhile_append_dropWhile]
  have hpos : 0 < (s.dropWhile p).length := List.length_pos.2 h
  have : ¬ (s.takeWhile p).length = s.length := by omega
  simp [this]

theorem mem_takeWhile_append (p : Nat → Bool) (s t : List Nat) (c : Nat)
    (h : c ∈ s.takeWhile p) : c ∈ (s ++ t).takeWhile p := by
  rw [List.takeWhile_append]
  by_cases hl : (s.takeWhile p).length = s.length
  · rw [if_pos hl]
    exact List.mem_append_left _ ((List.takeWhile_prefix p).subset h)
  · rw [if_neg hl]; exact h

/-- A character that is not white space, added to the end of a line with two tokens,
leaves the first token as it is and keeps every character of the second. -/
theorem sscanf_s_s_append (l pat ops : List Nat) (x : Nat)
    (hs : sscanf_s_s l = (2, pat, ops)) :
    ∃ ops2, sscanf_s_s (l ++ [x]) = (2, pat, ops2) ∧ ∀ c ∈ ops, c ∈ ops2 := by
  unfold sscanf_s_s at hs ⊢
  by_cases h1 : (l.dropWhile isspace).takeWhile scan_char = []
  · simp [h1] at hs
  · by_cases h2 : (((l.dropWhile isspace).dropWhile scan_char).dropWhile isspace).takeWhile
        scan_char = []
    · simp [h1, h2] at hs
    · simp only [h1, h2, if_false, Prod.mk.injEq, true_and] at hs
      have n2 : ((l.dropWhile isspace).dropWhile scan_char).dropWhile isspace ≠ [] := by
        intro h0; rw [h0] at h2; exact h2 rfl
      have n1 : (l.dropWhile isspace).dropWhile scan_char ≠ [] := by
        intro h0; rw [h0] at n2; exact n2 rfl
      have n0 : l.dropWhile isspace ≠ [] := by
        intro h0; rw [h0] at h1; exact h1 rfl
      dsimp only
      rw [dropWhile_append_single isspace l x n0,
        takeWhile_append_single scan_char _ x n1,
        dropWhile_append_single scan_char _ x n1,
        dropWhile_append_single isspace _ x n2]
      have m2 : ∀ c ∈ ops, c ∈ ((((l.dropWhile isspace).dropWhile scan_char).dropWhile
          isspace) ++ [x]).takeWhile scan_char := by
        intro c hc
        rw [← hs.2] at hc
        exact mem_takeWhile_append scan_char _ _ c hc
      have k2 : ((((l.dropWhile isspace).dropWhile scan_char).dropWhile isspace) ++
          [x]).takeWhile scan_char ≠ [] := by
        obtain ⟨c, hc⟩ := List.exists_mem_of_ne_nil _ h2
        rw [hs.2] at hc
        exact List.ne_nil_of_mem (m2 c hc)
      refine ⟨_, ?_, m2⟩
      have hp : pat ≠ [] := by rw [← hs.1]; exact h1
      simp only [h1, k2, if_false, hs.1, hp]

theorem sscanf_s_s_of_tokens (l pat ops : List Nat) (more : List (List Nat)) (h0 : 0 ∉ l)
    (ht : tokens l = pat :: ops :: more) : sscanf_s_s l = (2, pat, ops) := by
  rw [sscanf_s_s_tokens l h0, ht]

theorem acl_copy_line_eof (n : Nat) (l : List Nat) (hl : 10 ∉ l) (hn : l.length < n) :
    acl_copy_line n ⟨l, false⟩ = (l ++ [255], ⟨[], true⟩) := by
  induction l generalizing n with
  | nil =>
    obtain ⟨m, rfl⟩ : ∃ m, n = m + 1 := ⟨n - 1, by simp at hn; omega⟩
    cases m <;> simp [acl_copy_line, fgetc, to_char]
  | cons c t ih =>
    obtain ⟨m, rfl⟩ : ∃ m, n = m + 1 := ⟨n - 1, by simp at hn; omega⟩
    simp only [List.mem_cons, not_or] at hl
    have hc : c ≠ 10 := fun h => hl.1 h.symm
    simp only [List.length_cons, Nat.add_lt_add_iff_right] at hn
    simp [acl_copy_line, fgetc, to_char, hc, ih m hl.2 hn]

/-- The function `acl_get_line` on a last line that no newline ends, shorter than the
buffer: the line is returned with the character read at the end of the file behind it. -/
theorem acl_get_line_last (BUFSIZ : Nat) (l : List Nat) (hl : 10 ∉ l)
    (hn : l.length < BUFSIZ) (hk : is_kept l = true) (hh : l.head? ≠ some 255) :
    acl_get_line BUFSIZ ⟨l, false⟩ = .returns (some (l ++ [255]), ⟨[], true⟩) := by
  unfold acl_get_line
  rw [acl_get_line_loop_eq]
  cases l with
  | nil => simp [is_kept] at hk
  | cons c t =>
    have hc : c ≠ 255 := fun h => hh (by simp [h])
    have hb : acl_get_line_body BUFSIZ ⟨c :: t, false⟩ =
        some (c :: (t ++ [255]), ⟨[], true⟩) := by
      unfold acl_get_line_body
      rw [acl_copy_line_eof BUFSIZ (c :: t) hl hn]
      simp [hc]
    have hk2 : is_kept (c :: (t ++ [255])) = true := by
      simpa [is_kept] using hk
    simp [hb, hk2]

theorem buffered_text (BUFSIZ : Nat) (l : List Nat) (hh : l.head? ≠ some 255) :
    buffered BUFSIZ l = l.take BUFSIZ := by
  unfold buffered
  cases l with
  | nil => simp
  | cons c t =>
    have hc : c ≠ 255 := fun h => hh (by simp [h])
    cases BUFSIZ with
    | zero => simp
    | succ n => simp [hc]

/-- The load fails when the last line, which no newline ends and which is shorter than the
buffer, is not skipped and does not parse with the character read at the end of the file
behind it. -/
theorem acl_load_acl_file_bad_last (BUFSIZ : Nat) (K : acl_masks) (ls : List (List Nat))
    (hls : ∀ l ∈ ls, 10 ∉ l) (bad : List Nat) (hb : 10 ∉ bad) (hn : bad.length < BUFSIZ)
    (hk : is_kept bad = true) (hh : bad.head? ≠ some 255) (st : acl_state)
    (hp : acl_parse_line K (bad ++ [255]) = none) :
    load_fails BUFSIZ K (unlines ls ++ bad) st (parse_lines K (ls.map (buffered BUFSIZ))).2 := by
  have hlast : ∀ k, acl_load_lines BUFSIZ K k ⟨bad, false⟩ = .returns (0, []) := by
    intro k
    rw [acl_load_lines_eq, acl_get_line_last BUFSIZ bad hb hn hk hh]
    simp only [hp]
  apply load_fails_of_lines
  simp only [acl_load_lines_unlines BUFSIZ K ls hls bad _ (Nat.le_refl _), hlast]
  by_cases h0 : (parse_lines K (ls.map (buffered BUFSIZ))).1 = 0
  · simp only [h0, if_true]
  · simp only [h0, if_false, run.link, List.append_nil]

theorem fold_ops_replicate_o (K : acl_masks) (n a : Nat) :
    (List.replicate n 111).foldl (apply_op K) a =
      if n = 0 then a else a ||| K.ACL_CHANGE_OWN_PW := by
  induction n generalizing a with
  | zero => simp
  | succ n ih =>
    have hstep : apply_op K a 111 = a ||| K.ACL_CHANGE_OWN_PW := by
      simp [apply_op, isupper, op_mask, acl_op_table]
    rw [List.replicate_succ, List.foldl_cons, hstep, ih]
    by_cases hn : n = 0
    · simp [hn]
    · simp [hn, Nat.or_assoc]

/-- A line of `BUFSIZ + 1` characters whose last character is no token of the table: the
pattern `a`, a blank, the letter `o` repeated, and `Z`.  The `Z` is cut off and the load
succeeds. -/
theorem acl_load_acl_file_long_line (K : acl_masks) (n : Nat) (hn : 0 < n) (st : acl_state) :
    tokens ([97] ++ 32 :: (List.replicate n 111 ++ [90])) =
      [[97], List.replicate n 111 ++ [90]] ∧
    acl_load_acl_file (n + 2) K
        (some (([97] ++ 32 :: List.replicate n 111) ++ [90] ++ [10])) st =
      .returns (1, ⟨[⟨[97], false, none, K.ACL_CHANGE_OWN_PW⟩, catchall K],
        st.acl_inited⟩) := by
  have hsc : ∀ c ∈ List.replicate n 111, scan_char c = true := by
    intro c hc
    rw [(List.mem_replicate.1 hc).2]; decide
  have hrep : List.replicate n 111 ≠ [] := by
    intro h
    have := congrArg List.length h
    simp only [List.length_replicate, List.length_nil] at this
    omega
  constructor
  · exact tokens_pair [97] (List.replicate n 111 ++ [90]) (by simp) (by decide)
      (by simp) (by
        intro c hc
        rcases List.mem_append.1 hc with h | h
        · exact hsc c h
        · simp only [List.mem_singleton] at h; rw [h]; decide)
  · have hl : ∀ l ∈ [([97] ++ 32 :: List.replicate n 111) ++ [90]], 10 ∉ l := by
      intro l hl
      simp only [List.mem_singleton] at hl
      subst hl
      simp [List.mem_replicate]
    have hbuf : buffered (n + 2) (([97] ++ 32 :: List.replicate n 111) ++ [90]) =
        [97] ++ 32 :: List.replicate n 111 := by
      rw [buffered_text _ _ (by simp)]
      exact List.take_left' (by simp)
    have hparse : acl_parse_line K ([97] ++ 32 :: List.replicate n 111) =
        some ⟨[97], false, none, K.ACL_CHANGE_OWN_PW⟩ := by
      rw [acl_parse_line_tokens _ _ (by simp [List.mem_replicate]),
        tokens_pair [97] (List.replicate n 111) (by simp) (by decide) hrep hsc]
      have hall : (List.replicate n 111).all (is_op_token K) = true := by
        rw [List.all_eq_true]
        intro c hc
        rw [(List.mem_replicate.1 hc).2]
        simp [is_op_token, isupper, op_mask, acl_op_table]
      have hfold : fold_ops K (List.replicate n 111) = K.ACL_CHANGE_OWN_PW := by
        unfold fold_ops
        rw [fold_ops_replicate_o, if_neg (by omega), Nat.zero_or]
      simp only [hall, if_true, hfold]
    have hpl : parse_lines K
        ([([97] ++ 32 :: List.replicate n 111) ++ [90]].map (buffered (n + 2))) =
        (1, [⟨[97], false, none, K.ACL_CHANGE_OWN_PW⟩]) := by
      simp only [List.map_cons, List.map_nil, hbuf, parse_lines, hparse]
      simp [is_kept]
    have hok := acl_load_acl_file_ok (n + 2) K (by omega) _ hl st (by rw [hpl]; simp)
    rw [hpl] at hok
    simpa [unlines] using hok

/-! ## Claims on lines that do not parse -/

/-- C4, as stated, fails on a line longer than the buffer.  With `BUFSIZ` 8192 the single
line `a oo...oZ`, whose operations string is 8190 times `o` and then `Z`, which is no token
of the table, is cut behind the last `o`; the load succeeds and installs the rule and the
catchall. -/
theorem acl_load_acl_file_truncated_ops :
    tokens (bytes "a " ++ List.replicate 8190 111 ++ bytes "Z") =
      [bytes "a", List.replicate 8190 111 ++ bytes "Z"] ∧
    is_op_token kadm5_defs 90 = false ∧
    acl_load_acl_file 8192 kadm5_defs
        (some (bytes "a " ++ List.replicate 8190 111 ++ bytes "Z" ++ [10])) ⟨[], 0⟩ =
      .returns (1, ⟨[⟨bytes "a", false, none, 16⟩, ⟨bytes "*", false, none, 16⟩], 0⟩) := by
  have e1 : bytes "a " = [97, 32] := by decide
  have e2 : bytes "Z" = [90] := by decide
  have e3 : bytes "a" = [97] := by decide
  have e4 : bytes "*" = [42] := by decide
  have f1 : ∀ R : List Nat, [97, 32] ++ R ++ [90] = [97] ++ 32 :: (R ++ [90]) := by
    intro R; simp
  have f2 : ∀ R : List Nat, [97, 32] ++ R ++ [90] ++ [10] =
      ([97] ++ 32 :: R) ++ [90] ++ [10] := by
    intro R; simp
  have h := acl_load_acl_file_long_line kadm5_defs 8190 (by decide) ⟨[], 0⟩
  rw [e1, e2, e3, e4, f2, f1]
  exact ⟨h.1, by decide, h.2⟩

/-- C4, amended: a line that is not skipped and whose operations string, in the part of
the line that `acl_get_line` retains (its first `BUFSIZ` characters), holds a character
that is no token of the table makes the load fail, whatever lines precede and follow it:
the loop of `acl_load_acl_file` over the lines ends at the first line that does not parse
with `retval` 0 and the entries of the lines before it, no later line is read, and the
function does not return success but ends as `acl_free_entries` ends on these entries and
the catchall entry.  This holds when a newline ends the line, and for a last line without a
newline that is shorter than `BUFSIZ`.  On the empty list `acl_op_permitted` is false for
every principal and mask. -/
theorem acl_load_acl_file_bad_op (BUFSIZ : Nat) (K : acl_masks) (ls : List (List Nat))
    (hls : ∀ l ∈ ls, 10 ∉ l) (bad : List Nat) (hb : 10 ∉ bad) (ht : text_line bad)
    (hs : skipped_line bad = false) (pat ops : List Nat) (more : List (List Nat)) (c : Nat)
    (hc : c ∈ ops) (hbad : is_op_token K c = false) (st : acl_state) :
    (tokens (bad.take BUFSIZ) = pat :: ops :: more →
      ∀ post, load_fails BUFSIZ K (unlines ls ++ bad ++ 10 :: post) st
        (parse_lines K (ls.map (buffered BUFSIZ))).2) ∧
    (bad.length < BUFSIZ → tokens bad = pat :: ops :: more →
      load_fails BUFSIZ K (unlines ls ++ bad) st
        (parse_lines K (ls.map (buffered BUFSIZ))).2) ∧
    ∀ (parse_name : List Nat → Option krb5_principal) (principal : krb5_principal)
      (opmask : Nat), acl_op_permitted parse_name [] principal opmask = false := by
  obtain ⟨hz, hff⟩ := ht
  obtain ⟨x, t, rfl⟩ : ∃ x t, bad = x :: t := by
    cases bad with
    | nil => simp [skipped_line] at hs
    | cons x t => exact ⟨x, t, rfl⟩
  have hx35 : x ≠ 35 := fun h => by simp [skipped_line, h] at hs
  have hx0 : x ≠ 0 := fun h => hz (by simp [h])
  refine ⟨?_, ?_, ?_⟩
  · intro htok post
    have hB : 0 < BUFSIZ := by
      rcases Nat.eq_zero_or_pos BUFSIZ with h0 | h0
      · rw [h0, List.take_zero, tokens_nil] at htok; simp at htok
      · exact h0
    obtain ⟨n, rfl⟩ : ∃ n, BUFSIZ = n + 1 := ⟨BUFSIZ - 1, by omega⟩
    have hz2 : 0 ∉ (x :: t).take (n + 1) := fun h => hz (List.mem_of_mem_take h)
    apply acl_load_acl_file_bad_line (n + 1) K ls hls (x :: t) post hb st
    · rw [buffered_text _ _ hff]
      simp [is_kept, hx35, hx0]
    · rw [buffered_text _ _ hff]
      exact acl_parse_line_bad_op K _ pat ops c (sscanf_s_s_of_tokens _ pat ops more hz2 htok)
        hc hbad
  · intro hlen htok
    obtain ⟨ops2, h2, hsub⟩ := sscanf_s_s_append (x :: t) pat ops 255
      (sscanf_s_s_of_tokens _ pat ops more hz htok)
    exact acl_load_acl_file_bad_last BUFSIZ K ls hls (x :: t) hb hlen
      (by simp [is_kept, hx35, hx0]) hff st
      (acl_parse_line_bad_op K _ pat ops2 c h2 (hsub c hc) hbad)
  · intro parse_name principal opmask
    rfl

/-- C4, amended, at a source whose second line `bob aZ` holds the letter `Z`: the load
fails behind the entry of the first line. -/
theorem acl_load_acl_file_bad_op_witness :
    load_fails 8192 kadm5_defs
      (unlines [bytes "alice@EXAMPLE.COM admci"] ++ bytes "bob aZ" ++ 10 :: bytes "carol o\n")
      ⟨[], 0⟩ [⟨bytes "alice@EXAMPLE.COM", false, none, 47⟩] :=
  (acl_load_acl_file_bad_op 8192 kadm5_defs [bytes "alice@EXAMPLE.COM admci"]
    (by decide) (bytes "bob aZ") (by decide) ⟨by decide, by decide⟩ (by decide)
    (bytes "bob") (bytes "aZ") [] 90 (by decide) (by decide) ⟨[], 0⟩).1
    (by decide) (bytes "carol o\n")

theorem takeWhile_scan_char_ne_nil (p : Nat → Bool) (s : List Nat) (h0 : 0 ∉ s)
    (hp : ∀ c, p c = false → c ≠ 0 → scan_char c = true)
    (hs : s.dropWhile p ≠ []) : (s.dropWhile p).takeWhile scan_char ≠ [] := by
  rcases dropWhile_head p s with h | ⟨c, t, h, hc⟩
  · exact absurd h hs
  · have hc0 : c ≠ 0 := by
      intro hz
      have hm : c ∈ s.dropWhile p := by rw [h]; exact List.mem_cons_self _ _
      exact h0 (hz ▸ (List.dropWhile_suffix p).subset hm)
    rw [h, List.takeWhile_cons, hp c hc hc0]
    simp

theorem is_op_token_eof (K : acl_masks) : is_op_token K 255 = false := by
  simp [is_op_token, isupper, op_mask, acl_op_table]

/-- A line of text with fewer than two tokens does not parse either when the character
read at the end of the file stands behind it. -/
theorem acl_parse_line_eof_few (K : acl_masks) (l : List Nat) (h0 : 0 ∉ l)
    (ht : (tokens l).length < 2) : acl_parse_line K (l ++ [255]) = none := by
  have hne : (sscanf_s_s l).1 ≠ 2 := by
    rw [sscanf_s_s_tokens l h0]
    rcases htl : tokens l with _ | ⟨p, _ | ⟨o, t⟩⟩
    · simp
    · simp
    · rw [htl] at ht
      simp only [List.length_cons] at ht
      omega
  have hsp : ∀ c, isspace c = false → c ≠ 0 → scan_char c = true := by
    intro c h1 h2; simp [scan_char, h1, h2]
  have e255 : List.dropWhile isspace [255] = [255] := by decide
  have t255 : List.takeWhile scan_char [255] = [255] := by decide
  have d255 : List.dropWhile scan_char [255] = [] := by decide
  by_cases n0 : l.dropWhile isspace = []
  · have hs : sscanf_s_s (l ++ [255]) = (1, [255], []) := by
      unfold sscanf_s_s
      dsimp only
      rw [List.dropWhile_append, n0]
      simp [e255, t255, d255]
    unfold acl_parse_line
    simp [hs]
  · have w1 := takeWhile_scan_char_ne_nil isspace l h0 hsp n0
    by_cases n1 : (l.dropWhile isspace).dropWhile scan_char = []
    · have hs : (sscanf_s_s (l ++ [255])).1 ≠ 2 := by
        unfold sscanf_s_s
        dsimp only
        rw [dropWhile_append_single isspace l 255 n0, List.dropWhile_append, n1]
        simp [d255]
        split <;> simp
      unfold acl_parse_line
      simp [hs]
    · have n2 : ((l.dropWhile isspace).dropWhile scan_char).dropWhile isspace = [] := by
        by_contra hn
        have w2 := takeWhile_scan_char_ne_nil isspace _
          (not_mem_dropWhile scan_char _ (not_mem_dropWhile isspace l h0)) hsp hn
        apply hne
        unfold sscanf_s_s
        simp [w1, w2]
      have hs : sscanf_s_s (l ++ [255]) =
          (2, (l.dropWhile isspace).takeWhile scan_char, [255]) := by
        unfold sscanf_s_s
        dsimp only
        rw [dropWhile_append_single isspace l 255 n0,
          takeWhile_append_single scan_char _ 255 n1,
          dropWhile_append_single scan_char _ 255 n1, List.dropWhile_append, n2]
        simp [w1, e255, t255]
      exact acl_parse_line_bad_op K _ _ [255] 255 hs (by simp) (is_op_token_eof K)

theorem acl_parse_line_few (K : acl_masks) (l : List Nat) (h0 : 0 ∉ l)
    (ht : (tokens l).length < 2) : acl_parse_line K l = none := by
  rw [acl_parse_line_tokens K l h0]
  rcases htl : tokens l with _ | ⟨p, _ | ⟨o, t⟩⟩
  · rfl
  · rfl
  · rw [htl] at ht
    simp only [List.length_cons] at ht
    omega

/-- C8, as stated, fails on a line of three tokens: `acl_parse_line` accepts the line
`bob o extra`, takes `bob` and `o` and does not look at `extra`, and the load of the
source made of this line succeeds. -/
theorem acl_parse_line_three_tokens :
    (tokens (bytes "bob o extra")).length = 3 ∧
    acl_parse_line kadm5_defs (bytes "bob o extra") =
      some ⟨bytes "bob", false, none, 16⟩ ∧
    acl_load_acl_file 8192 kadm5_defs (some (bytes "bob o extra\n")) ⟨[], 0⟩ =
      .returns (1, ⟨[⟨bytes "bob", false, none, 16⟩, ⟨bytes "*", false, none, 16⟩], 0⟩) := by
  decide

/-- C8, amended: a line of text with fewer than two white-space separated tokens is
rejected by `acl_parse_line`, and when it is not skipped the load fails (for a line ended
by a newline, counted on the part of the line that is retained, and for a last line
without newline shorter than `BUFSIZ`): the loop of `acl_load_acl_file` over the lines
ends at the first line that does not parse with `retval` 0 and the entries of the lines
before it, and the function does not return success but ends as `acl_free_entries` ends on
these entries and the catchall entry.  A line with two or more tokens is parsed from its
first two tokens, the pattern and the operations string, and the tokens behind them are
not looked at. -/
theorem acl_parse_line_token_count (BUFSIZ : Nat) (K : acl_masks) (hB : 0 < BUFSIZ) :
    (∀ line, 0 ∉ line → (tokens line).length < 2 → acl_parse_line K line = none) ∧
    (∀ line pat ops more, 0 ∉ line → tokens line = pat :: ops :: more →
      acl_parse_line K line =
        if ops.all (is_op_token K) then some ⟨pat, false, none, fold_ops K ops⟩ else none) ∧
    (∀ ls, (∀ l ∈ ls, 10 ∉ l) → ∀ line, 10 ∉ line → text_line line →
      skipped_line line = false → ∀ st,
      ((tokens (line.take BUFSIZ)).length < 2 → ∀ post,
        load_fails BUFSIZ K (unlines ls ++ line ++ 10 :: post) st
          (parse_lines K (ls.map (buffered BUFSIZ))).2) ∧
      (line.length < BUFSIZ → (tokens line).length < 2 →
        load_fails BUFSIZ K (unlines ls ++ line) st
          (parse_lines K (ls.map (buffered BUFSIZ))).2)) := by
  refine ⟨acl_parse_line_few K, ?_, ?_⟩
  · intro line pat ops more h0 htok
    rw [acl_parse_line_tokens K line h0, htok]
  · intro ls hls line hl ht hs st
    obtain ⟨hz, hff⟩ := ht
    obtain ⟨x, t, rfl⟩ : ∃ x t, line = x :: t := by
      cases line with
      | nil => simp [skipped_line] at hs
      | cons x t => exact ⟨x, t, rfl⟩
    have hx35 : x ≠ 35 := fun h => by simp [skipped_line, h] at hs
    have hx0 : x ≠ 0 := fun h => hz (by simp [h])
    obtain ⟨n, rfl⟩ : ∃ n, BUFSIZ = n + 1 := ⟨BUFSIZ - 1, by omega⟩
    constructor
    · intro htok post
      have hz2 : 0 ∉ (x :: t).take (n + 1) := fun h => hz (List.mem_of_mem_take h)
      apply acl_load_acl_file_bad_line (n + 1) K ls hls (x :: t) post hl st
      · rw [buffered_text _ _ hff]
        simp [is_kept, hx35, hx0]
      · rw [buffered_text _ _ hff]
        exact acl_parse_line_few K _ hz2 htok
    · intro hlen htok
      exact acl_load_acl_file_bad_last (n + 1) K ls hls (x :: t) hl hlen
        (by simp [is_kept, hx35, hx0]) hff st (acl_parse_line_eof_few K _ hz htok)

/-- C8, amended, at a source whose second line is the single token `bob`: the load fails
behind the entry of the first line. -/
theorem acl_parse_line_token_count_witness :
    acl_parse_line kadm5_defs (bytes "bob") = none ∧
    load_fails 8192 kadm5_defs
      (unlines [bytes "alice@EXAMPLE.COM admci"] ++ bytes "bob" ++ 10 :: bytes "carol o\n")
      ⟨[], 0⟩ [⟨bytes "alice@EXAMPLE.COM", false, none, 47⟩] :=
  ⟨(acl_parse_line_token_count 8192 kadm5_defs (by decide)).1 (bytes "bob") (by decide)
      (by decide),
    ((acl_parse_line_token_count 8192 kadm5_defs (by decide)).2.2
      [bytes "alice@EXAMPLE.COM admci"] (by decide) (bytes "bob") (by decide)
      ⟨by decide, by decide⟩ (by decide) ⟨[], 0⟩).1 (by decide) (bytes "carol o\n")⟩

/-! ## Claims on the worked examples -/

theorem acl_load_acl_file_single (BUFSIZ : Nat) (K : acl_masks) (line : List Nat)
    (aent : aent_t) (hl : 10 ∉ line) (hn : line.length < BUFSIZ)
    (hh : line.head? ≠ some 255) (hk : is_kept line = true)
    (hp : acl_parse_line K line = some aent) (st : acl_state) :
    acl_load_acl_file BUFSIZ K (some (line ++ [10])) st =
      .returns (1, ⟨[aent, catchall K], st.acl_inited⟩) := by
  have hpl : parse_lines K ([line].map (buffered BUFSIZ)) = (1, [aent]) := by
    simp [parse_lines, buffered_short BUFSIZ line hn hh, hk, hp]
  have hok := acl_load_acl_file_ok BUFSIZ K (by omega) [line]
    (by intro l h; simp only [List.mem_singleton] at h; rw [h]; exact hl) st
    (by rw [hpl]; simp)
  rw [hpl] at hok
  simpa [unlines] using hok

theorem lor_chain_land (a b c d e : Nat) :
    (a ||| b ||| c ||| d ||| e) &&& (a ||| b) = a ||| b := by
  apply Nat.eq_of_testBit_eq
  intro i
  simp only [Nat.testBit_and, Nat.testBit_or]
  cases a.testBit i <;> cases b.testBit i <;> simp

/-- C9, as stated, fails: of the line `alice@EXAMPLE.COM a d m c i` the operations string
is the second token `a` alone, so the rule allows AddPrincipal only and the request
AddPrincipal|DeletePrincipal of alice@EXAMPLE.COM is refused, with or without a newline
behind the line. -/
theorem acl_example_refused :
    acl_load_acl_file 8192 kadm5_defs (some (bytes "alice@EXAMPLE.COM a d m c i\n"))
        ⟨[], 0⟩ =
      .returns (1, ⟨[⟨bytes "alice@EXAMPLE.COM", false, none, 1⟩,
        ⟨bytes "*", false, none, 16⟩], 0⟩) ∧
    acl_load_acl_file 8192 kadm5_defs (some (bytes "alice@EXAMPLE.COM a d m c i"))
        ⟨[], 0⟩ =
      .returns (1, ⟨[⟨bytes "alice@EXAMPLE.COM", false, none, 1⟩,
        ⟨bytes "*", false, none, 16⟩], 0⟩) ∧
    krb5_parse_name [] (bytes "alice@EXAMPLE.COM") =
      some ⟨bytes "EXAMPLE.COM", [bytes "alice"]⟩ ∧
    kadm5_defs.ACL_ADD_PRINCIPAL ||| kadm5_defs.ACL_DELETE_PRINCIPAL = 3 ∧
    acl_op_permitted (krb5_parse_name [])
      [⟨bytes "alice@EXAMPLE.COM", false, none, 1⟩, ⟨bytes "*", false, none, 16⟩]
      ⟨bytes "EXAMPLE.COM", [bytes "alice"]⟩ 3 = false := by
  decide

/-- C9, amended: after loading the single line `alice@EXAMPLE.COM a d m c i` the rule of
alice@EXAMPLE.COM allows AddPrincipal only, the operations string being the token `a`;
alice is permitted AddPrincipal and refused AddPrincipal|DeletePrincipal, and
bob@EXAMPLE.COM falls through to the catchall rule and is refused AddPrincipal.  Written
without separators, `alice@EXAMPLE.COM admci`, the line permits alice
AddPrincipal|DeletePrincipal. -/
theorem acl_example_alice (BUFSIZ : Nat) (K : acl_masks) (hK : K.wf) (hB : 27 < BUFSIZ)
    (parse_name : List Nat → Option krb5_principal)
    (hparse : parse_name (bytes "alice@EXAMPLE.COM") =
      some ⟨bytes "EXAMPLE.COM", [bytes "alice"]⟩) (st : acl_state) :
    acl_load_acl_file BUFSIZ K (some (bytes "alice@EXAMPLE.COM a d m c i\n")) st =
      .returns (1, ⟨[⟨bytes "alice@EXAMPLE.COM", false, none, K.ACL_ADD_PRINCIPAL⟩,
        catchall K], st.acl_inited⟩) ∧
    acl_op_permitted parse_name
      [⟨bytes "alice@EXAMPLE.COM", false, none, K.ACL_ADD_PRINCIPAL⟩, catchall K]
      ⟨bytes "EXAMPLE.COM", [bytes "alice"]⟩ K.ACL_ADD_PRINCIPAL = true ∧
    acl_op_permitted parse_name
      [⟨bytes "alice@EXAMPLE.COM", false, none, K.ACL_ADD_PRINCIPAL⟩, catchall K]
      ⟨bytes "EXAMPLE.COM", [bytes "alice"]⟩
      (K.ACL_ADD_PRINCIPAL ||| K.ACL_DELETE_PRINCIPAL) = false ∧
    (acl_find_entry parse_name
      [⟨bytes "alice@EXAMPLE.COM", false, none, K.ACL_ADD_PRINCIPAL⟩, catchall K]
      ⟨bytes "EXAMPLE.COM", [bytes "bob"]⟩).1 = some (1, catchall K) ∧
    acl_op_permitted parse_name
      [⟨bytes "alice@EXAMPLE.COM", false, none, K.ACL_ADD_PRINCIPAL⟩, catchall K]
      ⟨bytes "EXAMPLE.COM", [bytes "bob"]⟩ K.ACL_ADD_PRINCIPAL = false ∧
    acl_load_acl_file BUFSIZ K (some (bytes "alice@EXAMPLE.COM admci\n")) st =
      .returns (1, ⟨[⟨bytes "alice@EXAMPLE.COM", false, none,
        K.ACL_ADD_PRINCIPAL ||| K.ACL_DELETE_PRINCIPAL ||| K.ACL_MODIFY_PRINCIPAL |||
          K.ACL_CHANGEPW ||| K.ACL_INQUIRE⟩, catchall K], st.acl_inited⟩) ∧
    acl_op_permitted parse_name
      [⟨bytes "alice@EXAMPLE.COM", false, none,
        K.ACL_ADD_PRINCIPAL ||| K.ACL_DELETE_PRINCIPAL ||| K.ACL_MODIFY_PRINCIPAL |||
          K.ACL_CHANGEPW ||| K.ACL_INQUIRE⟩, catchall K]
      ⟨bytes "EXAMPLE.COM", [bytes "alice"]⟩
      (K.ACL_ADD_PRINCIPAL ||| K.ACL_DELETE_PRINCIPAL) = true := by
  have hne : bytes "alice@EXAMPLE.COM" ≠ [42] := by decide
  have hp := hK.2.2.1
  simp only [List.pairwise_cons] at hp
  have hd : K.ACL_ADD_PRINCIPAL &&& K.ACL_DELETE_PRINCIPAL = 0 := hp.1 _ (by simp)
  have ho : K.ACL_CHANGE_OWN_PW &&& K.ACL_ADD_PRINCIPAL = 0 := by
    rw [Nat.and_comm]; exact hp.1 _ (by simp)
  have h1 := land_lor_ne _ _ hd hK.2.1.2.1
  have h2 := land_ne_of_disjoint _ _ ho hK.2.1.1
  have hma : acl_matchgood ⟨bytes "EXAMPLE.COM", [bytes "alice"]⟩
      ⟨bytes "EXAMPLE.COM", [bytes "alice"]⟩ = true := by decide
  have hmb : acl_matchgood ⟨bytes "EXAMPLE.COM", [bytes "alice"]⟩
      ⟨bytes "EXAMPLE.COM", [bytes "bob"]⟩ = false := by decide
  refine ⟨?_, ?_, ?_, ?_, ?_, ?_, ?_⟩
  · have hpl : acl_parse_line K (bytes "alice@EXAMPLE.COM a d m c i") =
        some ⟨bytes "alice@EXAMPLE.COM", false, none, 0 ||| K.ACL_ADD_PRINCIPAL⟩ := rfl
    rw [Nat.zero_or] at hpl
    exact acl_load_acl_file_single BUFSIZ K (bytes "alice@EXAMPLE.COM a d m c i") _
      (by decide) (by have : (bytes "alice@EXAMPLE.COM a d m c i").length = 27 := by decide
                      omega) (by decide) (by decide) hpl st
  · simp [acl_op_permitted, acl_find_entry, acl_find_entry_from, hne, hparse, hma]
  · simp [acl_op_permitted, acl_find_entry, acl_find_entry_from, hne, hparse, hma, h1]
  · simp [acl_find_entry, acl_find_entry_from, hne, hparse, hmb, catchall]
  · simp [acl_op_permitted, acl_find_entry, acl_find_entry_from, hne, hparse, hmb, catchall,
      h2]
  · have hpl : acl_parse_line K (bytes "alice@EXAMPLE.COM admci") =
        some ⟨bytes "alice@EXAMPLE.COM", false, none,
          0 ||| K.ACL_ADD_PRINCIPAL ||| K.ACL_DELETE_PRINCIPAL ||| K.ACL_MODIFY_PRINCIPAL |||
            K.ACL_CHANGEPW ||| K.ACL_INQUIRE⟩ := rfl
    rw [Nat.zero_or] at hpl
    exact acl_load_acl_file_single BUFSIZ K (bytes "alice@EXAMPLE.COM admci") _
      (by decide) (by have : (bytes "alice@EXAMPLE.COM admci").length = 23 := by decide
                      omega) (by decide) (by decide) hpl st
  · simp [acl_op_permitted, acl_find_entry, acl_find_entry_from, hne, hparse, hma,
      lor_chain_land]

/-- C9, amended, at `BUFSIZ` 8192 and the masks of `kadm5_defs`. -/
theorem acl_example_alice_witness :
    acl_op_permitted (krb5_parse_name [])
      [⟨bytes "alice@EXAMPLE.COM", false, none, 1⟩, catchall kadm5_defs]
      ⟨bytes "EXAMPLE.COM", [bytes "alice"]⟩ 1 = true ∧
    acl_op_permitted (krb5_parse_name [])
      [⟨bytes "alice@EXAMPLE.COM", false, none, 1⟩, catchall kadm5_defs]
      ⟨bytes "EXAMPLE.COM", [bytes "alice"]⟩ 3 = false :=
  ⟨(acl_example_alice 8192 kadm5_defs (by decide) (by decide) (krb5_parse_name [])
      (by decide) ⟨[], 0⟩).2.1,
    (acl_example_alice 8192 kadm5_defs (by decide) (by decide) (krb5_parse_name [])
      (by decide) ⟨[], 0⟩).2.2.1⟩

theorem acl_match_components_wildcard (pre post ppre ppost : List krb5_data) (v : krb5_data)
    (hl : pre.length = ppre.length) :
    acl_match_components (pre ++ [42] :: post) (ppre ++ v :: ppost) =
      (acl_match_components pre ppre && acl_match_components post ppost) := by
  induction pre generalizing ppre with
  | nil =>
    cases ppre with
    | nil => simp [acl_match_components, acl_match_data_star_left]
    | cons b t => simp at hl
  | cons a t ih =>
    cases ppre with
    | nil => simp at hl
    | cons b t2 =>
      simp only [List.length_cons, Nat.add_right_cancel_iff] at hl
      simp only [List.cons_append, acl_match_components]
      cases acl_match_data a b <;> simp [ih t2 hl]

/-- C10: the numbers of name components must agree.  A structured pattern whose number of
name components differs from the principal's does not match, whatever its components are,
and the scan passes the rule over; with equal numbers and matching realms a pattern
component `*` matches any value at its position.  With the single rule
`service/*@EXAMPLE.COM p`, service/host1@EXAMPLE.COM is matched by the rule and permitted
AllPrincipalOps, and service/host1/extra@EXAMPLE.COM is decided by the catchall. -/
theorem acl_component_count (K : acl_masks)
    (parse_name : List Nat → Option krb5_principal) :
    (∀ pr p : krb5_principal, pr.length ≠ p.length → acl_matchgood pr p = false) ∧
    (∀ (e : aent_t) (pr p : krb5_principal), e.ae_name ≠ [42] →
      resolved_pattern parse_name e = some pr → pr.length ≠ p.length →
      rule_matches parse_name e p = false ∧
      ∀ rest i, (acl_find_entry_from parse_name p (e :: rest) i).1 =
        (acl_find_entry_from parse_name p rest (i + 1)).1) ∧
    (∀ v : krb5_data, acl_match_data [42] v = true) ∧
    (∀ (realm prealm : krb5_data) (pre post ppre ppost : List krb5_data) (v : krb5_data),
      acl_match_data realm prealm = true → pre.length = ppre.length →
      post.length = ppost.length →
      acl_matchgood ⟨realm, pre ++ [42] :: post⟩ ⟨prealm, ppre ++ v :: ppost⟩ =
        (acl_match_components pre ppre && acl_match_components post ppost)) ∧
    (∀ BUFSIZ, 23 < BUFSIZ →
      parse_name (bytes "service/*@EXAMPLE.COM") =
        some ⟨bytes "EXAMPLE.COM", [bytes "service", bytes "*"]⟩ →
      ∀ st, acl_load_acl_file BUFSIZ K (some (bytes "service/*@EXAMPLE.COM p\n")) st =
        .returns (1, ⟨[⟨bytes "service/*@EXAMPLE.COM", false, none, K.ACL_PRINCIPAL_MASK⟩,
          catchall K], st.acl_inited⟩) ∧
      (acl_find_entry parse_name
        [⟨bytes "service/*@EXAMPLE.COM", false, none, K.ACL_PRINCIPAL_MASK⟩, catchall K]
        ⟨bytes "EXAMPLE.COM", [bytes "service", bytes "host1"]⟩).1 =
        some (0, ⟨bytes "service/*@EXAMPLE.COM", false,
          some ⟨bytes "EXAMPLE.COM", [bytes "service", bytes "*"]⟩, K.ACL_PRINCIPAL_MASK⟩) ∧
      acl_op_permitted parse_name
        [⟨bytes "service/*@EXAMPLE.COM", false, none, K.ACL_PRINCIPAL_MASK⟩, catchall K]
        ⟨bytes "EXAMPLE.COM", [bytes "service", bytes "host1"]⟩ K.ACL_PRINCIPAL_MASK = true ∧
      (acl_find_entry parse_name
        [⟨bytes "service/*@EXAMPLE.COM", false, none, K.ACL_PRINCIPAL_MASK⟩, catchall K]
        ⟨bytes "EXAMPLE.COM", [bytes "service", bytes "host1", bytes "extra"]⟩).1 =
        some (1, catchall K)) := by
  refine ⟨acl_matchgood_length, ?_, acl_match_data_star_left, ?_, ?_⟩
  · intro e pr p hs hr hlen
    have hm : rule_matches parse_name e p = false := by
      unfold rule_matches
      rw [hr]
      have : ¬ pr.data.length = p.data.length := hlen
      simp [hs, this]
    exact ⟨hm, fun rest i => acl_find_entry_from_miss parse_name p e rest i hm⟩
  · intro realm prealm pre post ppre ppost v hr h1 h2
    unfold acl_matchgood krb5_principal.length
    have hl : (pre ++ [42] :: post).length = (ppre ++ v :: ppost).length := by
      simp [h1, h2]
    simp only [hr, hl, decide_True, Bool.and_self, if_true]
    exact acl_match_components_wildcard pre post ppre ppost v h1
  · intro BUFSIZ hB hparse st
    have hne : bytes "service/*@EXAMPLE.COM" ≠ [42] := by decide
    have hm1 : acl_matchgood ⟨bytes "EXAMPLE.COM", [bytes "service", bytes "*"]⟩
        ⟨bytes "EXAMPLE.COM", [bytes "service", bytes "host1"]⟩ = true := by decide
    have hm2 : acl_matchgood ⟨bytes "EXAMPLE.COM", [bytes "service", bytes "*"]⟩
        ⟨bytes "EXAMPLE.COM", [bytes "service", bytes "host1", bytes "extra"]⟩ = false := by
      decide
    refine ⟨?_, ?_, ?_, ?_⟩
    · have hpl : acl_parse_line K (bytes "service/*@EXAMPLE.COM p") =
          some ⟨bytes "service/*@EXAMPLE.COM", false, none, 0 ||| K.ACL_PRINCIPAL_MASK⟩ := rfl
      rw [Nat.zero_or] at hpl
      exact acl_load_acl_file_single BUFSIZ K (bytes "service/*@EXAMPLE.COM p") _
        (by decide) (by have : (bytes "service/*@EXAMPLE.COM p").length = 23 := by decide
                        omega) (by decide) (by decide) hpl st
    · simp [acl_find_entry, acl_find_entry_from, hne, hparse, hm1]
    · simp [acl_op_permitted, acl_find_entry, acl_find_entry_from, hne, hparse, hm1]
    · simp [acl_find_entry, acl_find_entry_from, hne, hparse, hm2, catchall]

/-- C10, at `BUFSIZ` 8192, the masks of `kadm5_defs` and the rule
`service/*@EXAMPLE.COM p`. -/
theorem acl_component_count_witness :
    acl_op_permitted (krb5_parse_name [])
      [⟨bytes "service/*@EXAMPLE.COM", false, none, 7⟩, catchall kadm5_defs]
      ⟨bytes "EXAMPLE.COM", [bytes "service", bytes "host1"]⟩ 7 = true ∧
    (acl_find_entry (krb5_parse_name [])
      [⟨bytes "service/*@EXAMPLE.COM", false, none, 7⟩, catchall kadm5_defs]
      ⟨bytes "EXAMPLE.COM", [bytes "service", bytes "host1", bytes "extra"]⟩).1 =
      some (1, catchall kadm5_defs) :=
  ⟨((acl_component_count kadm5_defs (krb5_parse_name [])).2.2.2.2 8192 (by decide)
      (by decide) ⟨[], 0⟩).2.2.1,
    ((acl_component_count kadm5_defs (krb5_parse_name [])).2.2.2.2 8192 (by decide)
      (by decide) ⟨[], 0⟩).2.2.2⟩

/-! ## Theorems: the state after a load -/

theorem acl_load_lines_retval (BUFSIZ : Nat) (K : acl_masks) (k : Nat) (fp : FILE)
    (rv : Nat) (es : List aent_t) (h : acl_load_lines BUFSIZ K k fp = .returns (rv, es)) :
    rv = 0 ∨ rv = 1 := by
  induction k generalizing fp rv es with
  | zero =>
    rw [acl_load_lines_eq] at h
    rcases hg : acl_get_line BUFSIZ fp with ⟨_ | line, afp1⟩ | _ | _ | _
    · simp only [hg, run.returns.injEq, Prod.mk.injEq] at h
      exact Or.inr h.1.symm
    · simp only [hg] at h
      rcases hp : acl_parse_line K line with _ | aent
      · simp only [hp, run.returns.injEq, Prod.mk.injEq] at h
        exact Or.inl h.1.symm
      · simp [hp] at h
    · simp [hg] at h
    · simp [hg] at h
    · simp [hg] at h
  | succ a ih =>
    rw [acl_load_lines_eq] at h
    rcases hg : acl_get_line BUFSIZ fp with ⟨_ | line, afp1⟩ | _ | _ | _
    · simp only [hg, run.returns.injEq, Prod.mk.injEq] at h
      exact Or.inr h.1.symm
    · simp only [hg] at h
      rcases hp : acl_parse_line K line with _ | aent
      · simp only [hp, run.returns.injEq, Prod.mk.injEq] at h
        exact Or.inl h.1.symm
      · simp only [hp] at h
        rcases hr : acl_load_lines BUFSIZ K a afp1 with ⟨rv1, es1⟩ | _ | _ | _
        · simp only [hr, run.link, run.returns.injEq, Prod.mk.injEq] at h
          rw [← h.1]
          exact ih afp1 rv1 es1 hr
        · simp [hr, run.link] at h
        · simp [hr, run.link] at h
        · simp [hr, run.link] at h
    · simp [hg] at h
    · simp [hg] at h
    · simp [hg] at h

/-- What a load that returns leaves: a list that ends with the catchall entry, and
`acl_inited` as it was.  With `retval` 0 the catchall entry is in the list handed to
`acl_free_entries`. -/
theorem acl_load_acl_file_shape (BUFSIZ : Nat) (K : acl_masks) (file : Option (List Nat))
    (st : acl_state) (rv : Nat) (s : acl_state)
    (h : acl_load_acl_file BUFSIZ K file st = .returns (rv, s)) :
    rv = 1 ∧ ∃ aents, s = ⟨aents ++ [catchall K], st.acl_inited⟩ := by
  unfold acl_load_acl_file at h
  rcases file with _ | content
  · simp only [acl_parse_line_catchall, acl_load_end, Nat.one_ne_zero, if_false,
      run.returns.injEq, Prod.mk.injEq] at h
    exact ⟨h.1.symm, [], by rw [← h.2]; rfl⟩
  · simp only [acl_parse_line_catchall] at h
    rcases hl : acl_load_lines BUFSIZ K (content.length + 1) ⟨content, false⟩ with
      ⟨rv1, es⟩ | _ | _ | _
    · simp only [hl] at h
      rcases acl_load_lines_retval BUFSIZ K _ _ rv1 es hl with h0 | h1
      · subst h0
        rw [acl_load_end_entry] at h
        simp at h
      · subst h1
        simp only [acl_load_end, Nat.one_ne_zero, if_false, run.returns.injEq,
          Prod.mk.injEq] at h
        exact ⟨h.1.symm, es, by rw [← h.2]⟩
    · simp [hl] at h
    · simp [hl] at h
    · simp [hl] at h

/-- The list a load installs does not depend on the variables before the load. -/
theorem acl_load_acl_file_state (BUFSIZ : Nat) (K : acl_masks) (file : Option (List Nat))
    (st : acl_state) :
    acl_load_acl_file BUFSIZ K file st =
      match acl_load_acl_file BUFSIZ K file ⟨[], 0⟩ with
      | .returns (rv, s) => .returns (rv, ⟨s.acl_list, if rv = 0 then 0 else st.acl_inited⟩)
      | .hangs => .hangs
      | .out_of_fuel => .out_of_fuel
      | .undefined => .undefined := by
  unfold acl_load_acl_file
  rcases file with _ | content
  · simp [acl_parse_line_catchall, acl_load_end]
  · simp only [acl_parse_line_catchall]
    rcases hl : acl_load_lines BUFSIZ K (content.length + 1) ⟨content, false⟩ with
      ⟨rv1, es⟩ | _ | _ | _
    · by_cases h0 : rv1 = 0
      · subst h0
        simp only [acl_load_end_entry]
      · simp [acl_load_end, h0]
    · rfl
    · rfl
    · rfl

/-! ## Claims on reload, initialisation and the catchall -/

/-- C11: `acl_reload_acl_file` starts with `acl_free_entries` on the installed list.  With
an entry in that list, as after every load that succeeded, the loop of `acl_free_entries`
frees the entry and then reads `ap->ae_next` out of it, so the reload neither leaves the
empty list with `acl_inited` 0 when the load of the source fails nor installs the list of
a fresh load when it succeeds: its behaviour is undefined, for every source.  Shown at the
list that the load of the empty source installs, for the source `bob`, whose load fails,
and the well-formed source `bob o`.  From the empty list the reload of `bob o` installs
what a fresh load installs, and the reload of `bob` runs into the same read at the end of
`acl_load_acl_file`, where the list holds the catchall entry. -/
theorem acl_reload_acl_file_freed :
    acl_load_acl_file 8192 kadm5_defs (some []) ⟨[], 0⟩ =
      .returns (1, ⟨[⟨bytes "*", false, none, 16⟩], 0⟩) ∧
    acl_free_entries ⟨[⟨bytes "*", false, none, 16⟩], 1⟩ = .undefined ∧
    acl_reload_acl_file 8192 kadm5_defs (some (bytes "bob\n"))
      ⟨[⟨bytes "*", false, none, 16⟩], 1⟩ = .undefined ∧
    acl_reload_acl_file 8192 kadm5_defs (some (bytes "bob o\n"))
      ⟨[⟨bytes "*", false, none, 16⟩], 1⟩ = .undefined ∧
    (∀ (BUFSIZ : Nat) (K : acl_masks) (file : Option (List Nat)) (e : aent_t)
      (es : List aent_t) (n : Nat),
      acl_reload_acl_file BUFSIZ K file ⟨e :: es, n⟩ = .undefined) ∧
    acl_reload_acl_file 8192 kadm5_defs (some (bytes "bob o\n")) ⟨[], 0⟩ =
      .returns ⟨[⟨bytes "bob", false, none, 16⟩, ⟨bytes "*", false, none, 16⟩], 1⟩ ∧
    acl_reload_acl_file 8192 kadm5_defs (some (bytes "bob\n")) ⟨[], 0⟩ = .undefined := by
  refine ⟨by decide, by decide, by decide, by decide, ?_, by decide, by decide⟩
  intro BUFSIZ K file e es n
  rfl

/-- C12, as stated, fails: on a source with a fatal syntax error, the single line `bob`,
the loop of the load ends with `retval` 0, and `acl_init` returns no value that reports
the failure: the load goes into `acl_free_entries` with the catchall entry in the list and
does not return to it.  On the source `bob o` it returns 0. -/
theorem acl_init_reports_no_failure :
    acl_load_lines 8192 kadm5_defs 5 ⟨bytes "bob\n", false⟩ = .returns (0, []) ∧
    acl_init 8192 kadm5_defs (some (bytes "bob\n")) ⟨[], 0⟩ = .undefined ∧
    (¬ ∃ k s, k ≠ 0 ∧
      acl_init 8192 kadm5_defs (some (bytes "bob\n")) ⟨[], 0⟩ = .returns (k, s)) ∧
    acl_init 8192 kadm5_defs (some (bytes "bob o\n")) ⟨[], 0⟩ =
      .returns (0, ⟨[⟨bytes "bob", false, none, 16⟩, ⟨bytes "*", false, none, 16⟩], 1⟩) := by
  have h : acl_init 8192 kadm5_defs (some (bytes "bob\n")) ⟨[], 0⟩ = .undefined := by decide
  refine ⟨by decide, h, ?_, by decide⟩
  rintro ⟨k, s, -, hk⟩
  rw [h] at hk
  cases hk

/-- C12, amended: `acl_init` returns no value other than 0, since `kret` is set to 0 and
never changed, so its return value reports no failed load; the `retval` of a load that
returns is kept in `acl_inited`.  When the source cannot be opened `acl_init` returns 0 and
leaves the catchall entry alone with `acl_inited` 1; on a well-formed source it returns 0
and leaves the rules of the source and the catchall entry with `acl_inited` 1. -/
theorem acl_init_kret (BUFSIZ : Nat) (K : acl_masks) (hB : 0 < BUFSIZ) :
    (∀ file st k s, acl_init BUFSIZ K file st = .returns (k, s) → k = 0) ∧
    (∀ file st rv s1, acl_load_acl_file BUFSIZ K file st = .returns (rv, s1) →
      acl_init BUFSIZ K file st = .returns (0, ⟨s1.acl_list, rv⟩)) ∧
    (∀ st, acl_init BUFSIZ K none st = .returns (0, ⟨[catchall K], 1⟩)) ∧
    (∀ ls, well_formed BUFSIZ K ls → ∀ st,
      acl_init BUFSIZ K (some (unlines ls)) st =
        .returns (0, ⟨(ls.filter (fun l => !skipped_line l)).map (rule_of_line K) ++
          [catchall K], 1⟩)) := by
  refine ⟨?_, ?_, ?_, ?_⟩
  · intro file st k s h
    unfold acl_init at h
    rcases hl : acl_load_acl_file BUFSIZ K file st with ⟨rv, s1⟩ | _ | _ | _
    · simp only [hl, run.returns.injEq, Prod.mk.injEq] at h
      exact h.1.symm
    · simp [hl] at h
    · simp [hl] at h
    · simp [hl] at h
  · intro file st rv s1 h
    unfold acl_init
    rw [h]
  · intro st
    unfold acl_init acl_load_acl_file
    simp only [acl_parse_line_catchall, acl_load_end, Nat.one_ne_zero, if_false]
  · intro ls hwf st
    have hp := parse_lines_well_formed BUFSIZ K ls hwf
    have hok := acl_load_acl_file_ok BUFSIZ K hB ls (fun l hl => (hwf l hl).1) st
      (by rw [hp]; simp)
    rw [hp] at hok
    unfold acl_init
    rw [hok]

/-- C12, amended, at a source that cannot be opened and at the source `bob o`. -/
theorem acl_init_kret_witness :
    0 < 8192 ∧
    acl_init 8192 kadm5_defs none ⟨[], 0⟩ =
      .returns (0, ⟨[⟨bytes "*", false, none, 16⟩], 1⟩) ∧
    acl_init 8192 kadm5_defs (some (unlines [bytes "bob o"])) ⟨[], 0⟩ =
      .returns (0, ⟨[⟨bytes "bob", false, none, 16⟩, ⟨bytes "*", false, none, 16⟩], 1⟩) :=
  ⟨by decide, (acl_init_kret 8192 kadm5_defs (by decide)).2.2.1 ⟨[], 0⟩,
    (acl_init_kret 8192 kadm5_defs (by decide)).2.2.2 [bytes "bob o"]
      (by
        intro l hl
        simp only [List.mem_singleton] at hl
        rw [hl]
        exact ⟨by decide, by decide, Or.inr (Or.inr ⟨⟨by decide, by decide⟩,
          bytes "bob", bytes "o", by decide, by decide⟩)⟩)
      ⟨[], 0⟩⟩

theorem fold_ops_clear_set (K : acl_masks) (t : aop_t) (ht : t ∈ acl_op_table K)
    (hs : t.ao_op ≠ 42) : fold_ops K [t.ao_op - 32, t.ao_op] = t.ao_mask := by
  simp only [acl_op_table, List.mem_cons, List.mem_singleton, List.not_mem_nil, or_false] at ht
  rcases ht with rfl | rfl | rfl | rfl | rfl | rfl | rfl | rfl | rfl | rfl | rfl <;>
    first
    | exact absurd rfl hs
    | simp [fold_ops, apply_op, isupper, tolower, op_mask, acl_op_table]

/-- C13, as stated, fails: the operations string `Aa` yields the mask AddPrincipal, not
zero; `aA` yields zero. -/
theorem acl_parse_line_Aa :
    acl_parse_line kadm5_defs (bytes "x Aa") =
      some ⟨bytes "x", false, none, kadm5_defs.ACL_ADD_PRINCIPAL⟩ ∧
    kadm5_defs.ACL_ADD_PRINCIPAL ≠ 0 ∧
    acl_parse_line kadm5_defs (bytes "x aA") = some ⟨bytes "x", false, none, 0⟩ := by
  decide

/-- C13, amended: a clear of an unset bit followed by the set of the same bit leaves the
bit set.  For every letter of the table, its upper-case form followed by the letter
yields the mask of the letter; the operations string `Aa` yields AddPrincipal, which is
not zero, unlike `aA`. -/
theorem acl_parse_line_clear_then_set (K : acl_masks) (pat : List Nat) (hp : pat ≠ [])
    (hpc : ∀ c ∈ pat, scan_char c = true) :
    (∀ t ∈ acl_op_table K, t.ao_op ≠ 42 →
      acl_parse_line K (pat ++ 32 :: [t.ao_op - 32, t.ao_op]) =
        some ⟨pat, false, none, t.ao_mask⟩) ∧
    acl_parse_line K (pat ++ 32 :: bytes "Aa") =
      some ⟨pat, false, none, K.ACL_ADD_PRINCIPAL⟩ ∧
    (K.wf → K.ACL_ADD_PRINCIPAL ≠ 0) := by
  have key : ∀ t ∈ acl_op_table K, t.ao_op ≠ 42 →
      acl_parse_line K (pat ++ 32 :: [t.ao_op - 32, t.ao_op]) =
        some ⟨pat, false, none, t.ao_mask⟩ := by
    intro t ht hs
    obtain ⟨h1, h2, h3⟩ := is_op_token_row K t ht
    obtain ⟨h4, h5⟩ := h3 hs
    have hz := scan_char_ne_zero pat hpc
    have hz1 : t.ao_op ≠ 0 := by
      intro h0; rw [h0] at h2; simp [scan_char] at h2
    have hz2 : t.ao_op - 32 ≠ 0 := by
      intro h0; rw [h0] at h5; simp [scan_char] at h5
    rw [acl_parse_line_tokens K _ (by simp [hz, hz1.symm, hz2.symm]),
      tokens_pair pat _ hp hpc (by simp) (by simp [h2, h5])]
    simp [h1, h4, fold_ops_clear_set K t ht hs]
  refine ⟨key, ?_, fun hK => hK.2.1.1⟩
  have := key ⟨97, K.ACL_ADD_PRINCIPAL⟩ (by simp [acl_op_table]) (by simp)
  exact this

/-- C13, amended, at the line `x Aa` and the masks of `kadm5_defs`. -/
theorem acl_parse_line_clear_then_set_witness :
    acl_parse_line kadm5_defs (bytes "x Aa") = some ⟨bytes "x", false, none, 1⟩ :=
  (acl_parse_line_clear_then_set kadm5_defs (bytes "x") (by decide) (by decide)).2.1

/-- C14: a load that returns success installs a list that is not empty and whose last
entry has the raw pattern `*`; on this list `acl_find_entry` returns an entry for every
principal, whatever `krb5_parse_name` returns for the patterns of the other rules. -/
theorem acl_load_acl_file_catchall_last (BUFSIZ : Nat) (K : acl_masks)
    (file : Option (List Nat)) (st : acl_state) (rv : Nat) (s : acl_state)
    (h : acl_load_acl_file BUFSIZ K file st = .returns (rv, s)) (hrv : rv ≠ 0) :
    s.acl_list ≠ [] ∧
    (∃ aents, s.acl_list = aents ++ [catchall K]) ∧
    (∀ e, s.acl_list.getLast? = some e → e.ae_name = [42]) ∧
    ∀ (parse_name : List Nat → Option krb5_principal) (principal : krb5_principal),
      (acl_find_entry parse_name s.acl_list principal).1 ≠ none := by
  have _ := hrv
  obtain ⟨-, aents, h1⟩ := acl_load_acl_file_shape BUFSIZ K file st rv s h
  have hl : s.acl_list = aents ++ [catchall K] := by rw [h1]
  refine ⟨by rw [hl]; simp, ⟨aents, hl⟩, ?_, ?_⟩
  · intro e he
    rw [hl] at he
    simp only [List.getLast?_append, List.getLast?_singleton, Option.or,
      Option.some.injEq] at he
    rw [← he]; rfl
  · intro parse_name principal hnone
    have hall := (acl_find_entry_from_none parse_name principal s.acl_list 0).1 hnone
    have hc := hall (catchall K) (by rw [hl]; simp)
    simp [rule_matches, catchall] at hc

/-- C14, at a source whose only rule has a pattern that `krb5_parse_name` rejects. -/
theorem acl_load_acl_file_catchall_last_witness :
    (acl_find_entry (krb5_parse_name [])
      [⟨bytes "a@b@c", false, none, 1⟩, ⟨bytes "*", false, none, 16⟩]
      ⟨bytes "EXAMPLE.COM", [bytes "alice"]⟩).1 ≠ none :=
  (acl_load_acl_file_catchall_last 8192 kadm5_defs (some (bytes "a@b@c a\n")) ⟨[], 0⟩ 1
    ⟨[⟨bytes "a@b@c", false, none, 1⟩, ⟨bytes "*", false, none, 16⟩], 0⟩
    (by decide) (by decide)).2.2.2 (krb5_parse_name []) ⟨bytes "EXAMPLE.COM", [bytes "alice"]⟩

/-! ## Theorems: the end of the source -/

/-- A last line of `BUFSIZ` or more characters that no newline ends: the loop of line 104
reads to the end of the file and does not exit, so neither `acl_get_line` nor
`acl_load_acl_file` returns. -/
theorem acl_load_acl_file_hangs (BUFSIZ : Nat) (K : acl_masks) (l : List Nat)
    (hl : 10 ∉ l) (hn : BUFSIZ ≤ l.length) (st : acl_state) :
    acl_get_line BUFSIZ ⟨l, false⟩ = .hangs ∧
    acl_load_acl_file BUFSIZ K (some l) st = .hangs := by
  have hb : acl_get_line_body BUFSIZ ⟨l, false⟩ = none := by
    unfold acl_get_line_body
    have hc := acl_copy_line_long BUFSIZ l [] hl hn
    rw [List.append_nil] at hc
    rw [hc]
    have h1 : (l.take BUFSIZ).length = BUFSIZ := by simp [List.length_take, hn]
    have h2 : 10 ∉ l.drop BUFSIZ := fun h => hl (List.mem_of_mem_drop h)
    simp [h1, acl_skip_line_none _ h2]
  have hg : acl_get_line BUFSIZ ⟨l, false⟩ = .hangs := by
    unfold acl_get_line
    rw [acl_get_line_loop_eq]
    simp [hb]
  refine ⟨hg, ?_⟩
  unfold acl_load_acl_file
  simp only [acl_load_lines_eq, hg]

/-- A last line made of a pattern, a blank and an operations string that no newline ends
and that is shorter than the buffer: the character read at the end of the file joins the
operations string, which no longer parses, and the load fails. -/
theorem acl_load_acl_file_last_rule_line (BUFSIZ : Nat) (K : acl_masks)
    (ls : List (List Nat)) (hls : ∀ l ∈ ls, 10 ∉ l) (pat ops : List Nat) (hp : pat ≠ [])
    (hpc : ∀ c ∈ pat, scan_char c = true)
    (hoc : ∀ c ∈ ops, scan_char c = true) (h10 : 10 ∉ pat ++ 32 :: ops)
    (hn : (pat ++ 32 :: ops).length < BUFSIZ) (hk : is_kept (pat ++ 32 :: ops) = true)
    (hh : (pat ++ 32 :: ops).head? ≠ some 255) (st : acl_state) :
    load_fails BUFSIZ K (unlines ls ++ (pat ++ 32 :: ops)) st
      (parse_lines K (ls.map (buffered BUFSIZ))).2 := by
  apply acl_load_acl_file_bad_last BUFSIZ K ls hls _ h10 hn hk hh st
  have hline : pat ++ 32 :: ops ++ [255] = pat ++ 32 :: (ops ++ [255]) := by simp
  have hoc2 : ∀ c ∈ ops ++ [255], scan_char c = true := by
    intro c hc
    rcases List.mem_append.1 hc with h | h
    · exact hoc c h
    · simp only [List.mem_singleton] at h; rw [h]; decide
  have hz : 0 ∉ pat ++ 32 :: (ops ++ [255]) := by
    have z1 := scan_char_ne_zero pat hpc
    have z2 := scan_char_ne_zero _ hoc2
    intro h
    rcases List.mem_append.1 h with h | h
    · exact z1 h
    · rcases List.mem_cons.1 h with h | h
      · simp at h
      · exact z2 h
  rw [hline]
  exact acl_parse_line_bad_op K _ pat (ops ++ [255]) 255
    (sscanf_s_s_of_tokens _ pat _ [] hz (tokens_pair pat _ hp hpc (by simp) hoc2))
    (by simp) (is_op_token_eof K)

/-! ## Claims on the end of the source -/

/-- C18: the source `bob o` without a newline behind its last line.  `acl_get_line` hands
the line over with the character read at the end of the file behind it, the operations
string becomes `o` and the byte 255, `acl_parse_line` rejects the line and the loop over
the lines ends with `retval` 0; the load installs no rule and does not return success, it
goes into `acl_free_entries` with the catchall entry in the list, where the freed entry is
read.  With the newline the load succeeds and installs the rule and the catchall. -/
theorem acl_load_acl_file_no_newline :
    acl_get_line 8192 ⟨bytes "bob o", false⟩ =
      .returns (some (bytes "bob o" ++ [255]), ⟨[], true⟩) ∧
    acl_parse_line kadm5_defs (bytes "bob o" ++ [255]) = none ∧
    acl_load_lines 8192 kadm5_defs 6 ⟨bytes "bob o", false⟩ = .returns (0, []) ∧
    acl_load_acl_file 8192 kadm5_defs (some (bytes "bob o")) ⟨[], 0⟩ = .undefined ∧
    acl_load_acl_file 8192 kadm5_defs (some (bytes "bob o\n")) ⟨[], 0⟩ =
      .returns (1, ⟨[⟨bytes "bob", false, none, 16⟩, ⟨bytes "*", false, none, 16⟩], 0⟩) := by
  decide

/-- C19: the source made of the single line `bob oo...o` of 8192 characters, with
`BUFSIZ` 8192 and no newline at its end.  Neither `acl_get_line` nor `acl_load_acl_file`
returns: the loop that discards the rest of the line waits for a newline and reads the
end of the file for ever. -/
theorem acl_load_acl_file_no_return :
    acl_get_line 8192 ⟨bytes "bob " ++ List.replicate 8188 111, false⟩ = .hangs ∧
    acl_load_acl_file 8192 kadm5_defs (some (bytes "bob " ++ List.replicate 8188 111))
      ⟨[], 0⟩ = .hangs := by
  apply acl_load_acl_file_hangs
  · intro h
    rcases List.mem_append.1 h with h | h
    · revert h; decide
    · exact absurd (List.mem_replicate.1 h).2 (by decide)
  · rw [List.length_append, List.length_replicate]
    decide

/-! ## Theorems: lines longer than the buffer -/

theorem is_kept_text (BUFSIZ : Nat) (l : List Nat) (ht : text_line l)
    (hs : skipped_line l = false) (hB : 0 < BUFSIZ) :
    buffered BUFSIZ l = l.take BUFSIZ ∧ is_kept (l.take BUFSIZ) = true := by
  obtain ⟨hz, hff⟩ := ht
  refine ⟨buffered_text BUFSIZ l hff, ?_⟩
  obtain ⟨n, rfl⟩ : ∃ n, BUFSIZ = n + 1 := ⟨BUFSIZ - 1, by omega⟩
  cases l with
  | nil => simp [skipped_line] at hs
  | cons x t =>
    have hx35 : x ≠ 35 := fun h => by simp [skipped_line, h] at hs
    have hx0 : x ≠ 0 := fun h => hz (by simp [h])
    simp [is_kept, hx35, hx0]

theorem not_kept_skipped (BUFSIZ : Nat) (l : List Nat) (hs : skipped_line l = true) :
    is_kept (buffered BUFSIZ l) = false := by
  cases l with
  | nil => simp [buffered, is_kept]
  | cons c t =>
    have hc : c = 35 := by simpa [skipped_line] using hs
    subst hc
    rw [buffered_text _ _ (by simp)]
    cases BUFSIZ with
    | zero => simp [is_kept]
    | succ n => simp [is_kept]

/-- The function `acl_get_line` passes over the lines that are skipped. -/
theorem acl_get_line_skips (BUFSIZ : Nat) (ls : List (List Nat))
    (hls : ∀ l ∈ ls, 10 ∉ l ∧ skipped_line l = true) (r : List Nat) :
    acl_get_line BUFSIZ ⟨unlines ls ++ r, false⟩ = acl_get_line BUFSIZ ⟨r, false⟩ := by
  induction ls with
  | nil => simp [unlines]
  | cons l ls ih =>
    obtain ⟨h10, hs⟩ := hls l (List.mem_cons_self _ _)
    simp only [unlines, List.append_assoc, List.cons_append]
    rw [acl_get_line_newline BUFSIZ l _ h10, not_kept_skipped BUFSIZ l hs]
    simp only [Bool.false_eq_true, if_false]
    exact ih (fun x hx => hls x (List.mem_cons_of_mem _ hx))

/-- Two sources whose lines leave the same contents in the buffer load alike. -/
theorem acl_load_acl_file_congr (BUFSIZ : Nat) (K : acl_masks) (ls ls2 : List (List Nat))
    (hls : ∀ l ∈ ls, 10 ∉ l) (hls2 : ∀ l ∈ ls2, 10 ∉ l)
    (hb : ls.map (buffered BUFSIZ) = ls2.map (buffered BUFSIZ)) (r : List Nat)
    (st : acl_state) :
    acl_load_acl_file BUFSIZ K (some (unlines ls ++ r)) st =
      acl_load_acl_file BUFSIZ K (some (unlines ls2 ++ r)) st := by
  unfold acl_load_acl_file
  have h1 := acl_load_lines_unlines BUFSIZ K ls hls r _ (Nat.le_refl _)
  have h2 := acl_load_lines_unlines BUFSIZ K ls2 hls2 r _ (Nat.le_refl _)
  have hf : acl_load_lines BUFSIZ K ((unlines ls ++ r).length + 1) ⟨r, false⟩ =
      acl_load_lines BUFSIZ K ((unlines ls2 ++ r).length + 1) ⟨r, false⟩ := by
    apply acl_load_lines_fuel <;> simp [FILE.left]
  simp only [h1, h2, hb, hf]

/-! ## Claims on lines longer than the buffer -/

/-- C16: a line longer than the line buffer is truncated, not fatal.  For a line of more
than `BUFSIZ` characters that is not skipped and that a newline ends, `acl_get_line`
returns the first `BUFSIZ` characters of the line and leaves the stream behind the
newline of the line; the next call returns the following line that is not skipped; and
the load does what it does on the source with the line cut to its first `BUFSIZ`
characters. -/
theorem acl_get_line_truncates (BUFSIZ : Nat) (hB : 0 < BUFSIZ) (l : List Nat)
    (hl : 10 ∉ l) (hlen : BUFSIZ < l.length) (ht : text_line l)
    (hs : skipped_line l = false) :
    (∀ r, acl_get_line BUFSIZ ⟨l ++ 10 :: r, false⟩ =
      .returns (some (l.take BUFSIZ), ⟨r, false⟩)) ∧
    ((l.take BUFSIZ).length = BUFSIZ ∧ l.drop BUFSIZ ≠ []) ∧
    (∀ ls nxt r, (∀ x ∈ ls, 10 ∉ x ∧ skipped_line x = true) → 10 ∉ nxt → text_line nxt →
      skipped_line nxt = false →
      acl_get_line BUFSIZ ⟨unlines ls ++ (nxt ++ 10 :: r), false⟩ =
        .returns (some (nxt.take BUFSIZ), ⟨r, false⟩)) ∧
    (∀ (K : acl_masks) (ls1 ls2 : List (List Nat)) (r : List Nat) (st : acl_state),
      (∀ x ∈ ls1, 10 ∉ x) → (∀ x ∈ ls2, 10 ∉ x) →
      acl_load_acl_file BUFSIZ K (some (unlines (ls1 ++ l :: ls2) ++ r)) st =
        acl_load_acl_file BUFSIZ K (some (unlines (ls1 ++ l.take BUFSIZ :: ls2) ++ r)) st) := by
  have key : ∀ x r, 10 ∉ x → text_line x → skipped_line x = false →
      acl_get_line BUFSIZ ⟨x ++ 10 :: r, false⟩ =
        .returns (some (x.take BUFSIZ), ⟨r, false⟩) := by
    intro x r h10 hx hsx
    obtain ⟨e1, e2⟩ := is_kept_text BUFSIZ x hx hsx hB
    rw [acl_get_line_newline BUFSIZ x r h10, e1, e2]
    simp
  refine ⟨fun r => key l r hl ht hs, ⟨?_, ?_⟩, ?_, ?_⟩
  · rw [List.length_take]; omega
  · intro h0
    have := congrArg List.length h0
    rw [List.length_drop, List.length_nil] at this
    omega
  · intro ls nxt r hls h10 hn hsn
    rw [acl_get_line_skips BUFSIZ ls hls]
    exact key nxt r h10 hn hsn
  · intro K ls1 ls2 r st h1 h2
    apply acl_load_acl_file_congr
    · intro x hx
      rcases List.mem_append.1 hx with h | h
      · exact h1 x h
      · rcases List.mem_cons.1 h with h | h
        · rw [h]; exact hl
        · exact h2 x h
    · intro x hx
      rcases List.mem_append.1 hx with h | h
      · exact h1 x h
      · rcases List.mem_cons.1 h with h | h
        · rw [h]; exact fun hm => hl (List.mem_of_mem_take hm)
        · exact h2 x h
    · have hbb : buffered BUFSIZ (l.take BUFSIZ) = buffered BUFSIZ l := by
        unfold buffered
        rw [List.take_take, Nat.min_self]
      simp [hbb]

/-- C16, at `BUFSIZ` 8192 and the line `bob oo...o` of 8196 characters, followed by the
line `eve o`. -/
theorem acl_get_line_truncates_witness :
    acl_get_line 8192
        ⟨(bytes "bob " ++ List.replicate 8192 111) ++ 10 :: bytes "eve o\n", false⟩ =
      .returns (some ((bytes "bob " ++ List.replicate 8192 111).take 8192),
        ⟨bytes "eve o\n", false⟩) :=
  (acl_get_line_truncates 8192 (by decide) (bytes "bob " ++ List.replicate 8192 111)
    (by
      intro h
      rcases List.mem_append.1 h with h | h
      · revert h; decide
      · exact absurd (List.mem_replicate.1 h).2 (by decide))
    (by rw [List.length_append, List.length_replicate]; decide)
    ⟨by
      intro h
      rcases List.mem_append.1 h with h | h
      · revert h; decide
      · exact absurd (List.mem_replicate.1 h).2 (by decide),
     by decide⟩
    (by decide)).1 (bytes "eve o\n")

/-! ## Theorems: the cache of resolved patterns -/

/-- One step of the loop of `acl_find_entry`: the entry is left resolved unless its name
is the universal wildcard, and the scan stops at it exactly when it matches. -/
theorem acl_find_entry_from_step (parse_name : List Nat → Option krb5_principal)
    (principal : krb5_principal) (e : aent_t) (rest : List aent_t) (i : Nat) :
    acl_find_entry_from parse_name principal (e :: rest) i =
      if rule_matches parse_name e principal then
        (some (i, resolve_at_load parse_name e), resolve_at_load parse_name e :: rest)
      else
        ((acl_find_entry_from parse_name principal rest (i + 1)).1,
          resolve_at_load parse_name e ::
            (acl_find_entry_from parse_name principal rest (i + 1)).2) := by
  rw [acl_find_entry_from]
  unfold rule_matches resolved_pattern resolve_at_load acl_resolve_entry needs_parse
  by_cases hs : e.ae_name = [42]
  · simp [hs]
  · simp only [hs, decide_False, Bool.false_or, if_false]
    rcases hb : e.ae_name_bad with _ | _
    · rcases hp : e.ae_principal with _ | pr
      · rcases hq : parse_name e.ae_name with _ | pr
        · simp
        · simp only [Bool.false_eq_true, if_false, ← acl_matchgood_eq]
          by_cases hm : acl_matchgood pr principal = true <;> simp [hm]
      · simp only [Bool.false_eq_true, if_false, ← acl_matchgood_eq]
        by_cases hm : acl_matchgood pr principal = true <;> simp [hm]
    · rcases hp : e.ae_principal with _ | pr <;> simp

/-- The calls of `krb5_parse_name` in one step of the loop: one call for an entry that
needs it and whose name is not the universal wildcard. -/
theorem acl_find_entry_calls_step (parse_name : List Nat → Option krb5_principal)
    (principal : krb5_principal) (e : aent_t) (rest : List aent_t) (i : Nat) :
    acl_find_entry_calls parse_name principal (e :: rest) i =
      (if e.ae_name ≠ [42] ∧ needs_parse e = true then [i] else []) ++
        (if rule_matches parse_name e principal then []
          else acl_find_entry_calls parse_name principal rest (i + 1)) := by
  rw [acl_find_entry_calls]
  unfold rule_matches resolved_pattern needs_parse
  by_cases hs : e.ae_name = [42]
  · simp [hs]
  · simp only [hs, decide_False, Bool.false_or, if_false, ne_eq, not_false_eq_true, true_and]
    rcases hb : e.ae_name_bad with _ | _
    · rcases hp : e.ae_principal with _ | pr
      · rcases hq : parse_name e.ae_name with _ | pr
        · simp
        · simp only [Bool.false_eq_true, if_false, ← acl_matchgood_eq]
          by_cases hm : acl_matchgood pr principal = true <;> simp [hm]
      · simp only [Bool.false_eq_true, if_false, ← acl_matchgood_eq]
        by_cases hm : acl_matchgood pr principal = true <;> simp [hm]
    · rcases hp : e.ae_principal with _ | pr <;> simp

theorem needs_parse_resolve (parse_name : List Nat → Option krb5_principal) (e : aent_t) :
    needs_parse (acl_resolve_entry parse_name e) = false := by
  unfold acl_resolve_entry
  by_cases h : needs_parse e = true
  · rw [if_pos h]
    rcases parse_name e.ae_name with _ | pr <;> simp [needs_parse]
  · rw [if_neg h]; simpa using h

theorem rule_key_resolve (parse_name : List Nat → Option krb5_principal) (e : aent_t) :
    rule_key parse_name (resolve_at_load parse_name e) = rule_key parse_name e := by
  rcases e with ⟨nm, bad, pr, mask⟩
  unfold resolve_at_load
  by_cases hs : nm = [42]
  · simp [hs]
  · simp only [hs, if_false]
    unfold acl_resolve_entry needs_parse rule_key resolved_pattern
    cases bad
    · cases pr
      · rcases hq : parse_name nm with _ | q <;> simp [hs, hq]
      · simp
    · cases pr <;> simp

/-- Whether a rule matches is decided by its key. -/
theorem rule_matches_key (parse_name q : List Nat → Option krb5_principal) (e e2 : aent_t)
    (p : krb5_principal) (h : rule_key q e2 = rule_key parse_name e) :
    rule_matches q e2 p = rule_matches parse_name e p := by
  unfold rule_key at h
  simp only [Prod.mk.injEq] at h
  obtain ⟨h1, -, h3⟩ := h
  unfold rule_matches
  by_cases hs : e.ae_name = [42]
  · simp [hs, h1]
  · have hs2 : ¬ e2.ae_name = [42] := by rw [h1]; exact hs
    simp only [hs, hs2, if_false] at h3
    simp [hs, hs2, h3]

/-- A scan leaves the key of every entry as it was. -/
theorem acl_find_entry_from_keys (parse_name : List Nat → Option krb5_principal)
    (principal : krb5_principal) (l : List aent_t) (i : Nat) :
    (acl_find_entry_from parse_name principal l i).2.map (rule_key parse_name) =
      l.map (rule_key parse_name) := by
  induction l generalizing i with
  | nil => simp [acl_find_entry_from]
  | cons e rest ih =>
    rw [acl_find_entry_from_step]
    by_cases hm : rule_matches parse_name e principal = true
    · simp [hm, rule_key_resolve]
    · simp [hm, rule_key_resolve, ih]

theorem acl_scans_keys (parse_name : List Nat → Option krb5_principal) (l : List aent_t)
    (ps : List krb5_principal) :
    (acl_scans parse_name l ps).map (rule_key parse_name) = l.map (rule_key parse_name) := by
  induction ps generalizing l with
  | nil => rfl
  | cons p ps ih =>
    rw [acl_scans, ih]
    exact acl_find_entry_from_keys parse_name p l 0

/-- The decision of a scan is decided by the keys of the entries. -/
theorem acl_find_entry_from_decision (parse_name q : List Nat → Option krb5_principal)
    (p : krb5_principal) (l l2 : List aent_t) (i : Nat)
    (h : l2.map (rule_key q) = l.map (rule_key parse_name)) :
    decision (acl_find_entry_from q p l2 i).1 =
      decision (acl_find_entry_from parse_name p l i).1 := by
  induction l generalizing l2 i with
  | nil =>
    cases l2 with
    | nil => rfl
    | cons a t => simp at h
  | cons e rest ih =>
    cases l2 with
    | nil => simp at h
    | cons e2 rest2 =>
      simp only [List.map_cons, List.cons.injEq] at h
      obtain ⟨hk, hrest⟩ := h
      have hm := rule_matches_key parse_name q e e2 p hk
      rw [acl_find_entry_from_step, acl_find_entry_from_step, hm]
      by_cases hr : rule_matches parse_name e p = true
      · have k1 := congrArg (fun x => x.2.1) (rule_key_resolve q e2)
        have k2 := congrArg (fun x => x.2.1) (rule_key_resolve parse_name e)
        have k3 := congrArg (fun x => x.2.1) hk
        simp only [rule_key] at k1 k2 k3
        simp [hr, decision, k1, k2, k3]
      · simp only [hr, Bool.false_eq_true, if_false]
        exact ih rest2 (i + 1) hrest

theorem rule_key_fresh (parse_name q : List Nat → Option krb5_principal) (e : aent_t)
    (h : needs_parse e = true) :
    rule_key q (resolve_at_load parse_name e) = rule_key parse_name e := by
  rcases e with ⟨nm, bad, pr, mask⟩
  simp only [needs_parse, Bool.and_eq_true, Option.isNone_iff_eq_none,
    Bool.not_eq_true'] at h
  obtain ⟨h1, h2⟩ := h
  subst h1 h2
  unfold resolve_at_load
  by_cases hs : nm = [42]
  · simp [hs, rule_key]
  · simp only [hs, if_false]
    unfold acl_resolve_entry needs_parse rule_key resolved_pattern
    rcases hq : parse_name nm with _ | x <;> simp [hs, hq]

theorem acl_op_permitted_decision (parse_name : List Nat → Option krb5_principal)
    (l : List aent_t) (p : krb5_principal) (opmask : Nat) :
    acl_op_permitted parse_name l p opmask =
      match decision (acl_find_entry parse_name l p).1 with
      | some d => decide (d.2 &&& opmask = opmask)
      | none => false := by
  unfold acl_op_permitted decision
  rcases (acl_find_entry parse_name l p).1 with _ | ⟨i, e⟩
  · rfl
  · by_cases hm : e.ae_op_allowed &&& opmask = opmask <;> simp [hm]

theorem acl_find_entry_calls_resolved (q parse_name : List Nat → Option krb5_principal)
    (p : krb5_principal) (l : List aent_t) (i : Nat) :
    acl_find_entry_calls q p (l.map (resolve_at_load parse_name)) i = [] := by
  induction l generalizing i with
  | nil => rfl
  | cons e rest ih =>
    rw [List.map_cons, acl_find_entry_calls_step, ih]
    have hn : ¬ ((resolve_at_load parse_name e).ae_name ≠ [42] ∧
        needs_parse (resolve_at_load parse_name e) = true) := by
      rintro ⟨h1, h2⟩
      unfold resolve_at_load at h1 h2
      by_cases hs : e.ae_name = [42]
      · rw [if_pos hs] at h1; exact h1 hs
      · rw [if_neg hs, needs_parse_resolve] at h2
        simp at h2
    simp [hn]

/-- The entries a load installs are not resolved. -/
theorem acl_parse_line_fresh (K : acl_masks) (lp : List Nat) (e : aent_t)
    (h : acl_parse_line K lp = some e) : needs_parse e = true := by
  unfold acl_parse_line at h
  by_cases h2 : (sscanf_s_s lp).1 = 2
  · simp only [h2, if_true] at h
    by_cases h3 : (acl_parse_ops K (sscanf_s_s lp).2.2 (true, 0)).1 = true
    · simp only [h3, if_true, Option.some.injEq] at h
      rw [← h]; rfl
    · simp [h3] at h
  · simp [h2] at h

/-! ## Claims on the cache of resolved patterns -/

/-- C17: lazy resolution decides as eager resolution does.  With `krb5_parse_name` a
function of the pattern text, start from a list of entries that are not resolved, as a
load installs them, and run any sequence of scans; then for every principal
`acl_find_entry` returns an entry at the same position and with the same allowed mask as
on the list in which every pattern other than `*` was resolved beforehand, where no call
of `krb5_parse_name` is made any more, and `acl_op_permitted` decides alike. -/
theorem acl_find_entry_lazy_eager (parse_name q : List Nat → Option krb5_principal)
    (l0 : List aent_t) (hfresh : ∀ e ∈ l0, needs_parse e = true)
    (ps : List krb5_principal) (p : krb5_principal) :
    decision (acl_find_entry parse_name (acl_scans parse_name l0 ps) p).1 =
      decision (acl_find_entry q (l0.map (resolve_at_load parse_name)) p).1 ∧
    (∀ opmask, acl_op_permitted parse_name (acl_scans parse_name l0 ps) p opmask =
      acl_op_permitted q (l0.map (resolve_at_load parse_name)) p opmask) ∧
    acl_find_entry_calls q p (l0.map (resolve_at_load parse_name)) 0 = [] := by
  have hk : (l0.map (resolve_at_load parse_name)).map (rule_key q) =
      (acl_scans parse_name l0 ps).map (rule_key parse_name) := by
    rw [acl_scans_keys, List.map_map]
    apply List.map_congr_left
    intro e he
    exact rule_key_fresh parse_name q e (hfresh e he)
  have hd := acl_find_entry_from_decision parse_name q p _ _ 0 hk
  refine ⟨hd.symm, ?_, acl_find_entry_calls_resolved q parse_name p l0 0⟩
  intro opmask
  rw [acl_op_permitted_decision, acl_op_permitted_decision]
  unfold acl_find_entry
  rw [hd]

/-- C17, at a store of three rules, the second with a pattern that does not parse, after
scans for bob and for alice. -/
theorem acl_find_entry_lazy_eager_witness :
    decision (acl_find_entry (krb5_parse_name [])
      (acl_scans (krb5_parse_name [])
        [⟨bytes "a@b@c", false, none, 2⟩, ⟨bytes "alice@EXAMPLE.COM", false, none, 1⟩,
          ⟨bytes "*", false, none, 16⟩]
        [⟨bytes "EXAMPLE.COM", [bytes "bob"]⟩, ⟨bytes "EXAMPLE.COM", [bytes "alice"]⟩])
      ⟨bytes "EXAMPLE.COM", [bytes "alice"]⟩).1 =
    decision (acl_find_entry (fun _ => none)
      ([⟨bytes "a@b@c", false, none, 2⟩, ⟨bytes "alice@EXAMPLE.COM", false, none, 1⟩,
          ⟨bytes "*", false, none, 16⟩].map (resolve_at_load (krb5_parse_name [])))
      ⟨bytes "EXAMPLE.COM", [bytes "alice"]⟩).1 :=
  (acl_find_entry_lazy_eager (krb5_parse_name []) (fun _ => none)
    [⟨bytes "a@b@c", false, none, 2⟩, ⟨bytes "alice@EXAMPLE.COM", false, none, 1⟩,
      ⟨bytes "*", false, none, 16⟩] (by decide)
    [⟨bytes "EXAMPLE.COM", [bytes "bob"]⟩, ⟨bytes "EXAMPLE.COM", [bytes "alice"]⟩]
    ⟨bytes "EXAMPLE.COM", [bytes "alice"]⟩).1

theorem resolve_at_load_fresh (parse_name : List Nat → Option krb5_principal) (e : aent_t)
    (h : needs_parse (resolve_at_load parse_name e) = true) :
    e.ae_name = [42] ∧ resolve_at_load parse_name e = e := by
  unfold resolve_at_load at h ⊢
  by_cases hs : e.ae_name = [42]
  · exact ⟨hs, by rw [if_pos hs]⟩
  · rw [if_neg hs, needs_parse_resolve] at h
    simp at h

theorem rule_matches_star (parse_name : List Nat → Option krb5_principal) (e : aent_t)
    (p : krb5_principal) (h : e.ae_name = [42]) : rule_matches parse_name e p = true := by
  simp [rule_matches, h]

/-- A call of `krb5_parse_name` in a scan is made for an entry that needs it. -/
theorem acl_find_entry_calls_fresh (parse_name : List Nat → Option krb5_principal)
    (p : krb5_principal) (l : List aent_t) (i x : Nat)
    (hx : x ∈ acl_find_entry_calls parse_name p l i) :
    i ≤ x ∧ ∃ e, l[x - i]? = some e ∧ needs_parse e = true := by
  induction l generalizing i with
  | nil => simp [acl_find_entry_calls] at hx
  | cons e rest ih =>
    rw [acl_find_entry_calls_step] at hx
    rcases List.mem_append.1 hx with h | h
    · by_cases hc : e.ae_name ≠ [42] ∧ needs_parse e = true
      · rw [if_pos hc, List.mem_singleton] at h
        subst h
        exact ⟨Nat.le_refl _, e, by simp, hc.2⟩
      · rw [if_neg hc] at h; simp at h
    · by_cases hm : rule_matches parse_name e p = true
      · rw [if_pos hm] at h; simp at h
      · rw [if_neg hm] at h
        obtain ⟨h1, e0, h2, h3⟩ := ih (i + 1) h
        have hxi : x - i = (x - (i + 1)) + 1 := by omega
        exact ⟨by omega, e0, by rw [hxi, List.getElem?_cons_succ]; exact h2, h3⟩

/-- An entry that still needs a call after a scan needed it before, and no call of the
scan was made for it. -/
theorem acl_find_entry_from_fresh (parse_name : List Nat → Option krb5_principal)
    (p : krb5_principal) (l : List aent_t) (i j : Nat) (e2 : aent_t)
    (hj : (acl_find_entry_from parse_name p l i).2[j]? = some e2)
    (hn : needs_parse e2 = true) :
    l[j]? = some e2 ∧ i + j ∉ acl_find_entry_calls parse_name p l i := by
  induction l generalizing i j with
  | nil => simp [acl_find_entry_from] at hj
  | cons e rest ih =>
    rw [acl_find_entry_from_step] at hj
    rw [acl_find_entry_calls_step]
    cases j with
    | zero =>
      have hh : resolve_at_load parse_name e = e2 := by
        by_cases hm : rule_matches parse_name e p = true
        · simpa [hm] using hj
        · simpa [hm] using hj
      rw [← hh] at hn
      obtain ⟨hs, he⟩ := resolve_at_load_fresh parse_name e hn
      have hm := rule_matches_star parse_name e p hs
      refine ⟨by rw [← hh, he]; simp, ?_⟩
      simp [hs, hm]
    | succ j =>
      by_cases hm : rule_matches parse_name e p = true
      · simp only [hm, if_true, List.getElem?_cons_succ] at hj
        refine ⟨by simpa using hj, ?_⟩
        by_cases hc : e.ae_name ≠ [42] ∧ needs_parse e = true
        · rw [if_pos hc, if_pos hm]
          simp only [List.append_nil, List.mem_singleton]
          omega
        · rw [if_neg hc, if_pos hm]; simp
      · simp only [hm, Bool.false_eq_true, if_false, List.getElem?_cons_succ] at hj
        obtain ⟨h1, h2⟩ := ih (i + 1) j hj
        refine ⟨by simpa using h1, ?_⟩
        have h3 : i + (j + 1) ∉ acl_find_entry_calls parse_name p rest (i + 1) := by
          have : i + (j + 1) = i + 1 + j := by omega
          rw [this]; exact h2
        by_cases hc : e.ae_name ≠ [42] ∧ needs_parse e = true
        · rw [if_pos hc, if_neg hm]
          simp only [List.singleton_append, List.mem_cons, not_or]
          exact ⟨by omega, h3⟩
        · rw [if_neg hc, if_neg hm]
          simpa using h3

theorem acl_find_entry_calls_nodup (parse_name : List Nat → Option krb5_principal)
    (p : krb5_principal) (l : List aent_t) (i : Nat) :
    (acl_find_entry_calls parse_name p l i).Nodup := by
  induction l generalizing i with
  | nil => simp [acl_find_entry_calls]
  | cons e rest ih =>
    rw [acl_find_entry_calls_step]
    by_cases hm : rule_matches parse_name e p = true
    · by_cases hc : e.ae_name ≠ [42] ∧ needs_parse e = true <;> simp [hm, hc]
    · have hlt : i ∉ acl_find_entry_calls parse_name p rest (i + 1) := by
        intro h
        have := (acl_find_entry_calls_fresh parse_name p rest (i + 1) i h).1
        omega
      by_cases hc : e.ae_name ≠ [42] ∧ needs_parse e = true
      · rw [if_pos hc, if_neg hm]
        simp only [List.singleton_append, List.nodup_cons]
        exact ⟨hlt, ih (i + 1)⟩
      · rw [if_neg hc, if_neg hm]
        simpa using ih (i + 1)

theorem acl_scans_calls_fresh (parse_name : List Nat → Option krb5_principal)
    (l : List aent_t) (ps : List krb5_principal) (x : Nat)
    (hx : x ∈ acl_scans_calls parse_name l ps) :
    ∃ e, l[x]? = some e ∧ needs_parse e = true := by
  induction ps generalizing l with
  | nil => simp [acl_scans_calls] at hx
  | cons p ps ih =>
    rw [acl_scans_calls] at hx
    rcases List.mem_append.1 hx with h | h
    · obtain ⟨-, e, h1, h2⟩ := acl_find_entry_calls_fresh parse_name p l 0 x h
      exact ⟨e, by simpa using h1, h2⟩
    · obtain ⟨e, h1, h2⟩ := ih _ h
      exact ⟨e, (acl_find_entry_from_fresh parse_name p l 0 x e h1 h2).1, h2⟩

/-- Over any sequence of scans `krb5_parse_name` is called at most once for an entry. -/
theorem acl_scans_calls_nodup (parse_name : List Nat → Option krb5_principal)
    (l : List aent_t) (ps : List krb5_principal) :
    (acl_scans_calls parse_name l ps).Nodup := by
  induction ps generalizing l with
  | nil => simp [acl_scans_calls]
  | cons p ps ih =>
    rw [acl_scans_calls, List.nodup_append]
    refine ⟨acl_find_entry_calls_nodup parse_name p l 0, ih _, ?_⟩
    intro x hx1 hx2
    obtain ⟨e, h1, h2⟩ := acl_scans_calls_fresh parse_name _ ps x hx2
    have := (acl_find_entry_from_fresh parse_name p l 0 x e h1 h2).2
    rw [Nat.zero_add] at this
    exact this hx1

theorem rule_matches_unresolvable (parse_name : List Nat → Option krb5_principal)
    (e : aent_t) (p : krb5_principal) (h : unresolvable parse_name e = true) :
    rule_matches parse_name e p = false := by
  simp only [unresolvable, ne_eq, Bool.and_eq_true, decide_eq_true_eq,
    Option.isNone_iff_eq_none] at h
  simp [rule_matches, h.1, h.2]

/-- The entry a scan returns is the one it returns on the list without the rules that do
not resolve. -/
theorem acl_find_entry_from_filter (parse_name : List Nat → Option krb5_principal)
    (p : krb5_principal) (l : List aent_t) (i j : Nat) :
    (acl_find_entry_from parse_name p l i).1.map Prod.snd =
      (acl_find_entry_from parse_name p
        (l.filter (fun e => !unresolvable parse_name e)) j).1.map Prod.snd := by
  induction l generalizing i j with
  | nil => rfl
  | cons e rest ih =>
    by_cases hu : unresolvable parse_name e = true
    · have hm := rule_matches_unresolvable parse_name e p hu
      rw [List.filter_cons_of_neg (by simp [hu]), acl_find_entry_from_step]
      simp only [hm, Bool.false_eq_true, if_false]
      exact ih (i + 1) j
    · rw [List.filter_cons_of_pos (by simpa using hu), acl_find_entry_from_step,
        acl_find_entry_from_step]
      by_cases hm : rule_matches parse_name e p = true
      · simp [hm]
      · simp only [hm, Bool.false_eq_true, if_false]
        exact ih (i + 1) (j + 1)

/-- C15: a rule whose pattern text `krb5_parse_name` cannot parse is not fatal and is
skipped for good.  The scan that first reaches it calls `krb5_parse_name` once, sets
`ae_name_bad`, does not match the rule and goes on with the next one; a scan that finds
`ae_name_bad` set passes the rule over without a call and leaves it as it is; over any
sequence of scans no entry has `krb5_parse_name` called for it twice; and the entry
returned for a principal is the one returned on the list without the rules that do not
resolve. -/
theorem acl_find_entry_unresolvable (parse_name : List Nat → Option krb5_principal)
    (p : krb5_principal) :
    (∀ (e : aent_t) (rest : List aent_t) (i : Nat), e.ae_name ≠ [42] →
      needs_parse e = true → parse_name e.ae_name = none →
      acl_find_entry_from parse_name p (e :: rest) i =
        ((acl_find_entry_from parse_name p rest (i + 1)).1,
          { e with ae_name_bad := true } ::
            (acl_find_entry_from parse_name p rest (i + 1)).2) ∧
      acl_find_entry_calls parse_name p (e :: rest) i =
        i :: acl_find_entry_calls parse_name p rest (i + 1)) ∧
    (∀ (e : aent_t) (rest : List aent_t) (i : Nat), e.ae_name ≠ [42] →
      e.ae_name_bad = true →
      acl_find_entry_from parse_name p (e :: rest) i =
        ((acl_find_entry_from parse_name p rest (i + 1)).1,
          e :: (acl_find_entry_from parse_name p rest (i + 1)).2) ∧
      acl_find_entry_calls parse_name p (e :: rest) i =
        acl_find_entry_calls parse_name p rest (i + 1)) ∧
    (∀ (l : List aent_t) (ps : List krb5_principal),
      (acl_scans_calls parse_name l ps).Nodup) ∧
    (∀ l : List aent_t,
      (acl_find_entry parse_name l p).1.map Prod.snd =
        (acl_find_entry parse_name
          (l.filter (fun e => !unresolvable parse_name e)) p).1.map Prod.snd) := by
  refine ⟨?_, ?_, acl_scans_calls_nodup parse_name,
    fun l => acl_find_entry_from_filter parse_name p l 0 0⟩
  · intro e rest i hs hn hq
    rcases e with ⟨nm, bad, pr, mask⟩
    simp only [needs_parse, Bool.and_eq_true, Option.isNone_iff_eq_none,
      Bool.not_eq_true'] at hn
    obtain ⟨h1, h2⟩ := hn
    subst h1 h2
    have hs2 : ¬ nm = [42] := hs
    simp only at hq
    constructor
    · rw [acl_find_entry_from]
      simp [hs2, hq]
    · rw [acl_find_entry_calls]
      simp [hs2, hq]
  · intro e rest i hs hb
    rcases e with ⟨nm, bad, pr, mask⟩
    simp only at hb
    subst hb
    have hs2 : ¬ nm = [42] := hs
    constructor
    · rw [acl_find_entry_from]
      cases pr <;> simp [hs2]
    · rw [acl_find_entry_calls]
      cases pr <;> simp [hs2]

/-- C15, at the store with the rules `a@b@c d`, whose pattern does not parse, and `* o`,
scanned for alice, for bob and for alice again. -/
theorem acl_find_entry_unresolvable_witness :
    acl_find_entry_calls (krb5_parse_name []) ⟨bytes "EXAMPLE.COM", [bytes "alice"]⟩
      [⟨bytes "a@b@c", false, none, 2⟩, ⟨bytes "*", false, none, 16⟩] 0 =
      0 :: acl_find_entry_calls (krb5_parse_name []) ⟨bytes "EXAMPLE.COM", [bytes "alice"]⟩
        [⟨bytes "*", false, none, 16⟩] 1 ∧
    (acl_scans_calls (krb5_parse_name [])
      [⟨bytes "a@b@c", false, none, 2⟩, ⟨bytes "*", false, none, 16⟩]
      [⟨bytes "EXAMPLE.COM", [bytes "alice"]⟩, ⟨bytes "EXAMPLE.COM", [bytes "bob"]⟩,
        ⟨bytes "EXAMPLE.COM", [bytes "alice"]⟩]).Nodup :=
  ⟨((acl_find_entry_unresolvable (krb5_parse_name [])
      ⟨bytes "EXAMPLE.COM", [bytes "alice"]⟩).1 ⟨bytes "a@b@c", false, none, 2⟩
      [⟨bytes "*", false, none, 16⟩] 0 (by decide) (by decide) (by decide)).2,
    (acl_find_entry_unresolvable (krb5_parse_name [])
      ⟨bytes "EXAMPLE.COM", [bytes "alice"]⟩).2.2.1 _ _⟩

/-- The entries a load installs have no cached pattern and no mark: the first scan that
reaches one of them resolves it. -/
theorem acl_load_lines_fresh (BUFSIZ : Nat) (K : acl_masks) (k : Nat) (fp : FILE)
    (rv : Nat) (es : List aent_t) (h : acl_load_lines BUFSIZ K k fp = .returns (rv, es)) :
    ∀ e ∈ es, needs_parse e = true := by
  induction k generalizing fp rv es with
  | zero =>
    rw [acl_load_lines_eq] at h
    rcases hg : acl_get_line BUFSIZ fp with ⟨_ | line, afp1⟩ | _ | _ | _
    · simp only [hg, run.returns.injEq, Prod.mk.injEq] at h
      rw [← h.2]; simp
    · simp only [hg] at h
      rcases hp : acl_parse_line K line with _ | aent
      · simp only [hp, run.returns.injEq, Prod.mk.injEq] at h
        rw [← h.2]; simp
      · simp [hp] at h
    · simp [hg] at h
    · simp [hg] at h
    · simp [hg] at h
  | succ a ih =>
    rw [acl_load_lines_eq] at h
    rcases hg : acl_get_line BUFSIZ fp with ⟨_ | line, afp1⟩ | _ | _ | _
    · simp only [hg, run.returns.injEq, Prod.mk.injEq] at h
      rw [← h.2]; simp
    · simp only [hg] at h
      rcases hp : acl_parse_line K line with _ | aent
      · simp only [hp, run.returns.injEq, Prod.mk.injEq] at h
        rw [← h.2]; simp
      · simp only [hp] at h
        rcases hr : acl_load_lines BUFSIZ K a afp1 with ⟨rv1, es1⟩ | _ | _ | _
        · simp only [hr, run.link, run.returns.injEq, Prod.mk.injEq] at h
          rw [← h.2]
          intro e he
          rcases List.mem_append.1 he with h1 | h1
          · simp only [List.mem_singleton] at h1
            rw [h1]; exact acl_parse_line_fresh K line aent hp
          · exact ih afp1 rv1 es1 hr e h1
        · simp [hr, run.link] at h
        · simp [hr, run.link] at h
        · simp [hr, run.link] at h
    · simp [hg] at h
    · simp [hg] at h
    · simp [hg] at h

theorem acl_load_acl_file_fresh (BUFSIZ : Nat) (K : acl_masks) (file : Option (List Nat))
    (st : acl_state) (rv : Nat) (s : acl_state)
    (h : acl_load_acl_file BUFSIZ K file st = .returns (rv, s)) :
    ∀ e ∈ s.acl_list, needs_parse e = true := by
  unfold acl_load_acl_file at h
  rcases file with _ | content
  · simp only [acl_parse_line_catchall, acl_load_end, Nat.one_ne_zero, if_false,
      run.returns.injEq, Prod.mk.injEq] at h
    rw [← h.2]
    intro e he
    simp only [List.mem_singleton] at he
    rw [he]; rfl
  · simp only [acl_parse_line_catchall] at h
    rcases hl : acl_load_lines BUFSIZ K (content.length + 1) ⟨content, false⟩ with
      ⟨rv1, es⟩ | _ | _ | _
    · simp only [hl] at h
      have hf := acl_load_lines_fresh BUFSIZ K _ _ rv1 es hl
      by_cases h0 : rv1 = 0
      · subst h0
        rw [acl_load_end_entry] at h
        simp at h
      · simp only [acl_load_end, h0, if_false, run.returns.injEq, Prod.mk.injEq] at h
        rw [← h.2]
        intro e he
        rcases List.mem_append.1 he with h1 | h1
        · exact hf e h1
        · simp only [List.mem_singleton] at h1
          rw [h1]; rfl
    · simp [hl] at h
    · simp [hl] at h
    · simp [hl] at h

end SrvAcl
